import Mathlib

/-!
Verification of `scripts/import-posts.mjs` (Helixbytes Sanity importer).

Strings of the JavaScript source are modelled as `List Char`; objects become
inductive types; the run-scoped fresh-key generator (`generateKey`, which draws
random hex strings) is modelled as a counter handing out distinct `Nat` keys,
with the run's actual random draws applied as a positional relabelling where a
claim depends on their randomness.
-/

namespace Importer

/-- Whitespace as recognised by JavaScript `String.prototype.trim` and `\s`
(restricted to the ASCII whitespace occurring in Markdown text). -/
def isWS (c : Char) : Bool :=
  c = ' ' || c = '\t' || c = '\n' || c = '\r' || c = '\x0b' || c = '\x0c'

/-- JavaScript `String.prototype.trim`: strip leading and trailing whitespace. -/
def trim (s : List Char) : List Char :=
  ((s.dropWhile isWS).reverse.dropWhile isWS).reverse

/-- JavaScript `String.prototype.indexOf`: index of the leftmost occurrence of
`t` in `s`, `none` when there is none. -/
def idxOf (t : List Char) : List Char → Option Nat
  | [] => if t.isPrefixOf [] then some 0 else none
  | c :: s' => if t.isPrefixOf (c :: s') then some 0 else (idxOf t s').map (· + 1)

/-- JavaScript `String.prototype.includes`, via `idxOf`. -/
def containsTok (s t : List Char) : Bool :=
  (idxOf t s).isSome

theorem isPrefixOf_iff {t s : List Char} : t.isPrefixOf s = true ↔ t <+: s := by
  exact List.isPrefixOf_iff_prefix

theorem idxOf_eq_some_prefix {t s : List Char} {i : Nat} (h : idxOf t s = some i) :
    t <+: s.drop i := by
  induction s generalizing i with
  | nil =>
    unfold idxOf at h
    by_cases hp : t.isPrefixOf ([] : List Char) = true
    · simp [hp] at h
      subst h
      simpa using (isPrefixOf_iff).1 hp
    · simp [hp] at h
  | cons c s' ih =>
    unfold idxOf at h
    by_cases hp : t.isPrefixOf (c :: s') = true
    · simp [hp] at h
      subst h
      simpa using (isPrefixOf_iff).1 hp
    · simp [hp] at h
      obtain ⟨j, hj, rfl⟩ := h
      simpa using ih hj

theorem idxOf_eq_some_min {t s : List Char} {i : Nat} (h : idxOf t s = some i) :
    ∀ j < i, ¬ t <+: s.drop j := by
  induction s generalizing i with
  | nil =>
    unfold idxOf at h
    by_cases hp : t.isPrefixOf ([] : List Char) = true
    · simp [hp] at h
      subst h
      omega
    · simp [hp] at h
  | cons c s' ih =>
    unfold idxOf at h
    by_cases hp : t.isPrefixOf (c :: s') = true
    · simp [hp] at h
      subst h
      omega
    · simp [hp] at h
      obtain ⟨i', hi', rfl⟩ := h
      intro j hj
      cases j with
      | zero =>
        intro hpre
        exact hp ((isPrefixOf_iff).2 (by simpa using hpre))
      | succ j' =>
        intro hpre
        exact ih hi' j' (by omega) (by simpa using hpre)

theorem idxOf_eq_none {t s : List Char} (h : idxOf t s = none) :
    ∀ j, ¬ t <+: s.drop j := by
  induction s with
  | nil =>
    unfold idxOf at h
    by_cases hp : t.isPrefixOf ([] : List Char) = true
    · simp [hp] at h
    · intro j hpre
      have ht : t = [] := by simpa using hpre
      exact hp ((isPrefixOf_iff).2 (by simp [ht]))
  | cons c s' ih =>
    unfold idxOf at h
    by_cases hp : t.isPrefixOf (c :: s') = true
    · simp [hp] at h
    · simp [hp] at h
      intro j
      cases j with
      | zero =>
        intro hpre
        exact hp ((isPrefixOf_iff).2 (by simpa using hpre))
      | succ j' =>
        exact ih h j'

theorem idxOf_isSome_of_prefix_drop {t s : List Char} {j : Nat} (h : t <+: s.drop j) :
    (idxOf t s).isSome := by
  cases hidx : idxOf t s with
  | none => exact absurd h (idxOf_eq_none hidx j)
  | some i => simp

/-- `t` occurs in `s` iff it is a prefix of some tail of `s`. -/
theorem infix_iff_prefix_drop {t s : List Char} :
    t <:+: s ↔ ∃ i, t <+: s.drop i := by
  constructor
  · rintro ⟨u, v, rfl⟩
    exact ⟨u.length, by simp [List.drop_left]⟩
  · rintro ⟨i, r, hr⟩
    exact ⟨s.take i, r, by rw [List.append_assoc, hr, List.take_append_drop]⟩

theorem containsTok_eq_true_iff {s t : List Char} :
    containsTok s t = true ↔ t <:+: s := by
  unfold containsTok
  rw [infix_iff_prefix_drop]
  constructor
  · intro h
    cases hidx : idxOf t s with
    | none => simp [hidx] at h
    | some i => exact ⟨i, idxOf_eq_some_prefix hidx⟩
  · rintro ⟨i, hi⟩
    exact idxOf_isSome_of_prefix_drop hi

/-- The decimal digit characters. -/
def digitChars : List Char := ['0', '1', '2', '3', '4', '5', '6', '7', '8', '9']

/-- The character for one decimal digit. -/
def digitChar (d : Nat) : Char := digitChars.getD d '9'

/-- Numeric value of a digit character. -/
def charVal (c : Char) : Nat := c.toNat - 48

/-- Decode a big-endian digit string. -/
def decodeNat (cs : List Char) : Nat := Nat.ofDigits 10 (cs.reverse.map charVal)

/-- JavaScript rendering `${n}` of a natural number: decimal digits,
most significant first. -/
def natChars (n : Nat) : List Char :=
  if n = 0 then ['0'] else ((Nat.digits 10 n).map digitChar).reverse

theorem digitChar_mem (d : Nat) : digitChar d ∈ digitChars := by
  unfold digitChar
  by_cases h : d < digitChars.length
  · rw [List.getD_eq_getElem _ _ h]
    exact List.getElem_mem h
  · rw [List.getD_eq_default _ _ (by omega)]
    decide

theorem charVal_digitChar {d : Nat} (hd : d < 10) : charVal (digitChar d) = d := by
  interval_cases d <;> rfl

theorem decodeNat_natChars (n : Nat) : decodeNat (natChars n) = n := by
  unfold natChars decodeNat
  by_cases h : n = 0
  · subst h; rfl
  · simp only [h, if_false, List.reverse_reverse, List.map_map]
    have hmap : (Nat.digits 10 n).map (charVal ∘ digitChar) = Nat.digits 10 n := by
      rw [show Nat.digits 10 n = (Nat.digits 10 n).map id by simp]
      rw [List.map_map]
      apply List.map_congr_left
      intro d hd
      simp only [Function.comp_apply, id_eq]
      exact charVal_digitChar (Nat.digits_lt_base (by norm_num) (by simpa using hd))
    rw [hmap, Nat.ofDigits_digits]

theorem natChars_injective : Function.Injective natChars := by
  intro a b h
  have := congrArg decodeNat h
  simpa [decodeNat_natChars] using this

theorem natChars_mem_digit {n : Nat} {c : Char} (hc : c ∈ natChars n) : c ∈ digitChars := by
  unfold natChars at hc
  by_cases h : n = 0
  · simp [h] at hc
    subst hc; decide
  · simp only [h, if_false, List.mem_reverse, List.mem_map] at hc
    obtain ⟨d, _, rfl⟩ := hc
    exact digitChar_mem d

theorem natChars_ne_nil (n : Nat) : natChars n ≠ [] := by
  unfold natChars
  by_cases h : n = 0
  · simp [h]
  · simp only [h, if_false, ne_eq, List.reverse_eq_nil_iff, List.map_eq_nil_iff]
    exact Nat.digits_ne_nil_iff_ne_zero.2 h

/-- Fixed prefix of every placeholder token (import-posts.mjs line 420). -/
def tokPre : List Char :=
  ['[', '[', '[', 'S', 'A', 'N', 'I', 'T', 'Y', '_', 'I', 'M', 'A', 'G', 'E', '_']

/-- Fixed suffix of every placeholder token. -/
def tokSuf : List Char := [']', ']', ']']

/-- The placeholder token the Token Extractor generates for the `n`-th inline
image reference: the characters of `[[[SANITY_IMAGE_${n}]]]`. -/
def mkToken (n : Nat) : List Char := tokPre ++ natChars n ++ tokSuf

/-- The token list for a document with `N` inline image references. -/
def toks (N : Nat) : List (List Char) := (List.range N).map mkToken

theorem mkToken_injective : Function.Injective mkToken := by
  intro a b h
  unfold mkToken at h
  rw [List.append_assoc, List.append_assoc] at h
  exact natChars_injective (List.append_cancel_right (List.append_cancel_left h))

theorem mkToken_ne_nil (n : Nat) : mkToken n ≠ [] := by
  simp [mkToken, tokPre]

theorem mkToken_length (n : Nat) : (mkToken n).length = 19 + (natChars n).length := by
  simp [mkToken, tokPre, tokSuf]
  omega

theorem mkToken_length_ge (n : Nat) : 20 ≤ (mkToken n).length := by
  rw [mkToken_length]
  have := natChars_ne_nil n
  have : 1 ≤ (natChars n).length := by
    cases h : natChars n with
    | nil => exact absurd h (natChars_ne_nil n)
    | cons a l => simp
  omega

theorem bracket_not_mem_drop3 (n : Nat) : '[' ∉ (mkToken n).drop 3 := by
  intro hmem
  have hsplit : (mkToken n).drop 3 =
      ['S', 'A', 'N', 'I', 'T', 'Y', '_', 'I', 'M', 'A', 'G', 'E', '_'] ++
      natChars n ++ tokSuf := by
    simp [mkToken, tokPre, List.append_assoc]
  rw [hsplit] at hmem
  simp only [List.mem_append] at hmem
  rcases hmem with (h | h) | h
  · simp at h
  · have := natChars_mem_digit h
    simp [digitChars] at this
  · simp [tokSuf] at h

theorem bracket_mem_drop_lt {n d : Nat} (h : '[' ∈ (mkToken n).drop d) : d < 3 := by
  by_contra hge
  push_neg at hge
  apply bracket_not_mem_drop3 n
  have : (mkToken n).drop d = ((mkToken n).drop 3).drop (d - 3) := by
    rw [List.drop_drop]
    congr 1
    omega
  rw [this] at h
  exact List.drop_subset _ _ h

theorem mkToken_cons_shape (n : Nat) :
    mkToken n = '[' :: '[' :: '[' ::
      (['S', 'A', 'N', 'I', 'T', 'Y', '_', 'I', 'M', 'A', 'G', 'E', '_'] ++
        natChars n ++ tokSuf) := by
  simp [mkToken, tokPre, List.append_assoc]

theorem drop_succ_of_drop_cons {l : List Char} {d : Nat} {a : Char} {u : List Char}
    (h : l.drop d = a :: u) : l.drop (d + 1) = u := by
  have h2 : l.drop (d + 1) = (l.drop d).drop 1 := by
    rw [List.drop_drop]
  rw [h2, h]
  rfl

theorem digit_marker_front {na nb r : List Char}
    (ha : ∀ c ∈ na, c ∈ digitChars) (hb : ∀ c ∈ nb, c ∈ digitChars)
    (h : nb ++ tokSuf <+: na ++ (tokSuf ++ r)) : nb = na := by
  induction nb generalizing na with
  | nil =>
    cases na with
    | nil => rfl
    | cons c na' =>
      exfalso
      rcases h with ⟨w, hw⟩
      simp only [tokSuf, List.nil_append, List.cons_append] at hw
      have hc : c = ']' := (List.cons_eq_cons.1 hw).1.symm
      have := ha c (List.mem_cons_self c na')
      rw [hc] at this
      simp [digitChars] at this
  | cons c nb' ih =>
    cases na with
    | nil =>
      exfalso
      rcases h with ⟨w, hw⟩
      simp only [tokSuf, List.nil_append, List.cons_append] at hw
      have hc : c = ']' := (List.cons_eq_cons.1 hw).1
      have := hb c (List.mem_cons_self c nb')
      rw [hc] at this
      simp [digitChars] at this
    | cons d na' =>
      rw [List.cons_append, List.cons_append, List.cons_prefix_cons] at h
      obtain ⟨hcd, htail⟩ := h
      have := ih (fun x hx => ha x (List.mem_cons_of_mem d hx))
        (fun x hx => hb x (List.mem_cons_of_mem c hx)) htail
      rw [hcd, this]

theorem mkToken_prefix_append {a b : Nat} {r : List Char}
    (h : mkToken b <+: mkToken a ++ r) : b = a := by
  unfold mkToken at h
  simp only [List.append_assoc] at h
  have h2 : natChars b ++ tokSuf <+: natChars a ++ (tokSuf ++ r) := by
    rcases h with ⟨w, hw⟩
    rw [List.append_assoc] at hw
    exact ⟨w, List.append_cancel_left hw⟩
  exact natChars_injective
    (digit_marker_front (fun c hc => natChars_mem_digit hc)
      (fun c hc => natChars_mem_digit hc) h2)

theorem mkToken_sep_aux {a b : Nat} {s : List Char} {i j : Nat} (hij : i ≤ j)
    (hi : mkToken a <+: s.drop i) (hj : mkToken b <+: s.drop j) :
    (i = j ∧ a = b) ∨ i + (mkToken a).length ≤ j := by
  by_cases hfar : i + (mkToken a).length ≤ j
  · exact Or.inr hfar
  push_neg at hfar
  left
  rcases hi with ⟨ra, hra⟩
  have hdlt : j - i < (mkToken a).length := by omega
  have hdropj : s.drop j = (mkToken a).drop (j - i) ++ ra := by
    have h1 : s.drop j = (s.drop i).drop (j - i) := by
      rw [List.drop_drop]
      congr 1
      omega
    rw [h1, ← hra, List.drop_append_eq_append_drop,
      show j - i - (mkToken a).length = 0 by omega, List.drop_zero]
  rw [hdropj] at hj
  rcases hj with ⟨rb, hrb⟩
  rw [mkToken_cons_shape b] at hrb
  have hlen20 := mkToken_length_ge a
  -- first character of the overlap
  cases hA0 : (mkToken a).drop (j - i) with
  | nil =>
    exfalso
    have := congrArg List.length hA0
    simp at this
    omega
  | cons c0 A1 =>
    rw [hA0] at hrb
    simp only [List.cons_append] at hrb
    obtain ⟨hc0, hrb1⟩ := List.cons_eq_cons.1 hrb
    have hd0 : j - i < 3 := bracket_mem_drop_lt (n := a)
      (by rw [hA0, ← hc0]; exact List.mem_cons_self _ _)
    have hA1 : (mkToken a).drop (j - i + 1) = A1 := drop_succ_of_drop_cons hA0
    cases hA1c : A1 with
    | nil =>
      exfalso
      have := congrArg List.length hA1
      rw [hA1c] at this
      simp at this
      omega
    | cons c1 A2 =>
      rw [hA1c] at hrb1
      simp only [List.cons_append] at hrb1
      obtain ⟨hc1, hrb2⟩ := List.cons_eq_cons.1 hrb1
      have hd1 : j - i + 1 < 3 := bracket_mem_drop_lt (n := a)
        (by rw [hA1, hA1c, ← hc1]; exact List.mem_cons_self _ _)
      have hA2 : (mkToken a).drop (j - i + 1 + 1) = A2 := by
        have := drop_succ_of_drop_cons (d := j - i + 1) (by rw [hA1, hA1c])
        exact this
      cases hA2c : A2 with
      | nil =>
        exfalso
        have := congrArg List.length hA2
        rw [hA2c] at this
        simp at this
        omega
      | cons c2 A3 =>
        rw [hA2c] at hrb2
        simp only [List.cons_append] at hrb2
        obtain ⟨hc2, _⟩ := List.cons_eq_cons.1 hrb2
        have hd2 : j - i + 1 + 1 < 3 := bracket_mem_drop_lt (n := a)
          (by rw [hA2, hA2c, ← hc2]; exact List.mem_cons_self _ _)
        have hji : j = i := by omega
        refine ⟨hji.symm, ?_⟩
        have hA : (mkToken a).drop (j - i) = mkToken a := by
          rw [show j - i = 0 by omega, List.drop_zero]
        rw [hA] at hA0
        have hb : mkToken b <+: mkToken a ++ ra := by
          rw [mkToken_cons_shape b]
          exact ⟨rb, by rw [hA0]; simpa using hrb⟩
        exact (mkToken_prefix_append hb).symm

/-- Two occurrences of placeholder tokens in the same string either coincide
(same position, same token) or are disjoint. -/
theorem mkToken_sep {a b : Nat} {s : List Char} {i j : Nat}
    (hi : mkToken a <+: s.drop i) (hj : mkToken b <+: s.drop j) :
    (i = j ∧ a = b) ∨ i + (mkToken a).length ≤ j ∨ j + (mkToken b).length ≤ i := by
  rcases le_or_lt i j with hle | hlt
  · rcases mkToken_sep_aux hle hi hj with h | h
    · exact Or.inl h
    · exact Or.inr (Or.inl h)
  · rcases mkToken_sep_aux (le_of_lt hlt) hj hi with h | h
    · exact Or.inl ⟨h.1.symm, h.2.symm⟩
    · exact Or.inr (Or.inr h)

/-- A child of a Portable Text block: a span (text run with marks and mark
references) or an arbitrary non-span child (`extra` records its payload).
`text = none` models a span object whose `text` field is not a string;
`key = none` models a missing `_key`. -/
inductive Child where
  | span (key : Option Nat) (text : Option (List Char)) (marks : List String)
  | extra (key : Option Nat) (payload : String)
deriving DecidableEq

/-- Payload of a Portable Text image block built by the importer:
asset reference, alt text, caption. -/
structure ImageData where
  ref : String
  alt : String
  caption : String
deriving DecidableEq

/-- A top-level Portable Text item: a text block, an image block, or any other
item (`misc` records its `_type`, e.g. `"horizontal-rule"`). -/
inductive PTItem where
  | block (key : Option Nat) (style : String) (markDefs : List String)
      (children : List Child)
  | image (key : Option Nat) (d : ImageData)
  | misc (key : Option Nat) (tname : String)
deriving DecidableEq

/-- The `tokenToImageBlock` object: an association list from token to image
data; `Object.keys` enumerates keys in insertion order. -/
abbrev TokMap := List (List Char × ImageData)

/-- `Object.keys tokenToImageBlock`. -/
def tokensOf (m : TokMap) : List (List Char) := m.map Prod.fst

/-- `tokenToImageBlock[t]`; the importer only ever looks up keys of the map. -/
def lookupTok (m : TokMap) (t : List Char) : ImageData :=
  match m.find? (fun p => p.1 == t) with
  | some p => p.2
  | none => ⟨"", "", ""⟩

/-- The concatenated span text of a block's children, as computed by both
`isTokenOnlyBlock` and `blockContainsAnyToken` (non-span children and spans
with non-string text contribute nothing). -/
def spanJoin (cs : List Child) : List Char :=
  cs.flatMap fun c =>
    match c with
    | .span _ (some t) _ => t
    | _ => []

/-- `isTokenOnlyBlock` (lines 442-451): the block's joined span text equals the
token up to surrounding whitespace. -/
def isTokenOnlyBlock (cs : List Child) (t : List Char) : Bool :=
  trim (spanJoin cs) == t

/-- `blockContainsAnyToken` (lines 458-467). -/
def blockContainsAnyToken (cs : List Child) (tokens : List (List Char)) : Bool :=
  tokens.any fun t => containsTok (spanJoin cs) t

/-- `hasMeaningfulChildren` (lines 474-483). -/
def hasMeaningfulChildren (cs : List Child) : Bool :=
  cs.any fun c =>
    match c with
    | .span _ (some t) _ => decide (0 < (trim t).length)
    | .span _ none _ => false
    | .extra _ _ => true

/-- One step of the nearest-token search: the body of the
`for (const t of tokens)` loop at lines 535-541. -/
def fnStep (text : List Char) (acc : Option (List Char × Nat)) (t : List Char) :
    Option (List Char × Nat) :=
  match idxOf t text with
  | none => acc
  | some i =>
    match acc with
    | none => some (t, i)
    | some (t', j) => if i < j then some (t, i) else some (t', j)

/-- The inner search of `splitBlockByTokensPreserveMarks` (lines 534-541):
the token with the leftmost occurrence in `text`; at equal index the earlier
token in `tokens` wins (strict `<` comparison in the source). -/
def findNearest (tokens : List (List Char)) (text : List Char) :
    Option (List Char × Nat) :=
  tokens.foldl (fnStep text) none

/-- Mutable state of `splitBlockByTokensPreserveMarks`: emitted items, the key
of the paragraph under construction, its children, and the fresh-key counter. -/
structure SplitSt where
  out : List PTItem
  curKey : Nat
  cur : List Child
  ctr : Nat
deriving DecidableEq

/-- Append one span fragment (fresh key, same marks) if its text is
non-empty. -/
def pushSpan (marks : List String) (txt : List Char) (st : SplitSt) : SplitSt :=
  if txt.isEmpty then st
  else { st with
    cur := st.cur ++ [.span (some st.ctr) (some txt) marks],
    ctr := st.ctr + 1 }

/-- `flushCurrent` (lines 506-517): emit the paragraph under construction when
it has meaningful children, then start a fresh one. -/
def flushCurrent (style : String) (markDefs : List String) (st : SplitSt) :
    SplitSt :=
  { out :=
      if hasMeaningfulChildren st.cur then
        st.out ++ [.block (some st.curKey) style markDefs st.cur]
      else st.out,
    curKey := st.ctr,
    cur := [],
    ctr := st.ctr + 1 }

/-- Flush, then emit the image block mapped to token `t` with a fresh key. -/
def emitImage (style : String) (markDefs : List String) (m : TokMap)
    (t : List Char) (st : SplitSt) : SplitSt :=
  let st2 := flushCurrent style markDefs st
  { st2 with
    out := st2.out ++ [.image (some st2.ctr) (lookupTok m t)],
    ctr := st2.ctr + 1 }

/-- Keep a non-span child (or span with non-string text) in the current
paragraph, assigning a key if it has none (lines 520-525). -/
def pushRaw (c : Child) (st : SplitSt) : SplitSt :=
  match c with
  | .span none t mk =>
    { st with cur := st.cur ++ [.span (some st.ctr) t mk], ctr := st.ctr + 1 }
  | .extra none p =>
    { st with cur := st.cur ++ [.extra (some st.ctr) p], ctr := st.ctr + 1 }
  | c => { st with cur := st.cur ++ [c] }

/-- The `while (true)` loop of `splitBlockByTokensPreserveMarks`
(lines 531-565), with fuel; the caller supplies `text.length + 1` fuel, which
suffices because every designated token is non-empty. -/
def splitSpanLoop (tokens : List (List Char)) (m : TokMap) (style : String)
    (markDefs : List String) (marks : List String) :
    Nat → List Char → SplitSt → SplitSt
  | 0, _, st => st
  | fuel + 1, text, st =>
    match findNearest tokens text with
    | none => pushSpan marks text st
    | some (t, idx) =>
      splitSpanLoop tokens m style markDefs marks fuel
        (text.drop (idx + t.length))
        (emitImage style markDefs m t (pushSpan marks (text.take idx) st))

/-- The `for (const child of block.children)` loop (lines 519-566). -/
def splitChildren (tokens : List (List Char)) (m : TokMap) (style : String)
    (markDefs : List String) : List Child → SplitSt → SplitSt
  | [], st => st
  | c :: cs, st =>
    match c with
    | .span _ (some text) marks =>
      splitChildren tokens m style markDefs cs
        (splitSpanLoop tokens m style markDefs marks (text.length + 1) text st)
    | c => splitChildren tokens m style markDefs cs (pushRaw c st)

/-- JavaScript `block.style || "normal"`. -/
def jsStyle (s : String) : String := if s = "" then "normal" else s

/-- `splitBlockByTokensPreserveMarks` (lines 494-570); returns the produced
items and the advanced fresh-key counter. -/
def splitBlockByTokensPreserveMarks (style : String) (markDefs : List String)
    (children : List Child) (tokens : List (List Char)) (m : TokMap)
    (ctr : Nat) : List PTItem × Nat :=
  let st0 : SplitSt := { out := [], curKey := ctr, cur := [], ctr := ctr + 1 }
  let st1 := splitChildren tokens m (jsStyle style) markDefs children st0
  let st2 := flushCurrent (jsStyle style) markDefs st1
  (st2.out, st2.ctr)

/-- `it._key ? it : { ...it, _key: generateKey() }`. -/
def itemWithKey (it : PTItem) (ctr : Nat) : PTItem × Nat :=
  match it with
  | .block none sty md cs => (.block (some ctr) sty md cs, ctr + 1)
  | .image none d => (.image (some ctr) d, ctr + 1)
  | .misc none p => (.misc (some ctr) p, ctr + 1)
  | it => (it, ctr)

/-- `replaceTokensWithImageBlocksPreserveMarks` (lines 580-608). -/
def replaceTokens (m : TokMap) : List PTItem → Nat → List PTItem × Nat
  | [], ctr => ([], ctr)
  | it :: its, ctr =>
    match it with
    | .block k sty md cs =>
      match (tokensOf m).find? (fun t => isTokenOnlyBlock cs t) with
      | some t =>
        let r := replaceTokens m its (ctr + 1)
        (PTItem.image (some ctr) (lookupTok m t) :: r.1, r.2)
      | none =>
        if blockContainsAnyToken cs (tokensOf m) then
          let b := splitBlockByTokensPreserveMarks sty md cs (tokensOf m) m ctr
          let r := replaceTokens m its b.2
          (b.1 ++ r.1, r.2)
        else
          let r := replaceTokens m its ctr
          (PTItem.block k sty md cs :: r.1, r.2)
    | it =>
      let p := itemWithKey it ctr
      let r := replaceTokens m its p.2
      (p.1 :: r.1, r.2)

/-- `child._key ? child : { ...child, _key: generateKey() }`. -/
def childWithKey (c : Child) (ctr : Nat) : Child × Nat :=
  match c with
  | .span none t mk => (.span (some ctr) t mk, ctr + 1)
  | .extra none p => (.extra (some ctr) p, ctr + 1)
  | c => (c, ctr)

def childrenWithKeys : List Child → Nat → List Child × Nat
  | [], ctr => ([], ctr)
  | c :: cs, ctr =>
    let p := childWithKey c ctr
    let r := childrenWithKeys cs p.2
    (p.1 :: r.1, r.2)

/-- `ensureKeys` (lines 614-627). -/
def ensureKeys : List PTItem → Nat → List PTItem × Nat
  | [], ctr => ([], ctr)
  | it :: its, ctr =>
    let p := itemWithKey it ctr
    let q :=
      match p.1 with
      | .block k sty md cs =>
        let r := childrenWithKeys cs p.2
        (PTItem.block k sty md r.1, r.2)
      | it1 => (it1, p.2)
    let rest := ensureKeys its q.2
    (q.1 :: rest.1, rest.2)

/-- `filterUnsupportedBlocks` (lines 638-645): `UNSUPPORTED_BLOCK_TYPES`
contains only `"horizontal-rule"`; text blocks have `_type` `"block"` and
image blocks `"image"`, so only `misc` items can match. -/
def filterUnsupportedBlocks (pt : List PTItem) : List PTItem :=
  pt.filter fun it =>
    match it with
    | .misc _ p => !(p == "horizontal-rule")
    | _ => true

/-- Content atoms of a Portable Text sequence, with keys erased: span
characters, image payloads, spans with non-string text, non-span children and
non-block items. Used to state order-preservation of the Block Splitter. -/
inductive Atom where
  | chr (c : Char)
  | img (d : ImageData)
  | node (marks : List String)
  | solid (p : String)
  | miscN (p : String)
deriving DecidableEq

/-- Atoms the splitter may silently drop: whitespace characters and spans with
non-string text (both fail `hasMeaningfulChildren`), and non-span children
(discarded when a whole token-only block is replaced by its image block).
Non-whitespace text, image payloads and non-block items are never dropped. -/
def Atom.droppable : Atom → Bool
  | .chr c => isWS c
  | .node _ => true
  | .solid _ => true
  | _ => false

def keepAtom (a : Atom) : Bool := !a.droppable

def flattenChild : Child → List Atom
  | .span _ (some t) _ => t.map Atom.chr
  | .span _ none marks => [Atom.node marks]
  | .extra _ p => [Atom.solid p]

def flattenItem : PTItem → List Atom
  | .block _ _ _ cs => cs.flatMap flattenChild
  | .image _ d => [Atom.img d]
  | .misc _ p => [Atom.miscN p]

def flattenItems (its : List PTItem) : List Atom := its.flatMap flattenItem

/-- `Dilute xs ys`: `xs` is `ys` with some droppable atoms deleted; in
particular the relative order of everything kept matches `ys`. -/
def Dilute (xs ys : List Atom) : Prop :=
  xs.Sublist ys ∧ (ys.filter keepAtom).Sublist xs

theorem Dilute.refl (xs : List Atom) : Dilute xs xs :=
  ⟨List.Sublist.refl xs, List.filter_sublist xs⟩

theorem Dilute.append {a b c d : List Atom} (h1 : Dilute a b) (h2 : Dilute c d) :
    Dilute (a ++ c) (b ++ d) :=
  ⟨List.Sublist.append h1.1 h2.1, by
    rw [List.filter_append]
    exact List.Sublist.append h1.2 h2.2⟩

theorem Dilute.trans {a b c : List Atom} (h1 : Dilute a b) (h2 : Dilute b c) :
    Dilute a c := by
  refine ⟨h1.1.trans h2.1, ?_⟩
  have hstep : List.Sublist ((c.filter keepAtom).filter keepAtom)
      (b.filter keepAtom) := List.Sublist.filter keepAtom h2.2
  have hkeep : (c.filter keepAtom).filter keepAtom = c.filter keepAtom := by
    rw [List.filter_filter]
    apply List.filter_congr
    intro x _
    cases hx : keepAtom x <;> simp [hx]
  rw [hkeep] at hstep
  exact hstep.trans h1.2

theorem Dilute.nil_of_droppable {ys : List Atom}
    (h : ∀ a ∈ ys, a.droppable = true) : Dilute [] ys := by
  refine ⟨List.nil_sublist ys, ?_⟩
  have : ys.filter keepAtom = [] := by
    apply List.filter_eq_nil_iff.2
    intro a ha
    simp [keepAtom, h a ha]
  rw [this]

/-- Decomposition of one span's text into token-free pieces interleaved with
designated token occurrences: text `= first ++ t₁ ++ p₁ ++ t₂ ++ p₂ ++ ...`
with `rest = [(t₁, p₁), (t₂, p₂), ...]`. -/
structure SpanShape where
  key : Option Nat
  marks : List String
  first : List Char
  rest : List (List Char × List Char)
deriving DecidableEq

/-- Rendering of the tail of a span decomposition. -/
def restRender (R : List (List Char × List Char)) : List Char :=
  R.flatMap fun q => q.1 ++ q.2

def SpanShape.text (sh : SpanShape) : List Char :=
  sh.first ++ restRender sh.rest

def SpanShape.occs (sh : SpanShape) : List (List Char) := sh.rest.map Prod.fst

/-- A child with its decomposition: a decomposed span, or a verbatim child
contributing no searchable text (non-span child, or span with non-string
text). -/
inductive ChildShape where
  | sp (sh : SpanShape)
  | raw (c : Child)
deriving DecidableEq

def ChildShape.child : ChildShape → Child
  | .sp sh => .span sh.key (some sh.text) sh.marks
  | .raw c => c

def ChildShape.occs : ChildShape → List (List Char)
  | .sp sh => sh.occs
  | .raw _ => []

/-- `true` for a span child whose text is a string (the only children the
splitter searches). -/
def Child.isTextSpan : Child → Bool
  | .span _ (some _) _ => true
  | _ => false

/-- `u` contains no occurrence of any listed token. -/
def tokenFreeB (tokens : List (List Char)) (u : List Char) : Bool :=
  tokens.all fun t => !containsTok u t

/-- Wellformedness of a span decomposition relative to a token list: every
piece is token-free and every designated occurrence is a listed token. -/
def SpanShape.WF (tokens : List (List Char)) (sh : SpanShape) : Bool :=
  tokenFreeB tokens sh.first &&
    sh.rest.all fun q => decide (q.1 ∈ tokens) && tokenFreeB tokens q.2

def ChildShape.WF (tokens : List (List Char)) : ChildShape → Bool
  | .sp sh => sh.WF tokens
  | .raw c => !c.isTextSpan

/-- Linearisation of a block's children used to reason about the splitter:
pieces, designated token occurrences, and verbatim children, in order. -/
inductive Ev where
  | piece (marks : List String) (u : List Char)
  | tok (t : List Char)
  | rawc (c : Child)
deriving DecidableEq

def spanEvents (sh : SpanShape) : List Ev :=
  Ev.piece sh.marks sh.first ::
    sh.rest.flatMap fun q => [Ev.tok q.1, Ev.piece sh.marks q.2]

def childEvents : ChildShape → List Ev
  | .sp sh => spanEvents sh
  | .raw c => [.rawc c]

def blockEvents (css : List ChildShape) : List Ev := css.flatMap childEvents

/-- Reference processing of the linearised events, mirroring one step of the
splitter per event. -/
def evProcess (m : TokMap) (style : String) (markDefs : List String) :
    List Ev → SplitSt → SplitSt
  | [], st => st
  | .piece mk u :: es, st => evProcess m style markDefs es (pushSpan mk u st)
  | .tok t :: es, st => evProcess m style markDefs es (emitImage style markDefs m t st)
  | .rawc c :: es, st => evProcess m style markDefs es (pushRaw c st)

/-- The block text still to come before the next designated occurrence. -/
def evPending : List Ev → List Char
  | [] => []
  | .piece _ u :: es => u ++ evPending es
  | .tok _ :: _ => []
  | .rawc _ :: es => evPending es

/-- For each designated occurrence, the block text between it and the next
occurrence (or the block end). -/
def evRegions : List Ev → List (List Char)
  | [] => []
  | .piece _ _ :: es => evRegions es
  | .rawc _ :: es => evRegions es
  | .tok _ :: es => evPending es :: evRegions es

/-- The designated occurrences of an event list, in order. -/
def evOccs : List Ev → List (List Char)
  | [] => []
  | .piece _ _ :: es => evOccs es
  | .rawc _ :: es => evOccs es
  | .tok t :: es => t :: evOccs es

/-- Expected content atoms after substitution: pieces stay text, designated
occurrences become their image blocks, verbatim children stay. -/
def evSubst (m : TokMap) : List Ev → List Atom
  | [] => []
  | .piece _ u :: es => u.map Atom.chr ++ evSubst m es
  | .tok t :: es => Atom.img (lookupTok m t) :: evSubst m es
  | .rawc c :: es => flattenChild c ++ evSubst m es

/-- Pairwise separation of a token list: occurrences of listed tokens in any
string either coincide or are disjoint. -/
def Sep (tokens : List (List Char)) : Prop :=
  ∀ t ∈ tokens, ∀ t' ∈ tokens, ∀ (s : List Char) (i j : Nat),
    t <+: s.drop i → t' <+: s.drop j →
    (i = j ∧ t = t') ∨ i + t.length ≤ j ∨ j + t'.length ≤ i

theorem toks_sep (N : Nat) : Sep (toks N) := by
  intro t ht t' ht' s i j hi hj
  simp only [toks, List.mem_map, List.mem_range] at ht ht'
  obtain ⟨a, _, rfl⟩ := ht
  obtain ⟨b, _, rfl⟩ := ht'
  rcases mkToken_sep hi hj with h | h | h
  · exact Or.inl ⟨h.1, by rw [h.2]⟩
  · exact Or.inr (Or.inl h)
  · exact Or.inr (Or.inr h)

theorem toks_ne_nil {N : Nat} : ∀ t ∈ toks N, t ≠ [] := by
  intro t ht
  simp only [toks, List.mem_map, List.mem_range] at ht
  obtain ⟨a, _, rfl⟩ := ht
  exact mkToken_ne_nil a

theorem tokenFreeB_iff {tokens : List (List Char)} {u : List Char} :
    tokenFreeB tokens u = true ↔ ∀ t ∈ tokens, ¬ t <:+: u := by
  unfold tokenFreeB
  rw [List.all_eq_true]
  constructor
  · intro h t ht hinf
    have := h t ht
    rw [Bool.not_eq_true', ← Bool.not_eq_true] at this
    exact this (containsTok_eq_true_iff.2 hinf)
  · intro h t ht
    rw [Bool.not_eq_true']
    cases hc : containsTok u t with
    | false => rfl
    | true => exact absurd (containsTok_eq_true_iff.1 hc) (h t ht)

theorem prefix_of_append_of_le {t a b : List Char} (h : t <+: a ++ b)
    (hl : t.length ≤ a.length) : t <+: a := by
  have h1 : t = (a ++ b).take t.length := List.prefix_iff_eq_take.1 h
  rw [List.take_append_eq_append_take, show t.length - a.length = 0 by omega,
    List.take_zero, List.append_nil] at h1
  rw [h1]
  exact List.take_prefix _ _

theorem idxOf_eq_none_of_not_sub {t s : List Char} (h : ¬ t <:+: s) :
    idxOf t s = none := by
  cases hidx : idxOf t s with
  | none => rfl
  | some i =>
    exact absurd (infix_iff_prefix_drop.2 ⟨i, idxOf_eq_some_prefix hidx⟩) h

theorem foldl_fnStep_none {text : List Char} :
    ∀ ts : List (List Char), (∀ t ∈ ts, idxOf t text = none) →
      ts.foldl (fnStep text) none = none
  | [], _ => rfl
  | t :: ts, h => by
    rw [List.foldl_cons]
    have h1 : fnStep text none t = none := by
      unfold fnStep
      rw [h t (List.mem_cons_self _ _)]
    rw [h1]
    exact foldl_fnStep_none ts (fun x hx => h x (List.mem_cons_of_mem _ hx))

theorem findNearest_none_of_tokenFree {tokens : List (List Char)}
    {text : List Char} (h : tokenFreeB tokens text = true) :
    findNearest tokens text = none := by
  unfold findNearest
  exact foldl_fnStep_none tokens fun t ht =>
    idxOf_eq_none_of_not_sub (tokenFreeB_iff.1 h t ht)

theorem foldl_fnStep_min {text t : List Char} {i : Nat} :
    ∀ (ts : List (List Char)) (acc : Option (List Char × Nat)),
      (∀ t' ∈ ts, ∀ i', idxOf t' text = some i' → i ≤ i' ∧ (i' = i → t' = t)) →
      (t ∈ ts ∨ acc = some (t, i)) →
      (acc = none ∨ acc = some (t, i) ∨ ∃ p, acc = some p ∧ i < p.2) →
      idxOf t text = some i →
      ts.foldl (fnStep text) acc = some (t, i)
  | [], acc, _, hmem, _, _ => by
    rcases hmem with hmem | hmem
    · exact absurd hmem (List.not_mem_nil t)
    · simpa using hmem
  | u :: ts, acc, h, hmem, hacc, hidx => by
    rw [List.foldl_cons]
    have hrest : ∀ t' ∈ ts, ∀ i', idxOf t' text = some i' →
        i ≤ i' ∧ (i' = i → t' = t) :=
      fun x hx => h x (List.mem_cons_of_mem _ hx)
    cases hux : idxOf u text with
    | none =>
      have hstep : fnStep text acc u = acc := by
        unfold fnStep
        rw [hux]
      rw [hstep]
      apply foldl_fnStep_min ts acc hrest ?_ hacc hidx
      rcases hmem with hmem | hmem
      · rcases List.mem_cons.1 hmem with rfl | hmem'
        · rw [hidx] at hux
          exact absurd hux (by simp)
        · exact Or.inl hmem'
      · exact Or.inr hmem
    | some k =>
      obtain ⟨hik, hketa⟩ := h u (List.mem_cons_self _ _) k hux
      rcases hacc with rfl | hacc | ⟨p, rfl, hp⟩
      · -- acc = none: becomes some (u, k)
        have hstep : fnStep text none u = some (u, k) := by
          unfold fnStep
          rw [hux]
        rw [hstep]
        by_cases hki : k = i
        · subst hki
          have := hketa rfl
          subst this
          exact foldl_fnStep_min ts _ hrest (Or.inr rfl) (Or.inr (Or.inl rfl)) hidx
        · have hlt : i < k := by omega
          apply foldl_fnStep_min ts _ hrest ?_ (Or.inr (Or.inr ⟨(u, k), rfl, hlt⟩)) hidx
          rcases hmem with hmem | hmem
          · rcases List.mem_cons.1 hmem with rfl | hmem'
            · rw [hidx] at hux
              have : k = i := by
                have := Option.some.inj hux
                omega
              exact absurd this hki
            · exact Or.inl hmem'
          · exact absurd hmem (by simp)
      · -- acc = some (t, i): kept since ¬ k < i
        subst hacc
        have hstep : fnStep text (some (t, i)) u = some (t, i) := by
          unfold fnStep
          rw [hux]
          simp only
          rw [if_neg (by omega)]
        rw [hstep]
        exact foldl_fnStep_min ts _ hrest (Or.inr rfl) (Or.inr (Or.inl rfl)) hidx
      · -- acc = some p with i < p.2
        by_cases hki : k = i
        · -- the minimum is reached here: u = t, k = i, and it replaces p
          subst hki
          have := hketa rfl
          subst this
          have hstep : fnStep text (some p) u = some (u, k) := by
            unfold fnStep
            rw [hux]
            simp only
            rw [if_pos hp]
          rw [hstep]
          exact foldl_fnStep_min ts _ hrest (Or.inr rfl) (Or.inr (Or.inl rfl)) hidx
        · have hmem' : t ∈ ts := by
            rcases hmem with hmem | hmem
            · rcases List.mem_cons.1 hmem with rfl | hmem'
              · exfalso
                rw [hidx] at hux
                exact hki (Option.some.inj hux).symm
              · exact hmem'
            · exfalso
              rw [Option.some.injEq] at hmem
              have : p.2 = i := by rw [hmem]
              omega
          by_cases hkp : k < p.2
          · have hstep : fnStep text (some p) u = some (u, k) := by
              unfold fnStep
              rw [hux]
              simp only
              rw [if_pos hkp]
            rw [hstep]
            exact foldl_fnStep_min ts _ hrest (Or.inl hmem')
              (Or.inr (Or.inr ⟨(u, k), rfl, by omega⟩)) hidx
          · have hstep : fnStep text (some p) u = some p := by
              unfold fnStep
              rw [hux]
              simp only
              rw [if_neg hkp]
            rw [hstep]
            exact foldl_fnStep_min ts _ hrest (Or.inl hmem')
              (Or.inr (Or.inr ⟨p, rfl, hp⟩)) hidx

theorem findNearest_eq_of_min {tokens : List (List Char)} {text t : List Char}
    {i : Nat} (ht : t ∈ tokens) (hidx : idxOf t text = some i)
    (h : ∀ t' ∈ tokens, ∀ i', idxOf t' text = some i' →
      i ≤ i' ∧ (i' = i → t' = t)) :
    findNearest tokens text = some (t, i) :=
  foldl_fnStep_min tokens none h (Or.inl ht) (Or.inl rfl) hidx

/-- On text of the shape `u ++ t ++ v` with `u` token-free and `t` a listed
token, the splitter's nearest-token search finds exactly the designated
occurrence. -/
theorem findNearest_designated {tokens : List (List Char)} {u t v : List Char}
    (hsep : Sep tokens) (hne : ∀ x ∈ tokens, x ≠ [])
    (hu : tokenFreeB tokens u = true) (ht : t ∈ tokens) :
    findNearest tokens (u ++ (t ++ v)) = some (t, u.length) := by
  have hocc : t <+: (u ++ (t ++ v)).drop u.length := by
    rw [List.drop_left]
    exact List.prefix_append t v
  have hexcl : ∀ t' ∈ tokens, ∀ j, t' <+: (u ++ (t ++ v)).drop j →
      u.length ≤ j := by
    intro t' ht' j hj
    by_contra hlt
    push_neg at hlt
    rcases hsep t' ht' t ht (u ++ (t ++ v)) j u.length hj hocc with h | h | h
    · omega
    · have hdrop : (u ++ (t ++ v)).drop j = u.drop j ++ (t ++ v) := by
        rw [List.drop_append_eq_append_drop, show j - u.length = 0 by omega,
          List.drop_zero]
      rw [hdrop] at hj
      have hlen : t'.length ≤ (u.drop j).length := by
        rw [List.length_drop]
        omega
      have hpre : t' <+: u.drop j := prefix_of_append_of_le hj hlen
      exact (tokenFreeB_iff.1 hu t' ht') (infix_iff_prefix_drop.2 ⟨j, hpre⟩)
    · have hpos : 0 < t.length := List.length_pos.2 (hne t ht)
      omega
  have hidx : idxOf t (u ++ (t ++ v)) = some u.length := by
    cases hval : idxOf t (u ++ (t ++ v)) with
    | none =>
      have := idxOf_isSome_of_prefix_drop hocc
      rw [hval] at this
      simp at this
    | some i0 =>
      have h1 := idxOf_eq_some_prefix hval
      have hge : u.length ≤ i0 := hexcl t ht i0 h1
      have hle : ¬ u.length < i0 := fun hlt => idxOf_eq_some_min hval u.length hlt hocc
      rw [show i0 = u.length by omega]
  apply findNearest_eq_of_min ht hidx
  intro t' ht' i' hi'
  have hpre := idxOf_eq_some_prefix hi'
  refine ⟨hexcl t' ht' i' hpre, ?_⟩
  intro hieq
  rw [hieq] at hpre
  rcases hsep t' ht' t ht (u ++ (t ++ v)) u.length u.length hpre hocc
    with h | h | h
  · exact h.2
  · have hpos : 0 < t'.length := List.length_pos.2 (hne t' ht')
    omega
  · have hpos : 0 < t.length := List.length_pos.2 (hne t ht)
    omega

theorem spanWF_parts {tokens : List (List Char)} {sh : SpanShape}
    (h : sh.WF tokens = true) :
    tokenFreeB tokens sh.first = true ∧
      ∀ q ∈ sh.rest, q.1 ∈ tokens ∧ tokenFreeB tokens q.2 = true := by
  unfold SpanShape.WF at h
  rw [Bool.and_eq_true, List.all_eq_true] at h
  refine ⟨h.1, fun q hq => ?_⟩
  have h2 := h.2 q hq
  rw [Bool.and_eq_true, decide_eq_true_eq] at h2
  exact h2

theorem evProcess_append {m : TokMap} {sty : String} {md : List String} :
    ∀ (a b : List Ev) (st : SplitSt),
      evProcess m sty md (a ++ b) st = evProcess m sty md b (evProcess m sty md a st)
  | [], _, _ => rfl
  | .piece mk u :: a, b, st => evProcess_append a b (pushSpan mk u st)
  | .tok t :: a, b, st => evProcess_append a b (emitImage sty md m t st)
  | .rawc c :: a, b, st => evProcess_append a b (pushRaw c st)

/-- On a span whose text decomposes into token-free pieces and designated
occurrences, the splitter's inner loop performs exactly one reference step per
piece and per occurrence. -/
theorem splitSpanLoop_eq {tokens : List (List Char)} {m : TokMap}
    {sty : String} {md mk : List String}
    (hsep : Sep tokens) (hne : ∀ x ∈ tokens, x ≠ []) :
    ∀ (R : List (List Char × List Char)) (u : List Char) (fuel : Nat)
      (st : SplitSt),
      tokenFreeB tokens u = true →
      (∀ q ∈ R, q.1 ∈ tokens ∧ tokenFreeB tokens q.2 = true) →
      (u ++ restRender R).length < fuel →
      splitSpanLoop tokens m sty md mk fuel (u ++ restRender R) st =
        evProcess m sty md
          (Ev.piece mk u :: R.flatMap fun q => [Ev.tok q.1, Ev.piece mk q.2])
          st := by
  intro R
  induction R with
  | nil =>
    intro u fuel st hu _ hfuel
    cases fuel with
    | zero => simp at hfuel
    | succ f =>
      unfold splitSpanLoop
      rw [show restRender [] = [] from rfl, List.append_nil] at hfuel ⊢
      rw [findNearest_none_of_tokenFree hu]
      rfl
  | cons q R ih =>
    intro u fuel st hu hrest hfuel
    obtain ⟨t, p⟩ := q
    have hq := hrest (t, p) (List.mem_cons_self _ _)
    have hrest' : ∀ x ∈ R, x.1 ∈ tokens ∧ tokenFreeB tokens x.2 = true :=
      fun x hx => hrest x (List.mem_cons_of_mem _ hx)
    have hr1 : restRender ((t, p) :: R) = t ++ (p ++ restRender R) := by
      unfold restRender
      rw [List.flatMap_cons]
      simp [List.append_assoc]
    rw [hr1] at hfuel ⊢
    cases fuel with
    | zero => simp at hfuel
    | succ f =>
      have htake : (u ++ (t ++ (p ++ restRender R))).take u.length = u :=
        List.take_left u _
      have hdrop : (u ++ (t ++ (p ++ restRender R))).drop (u.length + t.length) =
          p ++ restRender R := by
        rw [show u ++ (t ++ (p ++ restRender R)) =
          (u ++ t) ++ (p ++ restRender R) by simp [List.append_assoc]]
        rw [show u.length + t.length = (u ++ t).length by simp]
        exact List.drop_left _ _
      have hfind := findNearest_designated (v := p ++ restRender R) hsep hne hu hq.1
      have hstep : splitSpanLoop tokens m sty md mk (f + 1)
          (u ++ (t ++ (p ++ restRender R))) st =
          splitSpanLoop tokens m sty md mk f
            ((u ++ (t ++ (p ++ restRender R))).drop (u.length + t.length))
            (emitImage sty md m t
              (pushSpan mk ((u ++ (t ++ (p ++ restRender R))).take u.length) st)) := by
        conv_lhs => unfold splitSpanLoop
        rw [hfind]
      rw [hstep, htake, hdrop]
      have hlt : (p ++ restRender R).length < f := by
        have hpos : 0 < t.length := List.length_pos.2 (hne t hq.1)
        simp only [List.length_append] at hfuel ⊢
        omega
      rw [ih p f (emitImage sty md m t (pushSpan mk u st)) hq.2 hrest' hlt]
      rw [List.flatMap_cons]
      rfl

/-- The splitter's child loop on a block whose children decompose wellformedly
performs exactly the reference event steps. -/
theorem splitChildren_eq {tokens : List (List Char)} {m : TokMap}
    {sty : String} {md : List String}
    (hsep : Sep tokens) (hne : ∀ x ∈ tokens, x ≠ []) :
    ∀ (css : List ChildShape) (st : SplitSt),
      (∀ cs ∈ css, cs.WF tokens = true) →
      splitChildren tokens m sty md (css.map ChildShape.child) st =
        evProcess m sty md (blockEvents css) st := by
  intro css
  induction css with
  | nil => intro st _; rfl
  | cons c css ih =>
    intro st hwf
    have hwfc := hwf c (List.mem_cons_self _ _)
    have hwf' : ∀ x ∈ css, x.WF tokens = true :=
      fun x hx => hwf x (List.mem_cons_of_mem _ hx)
    cases c with
    | sp sh =>
      obtain ⟨hfirst, hrest⟩ := spanWF_parts hwfc
      have hstep : splitChildren tokens m sty md
          ((ChildShape.sp sh :: css).map ChildShape.child) st =
          splitChildren tokens m sty md (css.map ChildShape.child)
            (splitSpanLoop tokens m sty md sh.marks
              ((sh.first ++ restRender sh.rest).length + 1)
              (sh.first ++ restRender sh.rest) st) := rfl
      rw [hstep]
      rw [splitSpanLoop_eq hsep hne sh.rest sh.first _ st hfirst hrest
        (Nat.lt_succ_self _)]
      rw [ih _ hwf']
      rw [show blockEvents (ChildShape.sp sh :: css) =
        spanEvents sh ++ blockEvents css from rfl]
      rw [evProcess_append]
      rfl
    | raw ch =>
      have hns : ch.isTextSpan = false := by
        unfold ChildShape.WF at hwfc
        rw [Bool.not_eq_true'] at hwfc
        exact hwfc
      cases ch with
      | span k ot mk =>
        cases ot with
        | none =>
          have hstep : splitChildren tokens m sty md
              ((ChildShape.raw (Child.span k none mk) :: css).map
                ChildShape.child) st =
              splitChildren tokens m sty md (css.map ChildShape.child)
                (pushRaw (Child.span k none mk) st) := rfl
          rw [hstep, ih _ hwf']
          rfl
        | some txt => simp [Child.isTextSpan] at hns
      | extra k p =>
        have hstep : splitChildren tokens m sty md
            ((ChildShape.raw (Child.extra k p) :: css).map ChildShape.child) st =
            splitChildren tokens m sty md (css.map ChildShape.child)
              (pushRaw (Child.extra k p) st) := rfl
        rw [hstep, ih _ hwf']
        rfl

theorem trim_eq_nil_ws {t : List Char} (h : trim t = []) :
    ∀ c ∈ t, isWS c = true := by
  unfold trim at h
  rw [List.reverse_eq_nil_iff, List.dropWhile_eq_nil_iff] at h
  have hdrop : ∀ c ∈ t.dropWhile isWS, isWS c = true := by
    intro c hc
    exact h c (List.mem_reverse.2 hc)
  intro c hc
  rw [← List.takeWhile_append_dropWhile (p := isWS) (l := t)] at hc
  rcases List.mem_append.1 hc with hc | hc
  · exact List.mem_takeWhile_imp hc
  · exact hdrop c hc

theorem droppable_of_not_meaningful {cs : List Child}
    (h : hasMeaningfulChildren cs = false) :
    ∀ a ∈ cs.flatMap flattenChild, a.droppable = true := by
  intro a ha
  rw [List.mem_flatMap] at ha
  obtain ⟨c, hc, ha⟩ := ha
  have hfn := List.any_eq_false.1 h c hc
  cases c with
  | span k ot mk =>
    cases ot with
    | none =>
      simp only [flattenChild, List.mem_singleton] at ha
      subst ha
      rfl
    | some t =>
      simp only [decide_eq_true_eq] at hfn
      have htrim : trim t = [] := by
        cases htr : trim t with
        | nil => rfl
        | cons x xs =>
          exfalso
          apply hfn
          rw [htr]
          simp
      simp only [flattenChild, List.mem_map] at ha
      obtain ⟨c', hc', rfl⟩ := ha
      simp only [Atom.droppable]
      exact trim_eq_nil_ws htrim c' hc'
  | extra k p => simp at hfn

/-- Content atoms of the splitter state: emitted items then the paragraph
under construction. -/
def flattenSt (st : SplitSt) : List Atom :=
  flattenItems st.out ++ st.cur.flatMap flattenChild

theorem flattenSt_pushSpan (mk : List String) (u : List Char) (st : SplitSt) :
    flattenSt (pushSpan mk u st) = flattenSt st ++ u.map Atom.chr := by
  unfold pushSpan
  by_cases hu : u.isEmpty = true
  · rw [if_pos hu, List.isEmpty_iff.1 hu]
    simp
  · rw [if_neg hu]
    unfold flattenSt
    simp [flattenChild, List.append_assoc]

theorem flattenChild_span_key (k1 k2 : Option Nat) (ot : Option (List Char))
    (mk : List String) :
    flattenChild (Child.span k1 ot mk) = flattenChild (Child.span k2 ot mk) := by
  cases ot <;> rfl

theorem flattenSt_pushRaw (c : Child) (st : SplitSt) :
    flattenSt (pushRaw c st) = flattenSt st ++ flattenChild c := by
  cases c with
  | span k ot mk =>
    cases k with
    | none =>
      unfold pushRaw flattenSt
      simp only [List.flatMap_append, List.flatMap_cons, List.flatMap_nil,
        List.append_nil, List.append_assoc]
      rw [flattenChild_span_key (some st.ctr) none ot mk]
    | some k0 =>
      unfold pushRaw flattenSt
      simp [List.append_assoc]
  | extra k p =>
    cases k with
    | none =>
      unfold pushRaw flattenSt
      simp [flattenChild, List.append_assoc]
    | some k0 =>
      unfold pushRaw flattenSt
      simp [flattenChild, List.append_assoc]

theorem flattenSt_emitImage_dilute (sty : String) (md : List String)
    (m : TokMap) (t : List Char) (st : SplitSt) :
    Dilute (flattenSt (emitImage sty md m t st))
      (flattenSt st ++ [Atom.img (lookupTok m t)]) := by
  unfold emitImage flushCurrent flattenSt
  cases hm : hasMeaningfulChildren st.cur with
  | true =>
    simp only [if_true]
    refine Dilute.refl _ |>.trans ?_
    simp only [flattenItems, List.flatMap_append, List.flatMap_cons,
      List.flatMap_nil, flattenItem, List.append_nil]
    exact Dilute.refl _ |>.trans (by
      rw [List.append_assoc]
      exact Dilute.refl _)
  | false =>
    simp only [Bool.false_eq_true, if_false]
    simp only [flattenItems, List.flatMap_append, List.flatMap_cons,
      List.flatMap_nil, flattenItem, List.append_nil]
    have h1 : Dilute ([] : List Atom) (st.cur.flatMap flattenChild) :=
      Dilute.nil_of_droppable (droppable_of_not_meaningful hm)
    have h2 := Dilute.append (Dilute.refl (flattenItems st.out))
      (Dilute.append h1 (Dilute.refl [Atom.img (lookupTok m t)]))
    simp only [List.nil_append] at h2
    rw [List.append_assoc]
    exact h2

/-- The key invariant of the Block Splitter: processing the linearised events
keeps the content atoms equal to the substituted expectation up to deleting
droppable atoms. -/
theorem evProcess_flatten_dilute (m : TokMap) (sty : String) (md : List String) :
    ∀ (es : List Ev) (st : SplitSt),
      Dilute (flattenSt (evProcess m sty md es st)) (flattenSt st ++ evSubst m es)
  | [], st => by
    rw [show evSubst m [] = [] from rfl, List.append_nil]
    exact Dilute.refl _
  | .piece mk u :: es, st => by
    have ih := evProcess_flatten_dilute m sty md es (pushSpan mk u st)
    rw [flattenSt_pushSpan] at ih
    rw [show evProcess m sty md (Ev.piece mk u :: es) st =
      evProcess m sty md es (pushSpan mk u st) from rfl]
    rw [show evSubst m (Ev.piece mk u :: es) = u.map Atom.chr ++ evSubst m es
      from rfl]
    rw [← List.append_assoc]
    exact ih
  | .rawc c :: es, st => by
    have ih := evProcess_flatten_dilute m sty md es (pushRaw c st)
    rw [flattenSt_pushRaw] at ih
    rw [show evProcess m sty md (Ev.rawc c :: es) st =
      evProcess m sty md es (pushRaw c st) from rfl]
    rw [show evSubst m (Ev.rawc c :: es) = flattenChild c ++ evSubst m es
      from rfl]
    rw [← List.append_assoc]
    exact ih
  | .tok t :: es, st => by
    have ih := evProcess_flatten_dilute m sty md es (emitImage sty md m t st)
    have hst := flattenSt_emitImage_dilute sty md m t st
    rw [show evProcess m sty md (Ev.tok t :: es) st =
      evProcess m sty md es (emitImage sty md m t st) from rfl]
    rw [show evSubst m (Ev.tok t :: es) =
      Atom.img (lookupTok m t) :: evSubst m es from rfl]
    have hcomp := Dilute.append hst (Dilute.refl (evSubst m es))
    have := ih.trans hcomp
    rw [List.append_assoc] at this
    simpa using this

def imageDataList (its : List PTItem) : List ImageData :=
  its.filterMap fun it =>
    match it with
    | .image _ d => some d
    | _ => none

theorem imageDataList_append (a b : List PTItem) :
    imageDataList (a ++ b) = imageDataList a ++ imageDataList b := by
  unfold imageDataList
  rw [List.filterMap_append]

theorem evProcess_images (m : TokMap) (sty : String) (md : List String) :
    ∀ (es : List Ev) (st : SplitSt),
      imageDataList (evProcess m sty md es st).out =
        imageDataList st.out ++ (evOccs es).map (lookupTok m)
  | [], st => by
    rw [show evProcess m sty md [] st = st from rfl,
      show evOccs [] = [] from rfl]
    simp
  | .piece mk u :: es, st => by
    have ih := evProcess_images m sty md es (pushSpan mk u st)
    have hout : (pushSpan mk u st).out = st.out := by
      unfold pushSpan
      cases u.isEmpty <;> simp
    rw [show evProcess m sty md (Ev.piece mk u :: es) st =
      evProcess m sty md es (pushSpan mk u st) from rfl, ih, hout]
    rfl
  | .rawc c :: es, st => by
    have ih := evProcess_images m sty md es (pushRaw c st)
    have hout : (pushRaw c st).out = st.out := by
      cases c with
      | span k ot mk => cases k <;> rfl
      | extra k p => cases k <;> rfl
    rw [show evProcess m sty md (Ev.rawc c :: es) st =
      evProcess m sty md es (pushRaw c st) from rfl, ih, hout]
    rfl
  | .tok t :: es, st => by
    have ih := evProcess_images m sty md es (emitImage sty md m t st)
    have hout : imageDataList (emitImage sty md m t st).out =
        imageDataList st.out ++ [lookupTok m t] := by
      unfold emitImage flushCurrent
      cases hasMeaningfulChildren st.cur <;>
        simp [imageDataList_append, imageDataList]
    rw [show evProcess m sty md (Ev.tok t :: es) st =
      evProcess m sty md es (emitImage sty md m t st) from rfl, ih, hout]
    rw [show evOccs (Ev.tok t :: es) = t :: evOccs es from rfl]
    simp

/-- Cleanliness of an emitted item: a text block's joined span text contains no
token; image and other items carry no searchable text. -/
def OutClean (tokens : List (List Char)) : PTItem → Prop
  | .block _ _ _ cs => tokenFreeB tokens (spanJoin cs) = true
  | _ => True

theorem spanJoin_append (a b : List Child) :
    spanJoin (a ++ b) = spanJoin a ++ spanJoin b := by
  unfold spanJoin
  rw [List.flatMap_append]

theorem spanJoin_pushSpan (mk : List String) (u : List Char) (st : SplitSt) :
    spanJoin (pushSpan mk u st).cur = spanJoin st.cur ++ u := by
  unfold pushSpan
  by_cases hu : u.isEmpty = true
  · rw [if_pos hu, List.isEmpty_iff.1 hu]
    simp
  · rw [if_neg hu]
    show spanJoin (st.cur ++ [Child.span (some st.ctr) (some u) mk]) = _
    rw [spanJoin_append]
    simp [spanJoin]

theorem spanJoin_pushRaw (c : Child) (st : SplitSt)
    (h : c.isTextSpan = false) :
    spanJoin (pushRaw c st).cur = spanJoin st.cur := by
  cases c with
  | span k ot mk =>
    cases ot with
    | none =>
      cases k with
      | none =>
        show spanJoin (st.cur ++ [Child.span (some st.ctr) none mk]) = _
        rw [spanJoin_append]
        simp [spanJoin]
      | some k0 =>
        show spanJoin (st.cur ++ [Child.span (some k0) none mk]) = _
        rw [spanJoin_append]
        simp [spanJoin]
    | some t => simp [Child.isTextSpan] at h
  | extra k p =>
    cases k with
    | none =>
      show spanJoin (st.cur ++ [Child.extra (some st.ctr) p]) = _
      rw [spanJoin_append]
      simp [spanJoin]
    | some k0 =>
      show spanJoin (st.cur ++ [Child.extra (some k0) p]) = _
      rw [spanJoin_append]
      simp [spanJoin]

theorem emitImage_cur (sty : String) (md : List String) (m : TokMap)
    (t : List Char) (st : SplitSt) : (emitImage sty md m t st).cur = [] := by
  unfold emitImage flushCurrent
  rfl

theorem mem_emitImage_out {sty : String} {md : List String} {m : TokMap}
    {t : List Char} {st : SplitSt} {it : PTItem}
    (h : it ∈ (emitImage sty md m t st).out) :
    it ∈ st.out ∨ it = PTItem.block (some st.curKey) sty md st.cur ∨
      ∃ k d, it = PTItem.image k d := by
  unfold emitImage flushCurrent at h
  cases hm : hasMeaningfulChildren st.cur with
  | true =>
    rw [hm] at h
    simp only [if_true, List.mem_append, List.mem_singleton] at h
    rcases h with (h | h) | h
    · exact Or.inl h
    · exact Or.inr (Or.inl h)
    · exact Or.inr (Or.inr ⟨_, _, h⟩)
  | false =>
    rw [hm] at h
    simp only [Bool.false_eq_true, if_false, List.mem_append,
      List.mem_singleton] at h
    rcases h with h | h
    · exact Or.inl h
    · exact Or.inr (Or.inr ⟨_, _, h⟩)

/-- Every block the splitter emits while processing wellformed events has
token-free joined text, and so does the paragraph left under construction. -/
theorem evProcess_clean (m : TokMap) (sty : String) (md : List String)
    (tokens : List (List Char)) :
    ∀ (es : List Ev) (st : SplitSt),
      (∀ c, Ev.rawc c ∈ es → c.isTextSpan = false) →
      tokenFreeB tokens (spanJoin st.cur ++ evPending es) = true →
      (∀ r ∈ evRegions es, tokenFreeB tokens r = true) →
      (∀ it ∈ st.out, OutClean tokens it) →
      (∀ it ∈ (evProcess m sty md es st).out, OutClean tokens it) ∧
        tokenFreeB tokens (spanJoin (evProcess m sty md es st).cur) = true
  | [], st, _, hcur, _, hout => by
    rw [show evProcess m sty md [] st = st from rfl]
    refine ⟨hout, ?_⟩
    rw [show evPending [] = [] from rfl, List.append_nil] at hcur
    exact hcur
  | .piece mk u :: es, st, hraw, hcur, hreg, hout => by
    rw [show evProcess m sty md (Ev.piece mk u :: es) st =
      evProcess m sty md es (pushSpan mk u st) from rfl]
    apply evProcess_clean m sty md tokens es (pushSpan mk u st)
    · intro c hc
      exact hraw c (List.mem_cons_of_mem _ hc)
    · rw [spanJoin_pushSpan, List.append_assoc]
      rw [show evPending (Ev.piece mk u :: es) = u ++ evPending es from rfl]
        at hcur
      exact hcur
    · intro r hr
      exact hreg r hr
    · have hc : (pushSpan mk u st).out = st.out := by
        unfold pushSpan
        by_cases hu : u.isEmpty = true
        · rw [if_pos hu]
        · rw [if_neg hu]
      rw [hc]
      exact hout
  | .rawc c :: es, st, hraw, hcur, hreg, hout => by
    have hcns : c.isTextSpan = false := hraw c (List.mem_cons_self _ _)
    rw [show evProcess m sty md (Ev.rawc c :: es) st =
      evProcess m sty md es (pushRaw c st) from rfl]
    apply evProcess_clean m sty md tokens es (pushRaw c st)
    · intro x hx
      exact hraw x (List.mem_cons_of_mem _ hx)
    · rw [spanJoin_pushRaw c st hcns]
      exact hcur
    · intro r hr
      exact hreg r hr
    · have hc : (pushRaw c st).out = st.out := by
        cases c with
        | span k ot mk => cases k <;> rfl
        | extra k p => cases k <;> rfl
      rw [hc]
      exact hout
  | .tok t :: es, st, hraw, hcur, hreg, hout => by
    rw [show evProcess m sty md (Ev.tok t :: es) st =
      evProcess m sty md es (emitImage sty md m t st) from rfl]
    have hcurfree : tokenFreeB tokens (spanJoin st.cur) = true := by
      rw [show evPending (Ev.tok t :: es) = [] from rfl, List.append_nil]
        at hcur
      exact hcur
    apply evProcess_clean m sty md tokens es (emitImage sty md m t st)
    · intro x hx
      exact hraw x (List.mem_cons_of_mem _ hx)
    · rw [emitImage_cur]
      rw [show spanJoin [] = [] from rfl, List.nil_append]
      exact hreg (evPending es)
        (by rw [show evRegions (Ev.tok t :: es) =
          evPending es :: evRegions es from rfl]; exact List.mem_cons_self _ _)
    · intro r hr
      apply hreg
      rw [show evRegions (Ev.tok t :: es) =
        evPending es :: evRegions es from rfl]
      exact List.mem_cons_of_mem _ hr
    · intro it hit
      rcases mem_emitImage_out hit with h | h | ⟨k, d, h⟩
      · exact hout it h
      · rw [h]
        exact hcurfree
      · rw [h]
        trivial

/-- The joined text an event list renders (pieces and occurrences in order). -/
def evRender : List Ev → List Char
  | [] => []
  | .piece _ u :: es => u ++ evRender es
  | .tok t :: es => t ++ evRender es
  | .rawc _ :: es => evRender es

/-- The alternation view: designated occurrences paired with the text
following each of them. -/
def evAlt : List Ev → List (List Char × List Char)
  | [] => []
  | .piece _ _ :: es => evAlt es
  | .rawc _ :: es => evAlt es
  | .tok t :: es => (t, evPending es) :: evAlt es

theorem evRender_decomp : ∀ es : List Ev,
    evRender es = evPending es ++ restRender (evAlt es)
  | [] => rfl
  | .piece mk u :: es => by
    rw [show evRender (Ev.piece mk u :: es) = u ++ evRender es from rfl,
      evRender_decomp es,
      show evPending (Ev.piece mk u :: es) = u ++ evPending es from rfl,
      show evAlt (Ev.piece mk u :: es) = evAlt es from rfl,
      List.append_assoc]
  | .rawc c :: es => by
    rw [show evRender (Ev.rawc c :: es) = evRender es from rfl,
      evRender_decomp es]
    rfl
  | .tok t :: es => by
    rw [show evRender (Ev.tok t :: es) = t ++ evRender es from rfl,
      evRender_decomp es,
      show evPending (Ev.tok t :: es) = [] from rfl,
      show evAlt (Ev.tok t :: es) = (t, evPending es) :: evAlt es from rfl,
      List.nil_append]
    unfold restRender
    rw [List.flatMap_cons]
    simp [List.append_assoc]

theorem evAlt_fst : ∀ es : List Ev, (evAlt es).map Prod.fst = evOccs es
  | [] => rfl
  | .piece _ _ :: es => evAlt_fst es
  | .rawc _ :: es => evAlt_fst es
  | .tok t :: es => by
    rw [show evAlt (Ev.tok t :: es) = (t, evPending es) :: evAlt es from rfl,
      List.map_cons, evAlt_fst es]
    rfl

theorem evAlt_snd : ∀ es : List Ev, (evAlt es).map Prod.snd = evRegions es
  | [] => rfl
  | .piece _ _ :: es => evAlt_snd es
  | .rawc _ :: es => evAlt_snd es
  | .tok t :: es => by
    rw [show evAlt (Ev.tok t :: es) = (t, evPending es) :: evAlt es from rfl,
      List.map_cons, evAlt_snd es]
    rfl

theorem trim_decomp (s : List Char) :
    ∃ w1 w2, (∀ c ∈ w1, isWS c = true) ∧ (∀ c ∈ w2, isWS c = true) ∧
      s = w1 ++ (trim s ++ w2) := by
  refine ⟨s.takeWhile isWS,
    ((s.dropWhile isWS).reverse.takeWhile isWS).reverse,
    fun c hc => List.mem_takeWhile_imp hc,
    fun c hc => List.mem_takeWhile_imp (List.mem_reverse.1 hc), ?_⟩
  unfold trim
  conv_lhs => rw [← List.takeWhile_append_dropWhile (p := isWS) (l := s)]
  congr 1
  rw [← List.reverse_append, List.takeWhile_append_dropWhile,
    List.reverse_reverse]

theorem token_not_in_ws {t w : List Char} (hw : ∀ c ∈ w, isWS c = true)
    (hsolid : ∃ c ∈ t, isWS c = false) : ¬ t <:+: w := by
  intro hinf
  obtain ⟨c, hc, hcws⟩ := hsolid
  have hmem : c ∈ w := hinf.subset hc
  rw [hw c hmem] at hcws
  simp at hcws

theorem mkToken_solid (n : Nat) : ∃ c ∈ mkToken n, isWS c = false := by
  refine ⟨'[', ?_, by decide⟩
  rw [mkToken_cons_shape]
  exact List.mem_cons_self _ _

theorem toks_solid {N : Nat} : ∀ t ∈ toks N, ∃ c ∈ t, isWS c = false := by
  intro t ht
  simp only [toks, List.mem_map, List.mem_range] at ht
  obtain ⟨a, _, rfl⟩ := ht
  exact mkToken_solid a

/-- If the whitespace-trimmed rendering of a wellformed alternation equals a
single token, the alternation designates exactly that one occurrence and all
its token-free text is whitespace. -/
theorem alt_trim_token {tokens : List (List Char)} (hsep : Sep tokens)
    (hne : ∀ x ∈ tokens, x ≠ [])
    (hsolid : ∀ x ∈ tokens, ∃ c ∈ x, isWS c = false)
    {P : List Char} {L : List (List Char × List Char)} {t' : List Char}
    (hP : tokenFreeB tokens P = true)
    (hL : ∀ q ∈ L, q.1 ∈ tokens ∧ tokenFreeB tokens q.2 = true)
    (ht' : t' ∈ tokens)
    (htrim : trim (P ++ restRender L) = t') :
    L.map Prod.fst = [t'] ∧ (∀ c ∈ P, isWS c = true) ∧
      ∀ q ∈ L, ∀ c ∈ q.2, isWS c = true := by
  obtain ⟨w1, w2, hw1, hw2, hdec⟩ := trim_decomp (P ++ restRender L)
  rw [htrim] at hdec
  cases L with
  | nil =>
    exfalso
    rw [show restRender [] = [] from rfl, List.append_nil] at hdec
    exact (tokenFreeB_iff.1 hP t' ht') ⟨w1, w2, by rw [hdec, List.append_assoc]⟩
  | cons q L' =>
    obtain ⟨t1, r1⟩ := q
    obtain ⟨ht1, hr1⟩ := hL (t1, r1) (List.mem_cons_self _ _)
    have hs : P ++ restRender ((t1, r1) :: L') =
        P ++ (t1 ++ (r1 ++ restRender L')) := by
      unfold restRender
      rw [List.flatMap_cons]
      simp [List.append_assoc]
    rw [hs] at hdec
    have hocc1 : t1 <+: (P ++ (t1 ++ (r1 ++ restRender L'))).drop P.length := by
      rw [List.drop_left]
      exact List.prefix_append t1 _
    have hocc' : t' <+: (P ++ (t1 ++ (r1 ++ restRender L'))).drop w1.length := by
      rw [hdec, List.drop_left]
      exact List.prefix_append t' w2
    rcases hsep t1 ht1 t' ht' (P ++ (t1 ++ (r1 ++ restRender L')))
      P.length w1.length hocc1 hocc' with hco | hfar | hfar
    · obtain ⟨hlen, heq⟩ := hco
      have hPw1 : P = w1 := by
        have h1 : (P ++ (t1 ++ (r1 ++ restRender L'))).take P.length = P :=
          List.take_left P _
        have h2 : (P ++ (t1 ++ (r1 ++ restRender L'))).take w1.length = w1 := by
          rw [hdec]
          exact List.take_left w1 _
        rw [← h1, ← h2, hlen]
      have hcancel : t1 ++ (r1 ++ restRender L') = t' ++ w2 := by
        have hgoal : P ++ (t1 ++ (r1 ++ restRender L')) =
            P ++ (t' ++ w2) := by
          rw [hdec, hPw1]
        exact List.append_cancel_left hgoal
      have hw2eq : r1 ++ restRender L' = w2 := by
        have hgoal : t1 ++ (r1 ++ restRender L') = t1 ++ w2 := by
          rw [hcancel, heq]
        exact List.append_cancel_left hgoal
      cases L' with
      | nil =>
        rw [show restRender [] = [] from rfl, List.append_nil] at hw2eq
        refine ⟨by simp [heq], fun c hc => hw1 c (hPw1 ▸ hc), ?_⟩
        intro q hq c hc
        rw [List.mem_singleton] at hq
        subst hq
        exact hw2 c (hw2eq ▸ hc)
      | cons q2 L'' =>
        exfalso
        obtain ⟨t2, r2⟩ := q2
        obtain ⟨ht2, _⟩ := hL (t2, r2)
          (List.mem_cons_of_mem _ (List.mem_cons_self _ _))
        have hinf : t2 <:+: w2 := by
          rw [← hw2eq]
          refine ⟨r1, r2 ++ restRender L'', ?_⟩
          unfold restRender
          rw [List.flatMap_cons]
          simp [List.append_assoc]
        exact token_not_in_ws hw2 (hsolid t2 ht2) hinf
    · exfalso
      have hPle : P.length ≤ w1.length := by
        have hpos : 0 < t1.length := List.length_pos.2 (hne t1 ht1)
        omega
      have hdrop : (P ++ (t1 ++ (r1 ++ restRender L'))).drop P.length =
          w1.drop P.length ++ (t' ++ w2) := by
        rw [hdec, List.drop_append_eq_append_drop,
          show P.length - w1.length = 0 by omega, List.drop_zero]
      rw [hdrop] at hocc1
      have hpre : t1 <+: w1.drop P.length := prefix_of_append_of_le hocc1 (by
        rw [List.length_drop]
        omega)
      exact token_not_in_ws hw1 (hsolid t1 ht1)
        (infix_iff_prefix_drop.2 ⟨P.length, hpre⟩)
    · exfalso
      have hw1le : w1.length ≤ P.length := by
        have hpos : 0 < t'.length := List.length_pos.2 (hne t' ht')
        omega
      have hdrop : (P ++ (t1 ++ (r1 ++ restRender L'))).drop w1.length =
          P.drop w1.length ++ (t1 ++ (r1 ++ restRender L')) := by
        rw [List.drop_append_eq_append_drop,
          show w1.length - P.length = 0 by omega, List.drop_zero]
      rw [hdrop] at hocc'
      have hpre : t' <+: P.drop w1.length := prefix_of_append_of_le hocc' (by
        rw [List.length_drop]
        omega)
      exact (tokenFreeB_iff.1 hP t' ht')
        (infix_iff_prefix_drop.2 ⟨w1.length, hpre⟩)

theorem evRender_append : ∀ a b : List Ev,
    evRender (a ++ b) = evRender a ++ evRender b
  | [], _ => rfl
  | .piece mk u :: a, b => by
    rw [List.cons_append,
      show evRender (Ev.piece mk u :: (a ++ b)) = u ++ evRender (a ++ b)
        from rfl,
      evRender_append a b,
      show evRender (Ev.piece mk u :: a) = u ++ evRender a from rfl,
      List.append_assoc]
  | .tok t :: a, b => by
    rw [List.cons_append,
      show evRender (Ev.tok t :: (a ++ b)) = t ++ evRender (a ++ b) from rfl,
      evRender_append a b,
      show evRender (Ev.tok t :: a) = t ++ evRender a from rfl,
      List.append_assoc]
  | .rawc c :: a, b => by
    rw [List.cons_append,
      show evRender (Ev.rawc c :: (a ++ b)) = evRender (a ++ b) from rfl,
      evRender_append a b]
    rfl

theorem evOccs_append : ∀ a b : List Ev, evOccs (a ++ b) = evOccs a ++ evOccs b
  | [], _ => rfl
  | .piece _ _ :: a, b => evOccs_append a b
  | .rawc _ :: a, b => evOccs_append a b
  | .tok t :: a, b => by
    rw [List.cons_append,
      show evOccs (Ev.tok t :: (a ++ b)) = t :: evOccs (a ++ b) from rfl,
      evOccs_append a b,
      show evOccs (Ev.tok t :: a) = t :: evOccs a from rfl,
      List.cons_append]

theorem evSubst_append (m : TokMap) : ∀ a b : List Ev,
    evSubst m (a ++ b) = evSubst m a ++ evSubst m b
  | [], _ => rfl
  | .piece mk u :: a, b => by
    rw [List.cons_append,
      show evSubst m (Ev.piece mk u :: (a ++ b)) =
        u.map Atom.chr ++ evSubst m (a ++ b) from rfl,
      evSubst_append m a b,
      show evSubst m (Ev.piece mk u :: a) = u.map Atom.chr ++ evSubst m a
        from rfl,
      List.append_assoc]
  | .tok t :: a, b => by
    rw [List.cons_append,
      show evSubst m (Ev.tok t :: (a ++ b)) =
        Atom.img (lookupTok m t) :: evSubst m (a ++ b) from rfl,
      evSubst_append m a b,
      show evSubst m (Ev.tok t :: a) =
        Atom.img (lookupTok m t) :: evSubst m a from rfl,
      List.cons_append]
  | .rawc c :: a, b => by
    rw [List.cons_append,
      show evSubst m (Ev.rawc c :: (a ++ b)) =
        flattenChild c ++ evSubst m (a ++ b) from rfl,
      evSubst_append m a b,
      show evSubst m (Ev.rawc c :: a) = flattenChild c ++ evSubst m a from rfl,
      List.append_assoc]

theorem evRender_tokPiece (mk : List String) :
    ∀ R : List (List Char × List Char),
      evRender (R.flatMap fun q => [Ev.tok q.1, Ev.piece mk q.2]) = restRender R
  | [] => rfl
  | (t, p) :: R => by
    rw [List.flatMap_cons, List.cons_append, List.cons_append,
      List.nil_append,
      show evRender (Ev.tok t :: Ev.piece mk p ::
        (R.flatMap fun q => [Ev.tok q.1, Ev.piece mk q.2])) =
        t ++ (p ++ evRender (R.flatMap fun q => [Ev.tok q.1, Ev.piece mk q.2]))
        from rfl,
      evRender_tokPiece mk R]
    unfold restRender
    rw [List.flatMap_cons]
    simp [List.append_assoc]

theorem evRender_spanEvents (sh : SpanShape) :
    evRender (spanEvents sh) = sh.text := by
  unfold spanEvents SpanShape.text
  rw [show evRender (Ev.piece sh.marks sh.first ::
    (sh.rest.flatMap fun q => [Ev.tok q.1, Ev.piece sh.marks q.2])) =
    sh.first ++ evRender (sh.rest.flatMap fun q =>
      [Ev.tok q.1, Ev.piece sh.marks q.2]) from rfl]
  rw [evRender_tokPiece]

theorem evOccs_tokPiece (mk : List String) :
    ∀ R : List (List Char × List Char),
      evOccs (R.flatMap fun q => [Ev.tok q.1, Ev.piece mk q.2]) =
        R.map Prod.fst
  | [] => rfl
  | (t, p) :: R => by
    rw [List.flatMap_cons, List.cons_append, List.cons_append, List.nil_append,
      show evOccs (Ev.tok t :: Ev.piece mk p ::
        (R.flatMap fun q => [Ev.tok q.1, Ev.piece mk q.2])) =
        t :: evOccs (R.flatMap fun q => [Ev.tok q.1, Ev.piece mk q.2])
        from rfl,
      evOccs_tokPiece mk R, List.map_cons]

theorem evOccs_spanEvents (sh : SpanShape) :
    evOccs (spanEvents sh) = sh.occs := by
  unfold spanEvents SpanShape.occs
  rw [show evOccs (Ev.piece sh.marks sh.first ::
    (sh.rest.flatMap fun q => [Ev.tok q.1, Ev.piece sh.marks q.2])) =
    evOccs (sh.rest.flatMap fun q => [Ev.tok q.1, Ev.piece sh.marks q.2])
    from rfl]
  rw [evOccs_tokPiece]

theorem evOccs_blockEvents : ∀ css : List ChildShape,
    evOccs (blockEvents css) = css.flatMap ChildShape.occs
  | [] => rfl
  | .sp sh :: css => by
    rw [show blockEvents (ChildShape.sp sh :: css) =
      spanEvents sh ++ blockEvents css from rfl,
      evOccs_append, evOccs_spanEvents, evOccs_blockEvents css,
      List.flatMap_cons]
    rfl
  | .raw c :: css => by
    rw [show blockEvents (ChildShape.raw c :: css) =
      [Ev.rawc c] ++ blockEvents css from rfl,
      evOccs_append, evOccs_blockEvents css, List.flatMap_cons]
    rfl

theorem spanJoin_render {tokens : List (List Char)} :
    ∀ css : List ChildShape, (∀ cs ∈ css, cs.WF tokens = true) →
      spanJoin (css.map ChildShape.child) = evRender (blockEvents css)
  | [], _ => rfl
  | .sp sh :: css, h => by
    rw [List.map_cons,
      show spanJoin (ChildShape.child (ChildShape.sp sh) ::
        css.map ChildShape.child) =
        sh.text ++ spanJoin (css.map ChildShape.child) from rfl,
      spanJoin_render css (fun x hx => h x (List.mem_cons_of_mem _ hx)),
      show blockEvents (ChildShape.sp sh :: css) =
        spanEvents sh ++ blockEvents css from rfl,
      evRender_append, evRender_spanEvents]
  | .raw c :: css, h => by
    have hns : c.isTextSpan = false := by
      have := h _ (List.mem_cons_self _ _)
      unfold ChildShape.WF at this
      rw [Bool.not_eq_true'] at this
      exact this
    have hjoin : spanJoin (ChildShape.child (ChildShape.raw c) ::
        css.map ChildShape.child) = spanJoin (css.map ChildShape.child) := by
      cases c with
      | span k ot mk =>
        cases ot with
        | none => rfl
        | some t => simp [Child.isTextSpan] at hns
      | extra k p => rfl
    rw [List.map_cons, hjoin,
      spanJoin_render css (fun x hx => h x (List.mem_cons_of_mem _ hx)),
      show blockEvents (ChildShape.raw c :: css) =
        [Ev.rawc c] ++ blockEvents css from rfl,
      evRender_append]
    rfl

theorem occs_mem_of_WF {tokens : List (List Char)} {css : List ChildShape}
    (h : ∀ cs ∈ css, cs.WF tokens = true) :
    ∀ t ∈ evOccs (blockEvents css), t ∈ tokens := by
  intro t ht
  rw [evOccs_blockEvents] at ht
  rw [List.mem_flatMap] at ht
  obtain ⟨cs, hcs, ht⟩ := ht
  cases cs with
  | sp sh =>
    obtain ⟨_, hrest⟩ := spanWF_parts (h _ hcs)
    unfold ChildShape.occs SpanShape.occs at ht
    rw [List.mem_map] at ht
    obtain ⟨q, hq, rfl⟩ := ht
    exact (hrest q hq).1
  | raw c =>
    unfold ChildShape.occs at ht
    simp at ht

theorem raws_of_WF {tokens : List (List Char)} {css : List ChildShape}
    (h : ∀ cs ∈ css, cs.WF tokens = true) :
    ∀ c, Ev.rawc c ∈ blockEvents css → c.isTextSpan = false := by
  intro c hc
  unfold blockEvents at hc
  rw [List.mem_flatMap] at hc
  obtain ⟨cs, hcs, hc⟩ := hc
  cases cs with
  | sp sh =>
    exfalso
    unfold childEvents spanEvents at hc
    rcases List.mem_cons.1 hc with h1 | h1
    · exact Ev.noConfusion h1
    · rw [List.mem_flatMap] at h1
      obtain ⟨q, _, h1⟩ := h1
      rcases List.mem_cons.1 h1 with h2 | h2
      · exact Ev.noConfusion h2
      · rcases List.mem_cons.1 h2 with h3 | h3
        · exact Ev.noConfusion h3
        · simp at h3
  | raw c' =>
    unfold childEvents at hc
    rw [List.mem_singleton] at hc
    have : c' = c := by
      cases hc
      rfl
    rw [← this]
    have := h _ hcs
    unfold ChildShape.WF at this
    rw [Bool.not_eq_true'] at this
    exact this

/-- A text block with its children's decompositions. -/
structure BlockShape where
  key : Option Nat
  style : String
  markDefs : List String
  children : List ChildShape
deriving DecidableEq

def BlockShape.item (bs : BlockShape) : PTItem :=
  .block bs.key bs.style bs.markDefs (bs.children.map ChildShape.child)

def BlockShape.occs (bs : BlockShape) : List (List Char) :=
  evOccs (blockEvents bs.children)

def BlockShape.WF (tokens : List (List Char)) (bs : BlockShape) : Bool :=
  bs.children.all (ChildShape.WF tokens) &&
    tokenFreeB tokens (evPending (blockEvents bs.children)) &&
    (evRegions (blockEvents bs.children)).all (tokenFreeB tokens)

/-- A converter output item with its decomposition: a decomposed text block,
or a verbatim non-block item. -/
inductive ItemShape where
  | blk (bs : BlockShape)
  | raw (it : PTItem)
deriving DecidableEq

def ItemShape.item : ItemShape → PTItem
  | .blk bs => bs.item
  | .raw it => it

def ItemShape.occs : ItemShape → List (List Char)
  | .blk bs => bs.occs
  | .raw _ => []

/-- Wellformed item decomposition: decomposed blocks are wellformed; verbatim
items are neither text blocks nor image blocks. -/
def ItemShape.WF (tokens : List (List Char)) : ItemShape → Bool
  | .blk bs => bs.WF tokens
  | .raw it =>
    match it with
    | .block _ _ _ _ => false
    | .image _ _ => false
    | .misc _ _ => true

/-- Expected content atoms of one item after token substitution. -/
def shapeSubst (m : TokMap) : ItemShape → List Atom
  | .blk bs => evSubst m (blockEvents bs.children)
  | .raw it => flattenItem it

theorem blockWF_parts {tokens : List (List Char)} {bs : BlockShape}
    (h : bs.WF tokens = true) :
    (∀ cs ∈ bs.children, ChildShape.WF tokens cs = true) ∧
      tokenFreeB tokens (evPending (blockEvents bs.children)) = true ∧
      ∀ r ∈ evRegions (blockEvents bs.children), tokenFreeB tokens r = true := by
  unfold BlockShape.WF at h
  rw [Bool.and_eq_true, Bool.and_eq_true, List.all_eq_true,
    List.all_eq_true] at h
  exact ⟨h.1.1, h.1.2, h.2⟩

theorem join_tokenFree_of_no_occ {tokens : List (List Char)}
    {css : List ChildShape}
    (hwf : ∀ cs ∈ css, ChildShape.WF tokens cs = true)
    (hpend : tokenFreeB tokens (evPending (blockEvents css)) = true)
    (hocc : evOccs (blockEvents css) = []) :
    tokenFreeB tokens (spanJoin (css.map ChildShape.child)) = true := by
  rw [spanJoin_render css hwf, evRender_decomp]
  have halt : evAlt (blockEvents css) = [] := by
    have h1 := evAlt_fst (blockEvents css)
    rw [hocc] at h1
    exact List.map_eq_nil_iff.1 h1
  rw [halt, show restRender [] = [] from rfl, List.append_nil]
  exact hpend

theorem contains_false_of_tokenFree {tokens : List (List Char)}
    {cs : List Child} (h : tokenFreeB tokens (spanJoin cs) = true) :
    blockContainsAnyToken cs tokens = false := by
  unfold blockContainsAnyToken
  rw [List.any_eq_false]
  intro t ht hc
  exact (tokenFreeB_iff.1 h t ht) (containsTok_eq_true_iff.1 hc)

theorem find_tokenOnly_none_of_tokenFree {tokens : List (List Char)}
    {cs : List Child} (h : tokenFreeB tokens (spanJoin cs) = true) :
    tokens.find? (fun t => isTokenOnlyBlock cs t) = none := by
  rw [List.find?_eq_none]
  intro t ht hp
  unfold isTokenOnlyBlock at hp
  have htr : trim (spanJoin cs) = t := by
    exact beq_iff_eq.1 hp
  obtain ⟨w1, w2, _, _, hdec⟩ := trim_decomp (spanJoin cs)
  rw [htr] at hdec
  exact (tokenFreeB_iff.1 h t ht) ⟨w1, w2, by rw [hdec, List.append_assoc]⟩

theorem contains_true_of_occ {tokens : List (List Char)}
    {css : List ChildShape} {t1 : List Char} {rest : List (List Char)}
    (hwf : ∀ cs ∈ css, ChildShape.WF tokens cs = true)
    (hocc : evOccs (blockEvents css) = t1 :: rest) :
    blockContainsAnyToken (css.map ChildShape.child) tokens = true := by
  have hmem : t1 ∈ evOccs (blockEvents css) := by
    rw [hocc]
    exact List.mem_cons_self _ _
  have ht1 : t1 ∈ tokens := occs_mem_of_WF hwf t1 hmem
  have halt : ∃ q A, evAlt (blockEvents css) = q :: A ∧ q.1 = t1 := by
    have h1 := evAlt_fst (blockEvents css)
    rw [hocc] at h1
    cases hA : evAlt (blockEvents css) with
    | nil => rw [hA] at h1; simp at h1
    | cons q A =>
      rw [hA, List.map_cons] at h1
      exact ⟨q, A, rfl, (List.cons_eq_cons.1 h1).1⟩
  obtain ⟨q, A, hA, hq1⟩ := halt
  have hinf : t1 <:+: spanJoin (css.map ChildShape.child) := by
    rw [spanJoin_render css hwf, evRender_decomp, hA]
    refine ⟨evPending (blockEvents css), q.2 ++ restRender A, ?_⟩
    unfold restRender
    rw [List.flatMap_cons, hq1]
    simp [List.append_assoc]
  unfold blockContainsAnyToken
  rw [List.any_eq_true]
  exact ⟨t1, ht1, containsTok_eq_true_iff.2 hinf⟩

theorem tokenOnly_occs {tokens : List (List Char)} {css : List ChildShape}
    {t' : List Char}
    (hsep : Sep tokens) (hne : ∀ x ∈ tokens, x ≠ [])
    (hsolid : ∀ x ∈ tokens, ∃ c ∈ x, isWS c = false)
    (hwf : ∀ cs ∈ css, ChildShape.WF tokens cs = true)
    (hpend : tokenFreeB tokens (evPending (blockEvents css)) = true)
    (hreg : ∀ r ∈ evRegions (blockEvents css), tokenFreeB tokens r = true)
    (hfind : tokens.find?
      (fun t => isTokenOnlyBlock (css.map ChildShape.child) t) = some t') :
    evOccs (blockEvents css) = [t'] ∧
      (∀ c ∈ evPending (blockEvents css), isWS c = true) ∧
      ∀ r ∈ evRegions (blockEvents css), ∀ c ∈ r, isWS c = true := by
  have ht' : t' ∈ tokens := List.mem_of_find?_eq_some hfind
  have hp := List.find?_some hfind
  unfold isTokenOnlyBlock at hp
  have htr : trim (spanJoin (css.map ChildShape.child)) = t' := beq_iff_eq.1 hp
  rw [spanJoin_render css hwf, evRender_decomp] at htr
  have hL : ∀ q ∈ evAlt (blockEvents css),
      q.1 ∈ tokens ∧ tokenFreeB tokens q.2 = true := by
    intro q hq
    constructor
    · apply occs_mem_of_WF hwf
      rw [← evAlt_fst]
      exact List.mem_map_of_mem Prod.fst hq
    · apply hreg
      rw [← evAlt_snd]
      exact List.mem_map_of_mem Prod.snd hq
  obtain ⟨hfst, hPws, hqws⟩ := alt_trim_token hsep hne hsolid hpend hL ht' htr
  refine ⟨by rw [← evAlt_fst, hfst], hPws, ?_⟩
  intro r hr
  rw [← evAlt_snd, List.mem_map] at hr
  obtain ⟨q, hq, rfl⟩ := hr
  exact hqws q hq

theorem filter_ws_chars {u : List Char} (h : ∀ c ∈ u, isWS c = true) :
    (u.map Atom.chr).filter keepAtom = [] := by
  rw [List.filter_eq_nil_iff]
  intro a ha
  rw [List.mem_map] at ha
  obtain ⟨c, hc, rfl⟩ := ha
  simp [keepAtom, Atom.droppable, h c hc]

theorem filter_flattenChild_raw {c : Child} (h : c.isTextSpan = false) :
    (flattenChild c).filter keepAtom = [] := by
  cases c with
  | span k ot mk =>
    cases ot with
    | none => rfl
    | some t => simp [Child.isTextSpan] at h
  | extra k p => rfl

theorem filter_evSubst_no_occ {m : TokMap} :
    ∀ es : List Ev, evOccs es = [] →
      (∀ c ∈ evPending es, isWS c = true) →
      (∀ c, Ev.rawc c ∈ es → c.isTextSpan = false) →
      (evSubst m es).filter keepAtom = []
  | [], _, _, _ => rfl
  | .piece mk u :: es, hocc, hpend, hraw => by
    rw [show evSubst m (Ev.piece mk u :: es) = u.map Atom.chr ++ evSubst m es
      from rfl, List.filter_append]
    rw [filter_ws_chars (fun c hc => hpend c (by
      rw [show evPending (Ev.piece mk u :: es) = u ++ evPending es from rfl]
      exact List.mem_append_left _ hc))]
    rw [filter_evSubst_no_occ es hocc
      (fun c hc => hpend c (by
        rw [show evPending (Ev.piece mk u :: es) = u ++ evPending es from rfl]
        exact List.mem_append_right _ hc))
      (fun c hc => hraw c (List.mem_cons_of_mem _ hc))]
    rfl
  | .tok t :: es, hocc, _, _ => by
    rw [show evOccs (Ev.tok t :: es) = t :: evOccs es from rfl] at hocc
    exact absurd hocc (by simp)
  | .rawc c :: es, hocc, hpend, hraw => by
    rw [show evSubst m (Ev.rawc c :: es) = flattenChild c ++ evSubst m es
      from rfl, List.filter_append,
      filter_flattenChild_raw (hraw c (List.mem_cons_self _ _)),
      filter_evSubst_no_occ es hocc hpend
        (fun x hx => hraw x (List.mem_cons_of_mem _ hx))]
    rfl

theorem filter_evSubst_one_occ {m : TokMap} :
    ∀ (es : List Ev) (t' : List Char), evOccs es = [t'] →
      (∀ c ∈ evPending es, isWS c = true) →
      (∀ r ∈ evRegions es, ∀ c ∈ r, isWS c = true) →
      (∀ c, Ev.rawc c ∈ es → c.isTextSpan = false) →
      (evSubst m es).filter keepAtom = [Atom.img (lookupTok m t')]
  | [], t', hocc, _, _, _ => by
    exact absurd hocc (by simp [evOccs])
  | .piece mk u :: es, t', hocc, hpend, hreg, hraw => by
    rw [show evSubst m (Ev.piece mk u :: es) = u.map Atom.chr ++ evSubst m es
      from rfl, List.filter_append]
    rw [filter_ws_chars (fun c hc => hpend c (by
      rw [show evPending (Ev.piece mk u :: es) = u ++ evPending es from rfl]
      exact List.mem_append_left _ hc))]
    rw [filter_evSubst_one_occ es t' hocc
      (fun c hc => hpend c (by
        rw [show evPending (Ev.piece mk u :: es) = u ++ evPending es from rfl]
        exact List.mem_append_right _ hc))
      (fun r hr => hreg r hr)
      (fun c hc => hraw c (List.mem_cons_of_mem _ hc))]
    rfl
  | .tok t :: es, t', hocc, _, hreg, hraw => by
    rw [show evOccs (Ev.tok t :: es) = t :: evOccs es from rfl] at hocc
    obtain ⟨rfl, hocc'⟩ := List.cons_eq_cons.1 hocc
    rw [show evSubst m (Ev.tok t :: es) =
      Atom.img (lookupTok m t) :: evSubst m es from rfl]
    rw [List.filter_cons_of_pos (by rfl)]
    rw [filter_evSubst_no_occ es hocc'
      (fun c hc => hreg (evPending es) (by
        rw [show evRegions (Ev.tok t :: es) = evPending es :: evRegions es
          from rfl]
        exact List.mem_cons_self _ _) c hc)
      (fun x hx => hraw x (List.mem_cons_of_mem _ hx))]
  | .rawc c :: es, t', hocc, hpend, hreg, hraw => by
    rw [show evSubst m (Ev.rawc c :: es) = flattenChild c ++ evSubst m es
      from rfl, List.filter_append,
      filter_flattenChild_raw (hraw c (List.mem_cons_self _ _)),
      filter_evSubst_one_occ es t' hocc hpend (fun r hr => hreg r hr)
        (fun x hx => hraw x (List.mem_cons_of_mem _ hx))]
    rfl

theorem dilute_of_filter_singleton {xs : List Atom} {d : ImageData}
    (h : xs.filter keepAtom = [Atom.img d]) : Dilute [Atom.img d] xs := by
  constructor
  · rw [← h]
    exact List.filter_sublist xs
  · rw [h]

theorem evSubst_no_occ_eq {m : TokMap} {tokens : List (List Char)} :
    ∀ css : List ChildShape, (∀ cs ∈ css, ChildShape.WF tokens cs = true) →
      evOccs (blockEvents css) = [] →
      evSubst m (blockEvents css) =
        (css.map ChildShape.child).flatMap flattenChild
  | [], _, _ => rfl
  | .sp sh :: css, hwf, hocc => by
    rw [show blockEvents (ChildShape.sp sh :: css) =
      spanEvents sh ++ blockEvents css from rfl, evOccs_append,
      evOccs_spanEvents] at hocc
    have h2 := List.append_eq_nil.1 hocc
    have hrest : sh.rest = [] := by
      have := h2.1
      unfold SpanShape.occs at this
      exact List.map_eq_nil_iff.1 this
    rw [show blockEvents (ChildShape.sp sh :: css) =
      spanEvents sh ++ blockEvents css from rfl, evSubst_append]
    rw [evSubst_no_occ_eq css
      (fun x hx => hwf x (List.mem_cons_of_mem _ hx)) h2.2]
    rw [List.map_cons, List.flatMap_cons]
    congr 1
    unfold spanEvents
    rw [hrest]
    show sh.first.map Atom.chr ++ evSubst m [] =
      flattenChild (ChildShape.child (ChildShape.sp sh))
    rw [show ChildShape.child (ChildShape.sp sh) =
      Child.span sh.key (some sh.text) sh.marks from rfl]
    unfold flattenChild SpanShape.text
    rw [hrest]
    simp [restRender, evSubst]
  | .raw c :: css, hwf, hocc => by
    rw [show blockEvents (ChildShape.raw c :: css) =
      [Ev.rawc c] ++ blockEvents css from rfl, evOccs_append] at hocc
    have h2 := List.append_eq_nil.1 hocc
    rw [show blockEvents (ChildShape.raw c :: css) =
      [Ev.rawc c] ++ blockEvents css from rfl, evSubst_append]
    rw [evSubst_no_occ_eq css
      (fun x hx => hwf x (List.mem_cons_of_mem _ hx)) h2.2]
    rw [List.map_cons, List.flatMap_cons]
    congr 1
    show flattenChild c ++ evSubst m [] = flattenChild c
    simp [evSubst]

theorem imageDataList_flush (sty : String) (md : List String) (st : SplitSt) :
    imageDataList (flushCurrent sty md st).out = imageDataList st.out := by
  unfold flushCurrent
  cases hasMeaningfulChildren st.cur <;>
    simp [imageDataList_append, imageDataList]

theorem flush_flatten_dilute (sty : String) (md : List String) (st : SplitSt) :
    Dilute (flattenItems (flushCurrent sty md st).out) (flattenSt st) := by
  unfold flushCurrent flattenSt
  cases hm : hasMeaningfulChildren st.cur with
  | true =>
    simp only [if_true]
    rw [show flattenItems (st.out ++
      [PTItem.block (some st.curKey) sty md st.cur]) =
      flattenItems st.out ++ st.cur.flatMap flattenChild by
        unfold flattenItems
        rw [List.flatMap_append]
        simp [flattenItem]]
    exact Dilute.refl _
  | false =>
    simp only [Bool.false_eq_true, if_false]
    refine ⟨List.sublist_append_left _ _, ?_⟩
    rw [List.filter_append]
    have hnil : (st.cur.flatMap flattenChild).filter keepAtom = [] := by
      rw [List.filter_eq_nil_iff]
      intro a ha
      simp [keepAtom, droppable_of_not_meaningful hm a ha]
    rw [hnil, List.append_nil]
    exact List.filter_sublist _

theorem mem_flush_out {sty : String} {md : List String} {st : SplitSt}
    {it : PTItem} (h : it ∈ (flushCurrent sty md st).out) :
    it ∈ st.out ∨ it = PTItem.block (some st.curKey) sty md st.cur := by
  unfold flushCurrent at h
  cases hm : hasMeaningfulChildren st.cur with
  | true =>
    rw [hm] at h
    simp only [if_true, List.mem_append, List.mem_singleton] at h
    exact h
  | false =>
    rw [hm] at h
    simp only [Bool.false_eq_true, if_false] at h
    exact Or.inl h

/-- Behaviour of `splitBlockByTokensPreserveMarks` on a wellformed block:
one image block per designated occurrence in order, content preserved up to
droppable atoms, and no token left in any produced block. -/
theorem splitBlock_shaped {tokens : List (List Char)} {m : TokMap}
    {sty : String} {md : List String}
    (hsep : Sep tokens) (hne : ∀ x ∈ tokens, x ≠ [])
    (css : List ChildShape)
    (hwf : ∀ cs ∈ css, ChildShape.WF tokens cs = true)
    (hpend : tokenFreeB tokens (evPending (blockEvents css)) = true)
    (hreg : ∀ r ∈ evRegions (blockEvents css), tokenFreeB tokens r = true)
    (ctr : Nat) :
    imageDataList (splitBlockByTokensPreserveMarks sty md
        (css.map ChildShape.child) tokens m ctr).1 =
      (evOccs (blockEvents css)).map (lookupTok m) ∧
    Dilute (flattenItems (splitBlockByTokensPreserveMarks sty md
        (css.map ChildShape.child) tokens m ctr).1)
      (evSubst m (blockEvents css)) ∧
    ∀ it ∈ (splitBlockByTokensPreserveMarks sty md
        (css.map ChildShape.child) tokens m ctr).1, OutClean tokens it := by
  simp only [splitBlockByTokensPreserveMarks]
  rw [splitChildren_eq hsep hne css _ hwf]
  set st0 : SplitSt := { out := [], curKey := ctr, cur := [], ctr := ctr + 1 }
    with hst0
  set st1 := evProcess m (jsStyle sty) md (blockEvents css) st0 with hst1
  refine ⟨?_, ?_, ?_⟩
  · rw [imageDataList_flush]
    rw [hst1, evProcess_images]
    rw [hst0]
    rfl
  · refine (flush_flatten_dilute _ _ _).trans ?_
    have h1 := evProcess_flatten_dilute m (jsStyle sty) md (blockEvents css) st0
    have h2 : flattenSt st0 = [] := by rw [hst0]; rfl
    rw [h2, List.nil_append] at h1
    exact h1
  · have hc := evProcess_clean m (jsStyle sty) md tokens (blockEvents css) st0
      (raws_of_WF hwf)
      (by rw [hst0]; simpa [spanJoin] using hpend)
      hreg
      (by intro it hit; rw [hst0] at hit; simp at hit)
    intro it hit
    rcases mem_flush_out hit with h | h
    · exact hc.1 it h
    · rw [h]
      exact hc.2

theorem flattenItems_append (a b : List PTItem) :
    flattenItems (a ++ b) = flattenItems a ++ flattenItems b := by
  unfold flattenItems
  rw [List.flatMap_append]

/-- Master theorem for `replaceTokensWithImageBlocksPreserveMarks` on a
wellformedly decomposed converter output: one image block per designated
occurrence, in order; content preserved up to droppable atoms; and no token
left in the joined text of any produced block. -/
theorem replaceTokens_shaped {m : TokMap}
    (hsep : Sep (tokensOf m)) (hne : ∀ x ∈ tokensOf m, x ≠ [])
    (hsolid : ∀ x ∈ tokensOf m, ∃ c ∈ x, isWS c = false) :
    ∀ (shapes : List ItemShape) (ctr : Nat),
      (∀ s ∈ shapes, s.WF (tokensOf m) = true) →
      imageDataList (replaceTokens m (shapes.map ItemShape.item) ctr).1 =
          (shapes.flatMap ItemShape.occs).map (lookupTok m) ∧
        Dilute
          (flattenItems (replaceTokens m (shapes.map ItemShape.item) ctr).1)
          (shapes.flatMap (shapeSubst m)) ∧
        ∀ it ∈ (replaceTokens m (shapes.map ItemShape.item) ctr).1,
          OutClean (tokensOf m) it
  | [], ctr, _ => by
    refine ⟨rfl, ?_, ?_⟩
    · exact Dilute.refl []
    · intro it hit
      simp [replaceTokens] at hit
  | .raw it :: shapes, ctr, hwf => by
    have hwfit := hwf _ (List.mem_cons_self _ _)
    have hwf' : ∀ s ∈ shapes, s.WF (tokensOf m) = true :=
      fun s hs => hwf s (List.mem_cons_of_mem _ hs)
    cases it with
    | block k sty md cs => exact absurd hwfit (by simp [ItemShape.WF])
    | image k d => exact absurd hwfit (by simp [ItemShape.WF])
    | misc k p =>
      obtain ⟨hi, hd, ho⟩ := replaceTokens_shaped hsep hne hsolid shapes
        (itemWithKey (PTItem.misc k p) ctr).2 hwf'
      have hstep : replaceTokens m
          ((ItemShape.raw (PTItem.misc k p) :: shapes).map ItemShape.item)
          ctr =
          ((itemWithKey (PTItem.misc k p) ctr).1 ::
            (replaceTokens m (shapes.map ItemShape.item)
              (itemWithKey (PTItem.misc k p) ctr).2).1,
           (replaceTokens m (shapes.map ItemShape.item)
              (itemWithKey (PTItem.misc k p) ctr).2).2) := rfl
      rw [hstep]
      have hkey : ∃ k', (itemWithKey (PTItem.misc k p) ctr).1 =
          PTItem.misc k' p := by
        cases k with
        | none => exact ⟨some ctr, rfl⟩
        | some k0 => exact ⟨some k0, rfl⟩
      obtain ⟨k', hk'⟩ := hkey
      refine ⟨?_, ?_, ?_⟩
      · rw [hk']
        exact hi
      · rw [hk']
        rw [show flattenItems (PTItem.misc k' p :: (replaceTokens m
          (shapes.map ItemShape.item)
          (itemWithKey (PTItem.misc k p) ctr).2).1) =
          [Atom.miscN p] ++ flattenItems (replaceTokens m
            (shapes.map ItemShape.item)
            (itemWithKey (PTItem.misc k p) ctr).2).1 from rfl]
        rw [show (ItemShape.raw (PTItem.misc k p) :: shapes).flatMap
          (shapeSubst m) = [Atom.miscN p] ++ shapes.flatMap (shapeSubst m)
          from rfl]
        exact Dilute.append (Dilute.refl _) hd
      · intro x hx
        rcases List.mem_cons.1 hx with rfl | hx
        · rw [hk']
          trivial
        · exact ho x hx
  | .blk bs :: shapes, ctr, hwf => by
    have hwfb := hwf _ (List.mem_cons_self _ _)
    have hwf' : ∀ s ∈ shapes, s.WF (tokensOf m) = true :=
      fun s hs => hwf s (List.mem_cons_of_mem _ hs)
    obtain ⟨hcwf, hpend, hreg⟩ := blockWF_parts
      (by simpa [ItemShape.WF] using hwfb)
    cases hfind : (tokensOf m).find?
      (fun t => isTokenOnlyBlock (bs.children.map ChildShape.child) t) with
    | some t' =>
      obtain ⟨hocc, hPws, hRws⟩ := tokenOnly_occs hsep hne hsolid hcwf hpend
        hreg hfind
      obtain ⟨hi, hd, ho⟩ := replaceTokens_shaped hsep hne hsolid shapes
        (ctr + 1) hwf'
      have hstep : replaceTokens m
          ((ItemShape.blk bs :: shapes).map ItemShape.item) ctr =
          (PTItem.image (some ctr) (lookupTok m t') ::
            (replaceTokens m (shapes.map ItemShape.item) (ctr + 1)).1,
           (replaceTokens m (shapes.map ItemShape.item) (ctr + 1)).2) := by
        conv_lhs => unfold replaceTokens
        show (match (tokensOf m).find?
            (fun t => isTokenOnlyBlock (bs.children.map ChildShape.child) t)
          with
          | some t =>
            (PTItem.image (some ctr) (lookupTok m t) ::
              (replaceTokens m (shapes.map ItemShape.item) (ctr + 1)).1,
             (replaceTokens m (shapes.map ItemShape.item) (ctr + 1)).2)
          | none =>
            if blockContainsAnyToken (bs.children.map ChildShape.child)
                (tokensOf m) = true then
              ((splitBlockByTokensPreserveMarks bs.style bs.markDefs
                  (bs.children.map ChildShape.child) (tokensOf m) m ctr).1 ++
                (replaceTokens m (shapes.map ItemShape.item)
                  (splitBlockByTokensPreserveMarks bs.style bs.markDefs
                    (bs.children.map ChildShape.child) (tokensOf m) m
                    ctr).2).1,
               (replaceTokens m (shapes.map ItemShape.item)
                  (splitBlockByTokensPreserveMarks bs.style bs.markDefs
                    (bs.children.map ChildShape.child) (tokensOf m) m
                    ctr).2).2)
            else
              (PTItem.block bs.key bs.style bs.markDefs
                  (bs.children.map ChildShape.child) ::
                (replaceTokens m (shapes.map ItemShape.item) ctr).1,
               (replaceTokens m (shapes.map ItemShape.item) ctr).2)) = _
        rw [hfind]
      rw [hstep]
      refine ⟨?_, ?_, ?_⟩
      · rw [show imageDataList (PTItem.image (some ctr) (lookupTok m t') ::
          (replaceTokens m (shapes.map ItemShape.item) (ctr + 1)).1) =
          lookupTok m t' :: imageDataList (replaceTokens m
            (shapes.map ItemShape.item) (ctr + 1)).1 from rfl, hi]
        rw [show (ItemShape.blk bs :: shapes).flatMap ItemShape.occs =
          bs.occs ++ shapes.flatMap ItemShape.occs from rfl]
        rw [show bs.occs = evOccs (blockEvents bs.children) from rfl, hocc]
        rfl
      · rw [show flattenItems (PTItem.image (some ctr) (lookupTok m t') ::
          (replaceTokens m (shapes.map ItemShape.item) (ctr + 1)).1) =
          [Atom.img (lookupTok m t')] ++ flattenItems (replaceTokens m
            (shapes.map ItemShape.item) (ctr + 1)).1 from rfl]
        rw [show (ItemShape.blk bs :: shapes).flatMap (shapeSubst m) =
          evSubst m (blockEvents bs.children) ++
            shapes.flatMap (shapeSubst m) from rfl]
        refine Dilute.append ?_ hd
        exact dilute_of_filter_singleton
          (filter_evSubst_one_occ (blockEvents bs.children) t' hocc hPws hRws
            (raws_of_WF hcwf))
      · intro x hx
        rcases List.mem_cons.1 hx with rfl | hx
        · trivial
        · exact ho x hx
    | none =>
      by_cases hcont : blockContainsAnyToken
          (bs.children.map ChildShape.child) (tokensOf m) = true
      · -- split branch
        obtain ⟨hsi, hsd, hso⟩ := splitBlock_shaped hsep hne bs.children hcwf
          hpend hreg ctr
        obtain ⟨hi, hd, ho⟩ := replaceTokens_shaped hsep hne hsolid shapes
          (splitBlockByTokensPreserveMarks bs.style bs.markDefs
            (bs.children.map ChildShape.child) (tokensOf m) m ctr).2 hwf'
        have hstep : replaceTokens m
            ((ItemShape.blk bs :: shapes).map ItemShape.item) ctr =
            ((splitBlockByTokensPreserveMarks bs.style bs.markDefs
                (bs.children.map ChildShape.child) (tokensOf m) m ctr).1 ++
              (replaceTokens m (shapes.map ItemShape.item)
                (splitBlockByTokensPreserveMarks bs.style bs.markDefs
                  (bs.children.map ChildShape.child) (tokensOf m) m
                  ctr).2).1,
             (replaceTokens m (shapes.map ItemShape.item)
                (splitBlockByTokensPreserveMarks bs.style bs.markDefs
                  (bs.children.map ChildShape.child) (tokensOf m) m
                  ctr).2).2) := by
          conv_lhs => unfold replaceTokens
          show (match (tokensOf m).find?
              (fun t => isTokenOnlyBlock (bs.children.map ChildShape.child) t)
            with
            | some t =>
              (PTItem.image (some ctr) (lookupTok m t) ::
                (replaceTokens m (shapes.map ItemShape.item) (ctr + 1)).1,
               (replaceTokens m (shapes.map ItemShape.item) (ctr + 1)).2)
            | none =>
              if blockContainsAnyToken (bs.children.map ChildShape.child)
                  (tokensOf m) = true then
                ((splitBlockByTokensPreserveMarks bs.style bs.markDefs
                    (bs.children.map ChildShape.child) (tokensOf m) m
                    ctr).1 ++
                  (replaceTokens m (shapes.map ItemShape.item)
                    (splitBlockByTokensPreserveMarks bs.style bs.markDefs
                      (bs.children.map ChildShape.child) (tokensOf m) m
                      ctr).2).1,
                 (replaceTokens m (shapes.map ItemShape.item)
                    (splitBlockByTokensPreserveMarks bs.style bs.markDefs
                      (bs.children.map ChildShape.child) (tokensOf m) m
                      ctr).2).2)
              else
                (PTItem.block bs.key bs.style bs.markDefs
                    (bs.children.map ChildShape.child) ::
                  (replaceTokens m (shapes.map ItemShape.item) ctr).1,
                 (replaceTokens m (shapes.map ItemShape.item) ctr).2)) = _
          rw [hfind, if_pos hcont]
        rw [hstep]
        refine ⟨?_, ?_, ?_⟩
        · rw [imageDataList_append, hsi, hi]
          rw [show (ItemShape.blk bs :: shapes).flatMap ItemShape.occs =
            evOccs (blockEvents bs.children) ++
              shapes.flatMap ItemShape.occs from rfl]
          rw [List.map_append]
        · rw [flattenItems_append]
          rw [show (ItemShape.blk bs :: shapes).flatMap (shapeSubst m) =
            evSubst m (blockEvents bs.children) ++
              shapes.flatMap (shapeSubst m) from rfl]
          exact Dilute.append hsd hd
        · intro x hx
          rcases List.mem_append.1 hx with hx | hx
          · exact hso x hx
          · exact ho x hx
      · -- pass-through branch
        have hocc : evOccs (blockEvents bs.children) = [] := by
          cases hocc : evOccs (blockEvents bs.children) with
          | nil => rfl
          | cons t1 rest =>
            exact absurd (contains_true_of_occ hcwf hocc) hcont
        obtain ⟨hi, hd, ho⟩ := replaceTokens_shaped hsep hne hsolid shapes ctr
          hwf'
        have hstep : replaceTokens m
            ((ItemShape.blk bs :: shapes).map ItemShape.item) ctr =
            (PTItem.block bs.key bs.style bs.markDefs
                (bs.children.map ChildShape.child) ::
              (replaceTokens m (shapes.map ItemShape.item) ctr).1,
             (replaceTokens m (shapes.map ItemShape.item) ctr).2) := by
          conv_lhs => unfold replaceTokens
          show (match (tokensOf m).find?
              (fun t => isTokenOnlyBlock (bs.children.map ChildShape.child) t)
            with
            | some t =>
              (PTItem.image (some ctr) (lookupTok m t) ::
                (replaceTokens m (shapes.map ItemShape.item) (ctr + 1)).1,
               (replaceTokens m (shapes.map ItemShape.item) (ctr + 1)).2)
            | none =>
              if blockContainsAnyToken (bs.children.map ChildShape.child)
                  (tokensOf m) = true then
                ((splitBlockByTokensPreserveMarks bs.style bs.markDefs
                    (bs.children.map ChildShape.child) (tokensOf m) m
                    ctr).1 ++
                  (replaceTokens m (shapes.map ItemShape.item)
                    (splitBlockByTokensPreserveMarks bs.style bs.markDefs
                      (bs.children.map ChildShape.child) (tokensOf m) m
                      ctr).2).1,
                 (replaceTokens m (shapes.map ItemShape.item)
                    (splitBlockByTokensPreserveMarks bs.style bs.markDefs
                      (bs.children.map ChildShape.child) (tokensOf m) m
                      ctr).2).2)
              else
                (PTItem.block bs.key bs.style bs.markDefs
                    (bs.children.map ChildShape.child) ::
                  (replaceTokens m (shapes.map ItemShape.item) ctr).1,
                 (replaceTokens m (shapes.map ItemShape.item) ctr).2)) = _
          rw [hfind, if_neg hcont]
        rw [hstep]
        refine ⟨?_, ?_, ?_⟩
        · rw [show imageDataList (PTItem.block bs.key bs.style bs.markDefs
            (bs.children.map ChildShape.child) ::
            (replaceTokens m (shapes.map ItemShape.item) ctr).1) =
            imageDataList (replaceTokens m (shapes.map ItemShape.item) ctr).1
            from rfl, hi]
          rw [show (ItemShape.blk bs :: shapes).flatMap ItemShape.occs =
            evOccs (blockEvents bs.children) ++
              shapes.flatMap ItemShape.occs from rfl, hocc]
          rfl
        · rw [show flattenItems (PTItem.block bs.key bs.style bs.markDefs
            (bs.children.map ChildShape.child) ::
            (replaceTokens m (shapes.map ItemShape.item) ctr).1) =
            (bs.children.map ChildShape.child).flatMap flattenChild ++
              flattenItems (replaceTokens m (shapes.map ItemShape.item)
                ctr).1 from rfl]
          rw [show (ItemShape.blk bs :: shapes).flatMap (shapeSubst m) =
            evSubst m (blockEvents bs.children) ++
              shapes.flatMap (shapeSubst m) from rfl]
          rw [evSubst_no_occ_eq bs.children hcwf hocc]
          exact Dilute.append (Dilute.refl _) hd
        · intro x hx
          rcases List.mem_cons.1 hx with rfl | hx
          · exact join_tokenFree_of_no_occ hcwf hpend hocc
          · exact ho x hx

/-- A produced child is a copy of an original child: a span fragment carries
exactly the marks of a source span whose text contains the fragment; other
children keep payload and marks verbatim. Only keys and span text change. -/
def FromSpanOf (children : List Child) : Child → Prop
  | .span _ (some txt) mks =>
    ∃ k0 txt0, Child.span k0 (some txt0) mks ∈ children ∧ txt <:+: txt0
  | .span _ none mks => ∃ k0, Child.span k0 none mks ∈ children
  | .extra _ p => ∃ k0, Child.extra k0 p ∈ children

/-- Frame property of a produced item: a text block carries the given style
and mark definitions and all its children are copies of original children. -/
def BlockFrame (sty : String) (md : List String) (children : List Child) :
    PTItem → Prop
  | .block _ sty' md' cs' =>
    sty' = sty ∧ md' = md ∧ ∀ c' ∈ cs', FromSpanOf children c'
  | _ => True

theorem frame_pushSpan {children : List Child} {mks : List String}
    {txt : List Char} {st : SplitSt}
    (hsrc : ∃ k0 txt0, Child.span k0 (some txt0) mks ∈ children ∧
      txt <:+: txt0)
    (hcur : ∀ c' ∈ st.cur, FromSpanOf children c') :
    ∀ c' ∈ (pushSpan mks txt st).cur, FromSpanOf children c' := by
  intro c' hc'
  unfold pushSpan at hc'
  by_cases ht : txt.isEmpty = true
  · rw [if_pos ht] at hc'
    exact hcur c' hc'
  · rw [if_neg ht] at hc'
    simp only [List.mem_append, List.mem_singleton] at hc'
    rcases hc' with hc' | rfl
    · exact hcur c' hc'
    · exact hsrc

theorem frame_pushRaw {children : List Child} {c : Child} {st : SplitSt}
    (hc : c ∈ children) (hns : c.isTextSpan = false)
    (hcur : ∀ c' ∈ st.cur, FromSpanOf children c') :
    ∀ c' ∈ (pushRaw c st).cur, FromSpanOf children c' := by
  intro c' hc'
  cases c with
  | span k ot mks =>
    cases ot with
    | none =>
      cases k with
      | none =>
        rcases List.mem_append.1 hc' with h | h
        · exact hcur c' h
        · rw [List.mem_singleton] at h
          subst h
          exact ⟨none, hc⟩
      | some k0 =>
        rcases List.mem_append.1 hc' with h | h
        · exact hcur c' h
        · rw [List.mem_singleton] at h
          subst h
          exact ⟨some k0, hc⟩
    | some t => simp [Child.isTextSpan] at hns
  | extra k p =>
    cases k with
    | none =>
      rcases List.mem_append.1 hc' with h | h
      · exact hcur c' h
      · rw [List.mem_singleton] at h
        subst h
        exact ⟨none, hc⟩
    | some k0 =>
      rcases List.mem_append.1 hc' with h | h
      · exact hcur c' h
      · rw [List.mem_singleton] at h
        subst h
        exact ⟨some k0, hc⟩

theorem frame_flush {sty : String} {md : List String} {children : List Child}
    {st : SplitSt}
    (hout : ∀ it ∈ st.out, BlockFrame sty md children it)
    (hcur : ∀ c' ∈ st.cur, FromSpanOf children c') :
    (∀ it ∈ (flushCurrent sty md st).out, BlockFrame sty md children it) ∧
      ∀ c' ∈ (flushCurrent sty md st).cur, FromSpanOf children c' := by
  constructor
  · intro it hit
    rcases mem_flush_out hit with h | h
    · exact hout it h
    · rw [h]
      exact ⟨rfl, rfl, hcur⟩
  · intro c' hc'
    simp [flushCurrent] at hc'

theorem frame_emitImage {sty : String} {md : List String}
    {children : List Child} {m : TokMap} {t : List Char} {st : SplitSt}
    (hout : ∀ it ∈ st.out, BlockFrame sty md children it)
    (hcur : ∀ c' ∈ st.cur, FromSpanOf children c') :
    (∀ it ∈ (emitImage sty md m t st).out, BlockFrame sty md children it) ∧
      ∀ c' ∈ (emitImage sty md m t st).cur, FromSpanOf children c' := by
  constructor
  · intro it hit
    rcases mem_emitImage_out hit with h | h | ⟨k, d, h⟩
    · exact hout it h
    · rw [h]
      exact ⟨rfl, rfl, hcur⟩
    · rw [h]
      trivial
  · intro c' hc'
    rw [emitImage_cur] at hc'
    simp at hc'

theorem frame_splitSpanLoop {tokens : List (List Char)} {m : TokMap}
    {sty : String} {md : List String} {children : List Child}
    {mks : List String} {k0 : Option Nat} {t0 : List Char}
    (hmem : Child.span k0 (some t0) mks ∈ children) :
    ∀ (fuel : Nat) (text : List Char) (st : SplitSt),
      text <:+ t0 →
      (∀ it ∈ st.out, BlockFrame sty md children it) →
      (∀ c' ∈ st.cur, FromSpanOf children c') →
      (∀ it ∈ (splitSpanLoop tokens m sty md mks fuel text st).out,
        BlockFrame sty md children it) ∧
      ∀ c' ∈ (splitSpanLoop tokens m sty md mks fuel text st).cur,
        FromSpanOf children c'
  | 0, text, st, _, hout, hcur => ⟨hout, hcur⟩
  | fuel + 1, text, st, hsuf, hout, hcur => by
    cases hfn : findNearest tokens text with
    | none =>
      have hstep : splitSpanLoop tokens m sty md mks (fuel + 1) text st =
          pushSpan mks text st := by
        conv_lhs => unfold splitSpanLoop
        rw [hfn]
      rw [hstep]
      refine ⟨?_, frame_pushSpan ⟨k0, t0, hmem, hsuf.isInfix⟩ hcur⟩
      intro it hit
      have hps : (pushSpan mks text st).out = st.out := by
        unfold pushSpan
        by_cases ht : text.isEmpty = true
        · rw [if_pos ht]
        · rw [if_neg ht]
      rw [hps] at hit
      exact hout it hit
    | some p =>
      obtain ⟨t, idx⟩ := p
      have hstep : splitSpanLoop tokens m sty md mks (fuel + 1) text st =
          splitSpanLoop tokens m sty md mks fuel (text.drop (idx + t.length))
            (emitImage sty md m t (pushSpan mks (text.take idx) st)) := by
        conv_lhs => unfold splitSpanLoop
        rw [hfn]
      rw [hstep]
      have htake : (text.take idx) <:+: t0 :=
        ((List.take_prefix idx text).isInfix).trans hsuf.isInfix
      have hcur1 := frame_pushSpan ⟨k0, t0, hmem, htake⟩ hcur
      have hout1 : ∀ it ∈ (pushSpan mks (text.take idx) st).out,
          BlockFrame sty md children it := by
        intro it hit
        have hps : (pushSpan mks (text.take idx) st).out = st.out := by
          unfold pushSpan
          by_cases ht : (text.take idx).isEmpty = true
          · rw [if_pos ht]
          · rw [if_neg ht]
        rw [hps] at hit
        exact hout it hit
      obtain ⟨hout2, hcur2⟩ := frame_emitImage (m := m) (t := t) hout1 hcur1
      exact frame_splitSpanLoop hmem fuel (text.drop (idx + t.length)) _
        ((List.drop_suffix _ _).trans hsuf) hout2 hcur2

theorem frame_splitChildren {tokens : List (List Char)} {m : TokMap}
    {sty : String} {md : List String} {children : List Child} :
    ∀ (todo : List Child) (st : SplitSt),
      (∀ c ∈ todo, c ∈ children) →
      (∀ it ∈ st.out, BlockFrame sty md children it) →
      (∀ c' ∈ st.cur, FromSpanOf children c') →
      (∀ it ∈ (splitChildren tokens m sty md todo st).out,
        BlockFrame sty md children it) ∧
      ∀ c' ∈ (splitChildren tokens m sty md todo st).cur,
        FromSpanOf children c'
  | [], st, _, hout, hcur => ⟨hout, hcur⟩
  | c :: todo, st, hsub, hout, hcur => by
    have hc := hsub c (List.mem_cons_self _ _)
    have hsub' : ∀ x ∈ todo, x ∈ children :=
      fun x hx => hsub x (List.mem_cons_of_mem _ hx)
    cases c with
    | span k ot mks =>
      cases ot with
      | some txt =>
        have hstep : splitChildren tokens m sty md
            (Child.span k (some txt) mks :: todo) st =
            splitChildren tokens m sty md todo
              (splitSpanLoop tokens m sty md mks (txt.length + 1) txt st) :=
          rfl
        rw [hstep]
        obtain ⟨hout1, hcur1⟩ := frame_splitSpanLoop hc
          (txt.length + 1) txt st (List.suffix_refl txt) hout hcur
        exact frame_splitChildren todo _ hsub' hout1 hcur1
      | none =>
        have hstep : splitChildren tokens m sty md
            (Child.span k none mks :: todo) st =
            splitChildren tokens m sty md todo
              (pushRaw (Child.span k none mks) st) := rfl
        rw [hstep]
        have hcur1 := frame_pushRaw hc (by rfl) hcur
        have hout1 : ∀ it ∈ (pushRaw (Child.span k none mks) st).out,
            BlockFrame sty md children it := by
          intro it hit
          have hpr : (pushRaw (Child.span k none mks) st).out = st.out := by
            cases k <;> rfl
          rw [hpr] at hit
          exact hout it hit
        exact frame_splitChildren todo _ hsub' hout1 hcur1
    | extra k p =>
      have hstep : splitChildren tokens m sty md
          (Child.extra k p :: todo) st =
          splitChildren tokens m sty md todo (pushRaw (Child.extra k p) st) :=
        rfl
      rw [hstep]
      have hcur1 := frame_pushRaw hc (by rfl) hcur
      have hout1 : ∀ it ∈ (pushRaw (Child.extra k p) st).out,
          BlockFrame sty md children it := by
        intro it hit
        have hpr : (pushRaw (Child.extra k p) st).out = st.out := by
          cases k <;> rfl
        rw [hpr] at hit
        exact hout it hit
      exact frame_splitChildren todo _ hsub' hout1 hcur1

/-- Frame preservation of `splitBlockByTokensPreserveMarks`: every produced
text block carries the original block's (defaulted) style and its full
mark-definition list, and every produced span has exactly the marks of the
original span its text was copied from. -/
theorem frame_splitBlock {tokens : List (List Char)} {m : TokMap}
    {sty : String} {md : List String} (children : List Child) (ctr : Nat) :
    ∀ it ∈ (splitBlockByTokensPreserveMarks sty md children tokens m ctr).1,
      BlockFrame (jsStyle sty) md children it := by
  intro it hit
  simp only [splitBlockByTokensPreserveMarks] at hit
  obtain ⟨hout1, hcur1⟩ := @frame_splitChildren tokens m (jsStyle sty) md
    children children
    { out := [], curKey := ctr, cur := [], ctr := ctr + 1 }
    (fun c hc => hc) (by intro x hx; simp at hx) (by intro x hx; simp at hx)
  obtain ⟨hout2, _⟩ := frame_flush hout1 hcur1
  exact hout2 it hit

/-- One image-reference record produced by the Token Extractor
(import-posts.mjs lines 419-433). -/
structure ImgRec where
  token : List Char
  alt : List Char
  src : List Char
  caption : List Char
deriving DecidableEq

/-- The part of `IMG_RE` after the source: `\s*(?:"([^"]+)")?\s*\)`.
Returns the caption (empty when absent) and the remaining input. The optional
caption group is tried greedily; on failure the closing parenthesis must
follow the whitespace directly. -/
def tailAfterSrc (s : List Char) : Option (List Char × List Char) :=
  let s1 := s.dropWhile isWS
  let tryCap : Option (List Char × List Char) :=
    match s1 with
    | '"' :: s2 =>
      let body := s2.takeWhile fun c => !(c == '"')
      if body.isEmpty then none
      else
        match s2.drop body.length with
        | '"' :: s4 =>
          match s4.dropWhile isWS with
          | ')' :: s6 => some (body, s6)
          | _ => none
        | _ => none
    | _ => none
  match tryCap with
  | some r => some r
  | none =>
    match s1 with
    | ')' :: s6 => some (([] : List Char), s6)
    | _ => none

/-- Greedy backtracking over the plain source class `[^\s)]+`: try the longest
source first, as the regex engine does. -/
def plainBT (run rest : List Char) : Nat → Option (List Char × List Char × List Char)
  | 0 => none
  | k + 1 =>
    match tailAfterSrc (run.drop (k + 1) ++ rest) with
    | some (cap, r) => some (run.take (k + 1), cap, r)
    | none => plainBT run rest k

/-- Operational rendition of `IMG_RE` =
`!\[([^\]]*)\]\(\s*(?:<([^>]+)>|([^\s)]+))\s*(?:"([^"]+)")?\s*\)` at the head
of the input: returns `(alt, src, caption, rest)` of the leftmost-longest
match starting here, `none` when the regex does not match here. -/
def matchImage (s : List Char) : Option (List Char × List Char × List Char × List Char) :=
  match s with
  | '!' :: '[' :: s1 =>
    let alt := s1.takeWhile fun c => !(c == ']')
    match s1.drop alt.length with
    | ']' :: '(' :: s3 =>
      let s4 := s3.dropWhile isWS
      let angle : Option (List Char × List Char × List Char) :=
        match s4 with
        | '<' :: s5 =>
          let inner := s5.takeWhile fun c => !(c == '>')
          if inner.isEmpty then none
          else
            match s5.drop inner.length with
            | '>' :: s6 =>
              match tailAfterSrc s6 with
              | some (cap, r) => some (inner, cap, r)
              | none => none
            | _ => none
        | _ => none
      match angle with
      | some (src, cap, r) => some (alt, src, cap, r)
      | none =>
        let run := s4.takeWhile fun c => !(isWS c) && !(c == ')')
        match plainBT run (s4.drop run.length) run.length with
        | some (src, cap, r) => some (alt, src, cap, r)
        | none => none
    | _ => none
  | _ => none

/-- The global `markdown.replace(IMG_RE, ...)` scan (lines 419-433): walk the
input left to right; at each match emit `\n\n<token>\n\n` and record the
reference; otherwise copy one character and continue. -/
def extractGo : Nat → List Char → Nat → List Char × List ImgRec
  | 0, s, _ => (s, [])
  | fuel + 1, s, count =>
    match s with
    | [] => ([], [])
    | c :: rest =>
      match matchImage s with
      | some (alt, src, cap, rest') =>
        let tok := mkToken count
        let r := extractGo fuel rest' (count + 1)
        ('\n' :: '\n' :: (tok ++ ('\n' :: '\n' :: r.1)),
          ⟨tok, trim alt, trim src, trim cap⟩ :: r.2)
      | none =>
        let r := extractGo fuel rest count
        (c :: r.1, r.2)

/-- `extractInlineImages` (lines 405-436). -/
def extractInlineImages (markdown : List Char) : List Char × List ImgRec :=
  extractGo (markdown.length + 1) markdown 0

theorem extractGo_tokens : ∀ (fuel : Nat) (s : List Char) (count : Nat),
    (extractGo fuel s count).2.map ImgRec.token =
      (List.range' count (extractGo fuel s count).2.length).map mkToken
  | 0, _, _ => rfl
  | fuel + 1, [], _ => rfl
  | fuel + 1, c :: rest, count => by
    cases hm : matchImage (c :: rest) with
    | none =>
      have hstep : extractGo (fuel + 1) (c :: rest) count =
          (c :: (extractGo fuel rest count).1,
            (extractGo fuel rest count).2) := by
        conv_lhs => unfold extractGo
        rw [hm]
      rw [hstep]
      exact extractGo_tokens fuel rest count
    | some q =>
      obtain ⟨alt, src, cap, rest'⟩ := q
      have hstep : extractGo (fuel + 1) (c :: rest) count =
          ('\n' :: '\n' :: (mkToken count ++
              ('\n' :: '\n' :: (extractGo fuel rest' (count + 1)).1)),
            ⟨mkToken count, trim alt, trim src, trim cap⟩ ::
              (extractGo fuel rest' (count + 1)).2) := by
        conv_lhs => unfold extractGo
        rw [hm]
      rw [hstep]
      rw [List.map_cons]
      rw [extractGo_tokens fuel rest' (count + 1)]
      rw [show ((⟨mkToken count, trim alt, trim src, trim cap⟩ : ImgRec) ::
        (extractGo fuel rest' (count + 1)).2).length =
        (extractGo fuel rest' (count + 1)).2.length + 1 from rfl]
      rw [List.range'_succ, List.map_cons]

/-- The tokens generated by the Token Extractor for a document: exactly
`[[[SANITY_IMAGE_0]]] … [[[SANITY_IMAGE_(N-1)]]]` in source order. -/
theorem extract_tokens_eq (md : List Char) :
    (extractInlineImages md).2.map ImgRec.token =
      (List.range (extractInlineImages md).2.length).map mkToken := by
  unfold extractInlineImages
  rw [extractGo_tokens, List.range_eq_range']

/-- The image block built for the `i`-th reference (lines 683-691):
`alt || "Image"`, `caption || ""`, and the asset id the uploader returned.
`assetRef` abstracts the asset ids obtained from the (parallel) uploads. -/
def imgDataOf (assetRef : Nat → String) (i : Nat) (r : ImgRec) : ImageData :=
  ⟨assetRef i, if r.alt.isEmpty then "Image" else String.mk r.alt,
    String.mk r.caption⟩

/-- The `tokenToImageBlock` object built from the upload results, in reference
order. -/
def tokMapOf (assetRef : Nat → String) : Nat → List ImgRec → TokMap
  | _, [] => []
  | i, r :: rs => (r.token, imgDataOf assetRef i r) :: tokMapOf assetRef (i + 1) rs

theorem tokensOf_tokMapOf (assetRef : Nat → String) :
    ∀ (i : Nat) (recs : List ImgRec),
      tokensOf (tokMapOf assetRef i recs) = recs.map ImgRec.token
  | _, [] => rfl
  | i, r :: rs => by
    rw [show tokMapOf assetRef i (r :: rs) =
      (r.token, imgDataOf assetRef i r) :: tokMapOf assetRef (i + 1) rs
      from rfl]
    unfold tokensOf
    rw [List.map_cons, List.map_cons]
    rw [show (tokMapOf assetRef (i + 1) rs).map Prod.fst =
      tokensOf (tokMapOf assetRef (i + 1) rs) from rfl]
    rw [tokensOf_tokMapOf assetRef (i + 1) rs]

/-- `markdownToPortableTextWithInlineImages` (lines 651-696), with the external
Markdown→Portable-Text converter as the parameter `conv` and the asset ids the
uploader resolves as `assetRef` (path resolution, file checks and the uploads
themselves are modelled separately). -/
def markdownToPortableTextWithInlineImages (conv : List Char → List PTItem)
    (assetRef : Nat → String) (md : List Char) (ctr : Nat) : List PTItem :=
  let ex := extractInlineImages md
  let ek := ensureKeys (conv ex.1) ctr
  let pt1 := filterUnsupportedBlocks ek.1
  if ex.2.length = 0 then pt1
  else
    let m := tokMapOf assetRef 0 ex.2
    let r := replaceTokens m pt1 ek.2
    filterUnsupportedBlocks (ensureKeys r.1 r.2).1

theorem childWithKey_join (c : Child) (ctr : Nat) :
    (match (childWithKey c ctr).1 with
      | Child.span _ (some t) _ => t
      | _ => ([] : List Char)) =
    match c with
    | Child.span _ (some t) _ => t
    | _ => ([] : List Char) := by
  cases c with
  | span k ot mk =>
    cases k with
    | none => cases ot <;> rfl
    | some k0 => cases ot <;> rfl
  | extra k p => cases k <;> rfl

theorem childrenWithKeys_spanJoin : ∀ (cs : List Child) (ctr : Nat),
    spanJoin (childrenWithKeys cs ctr).1 = spanJoin cs
  | [], _ => rfl
  | c :: cs, ctr => by
    rw [show (childrenWithKeys (c :: cs) ctr).1 =
      (childWithKey c ctr).1 ::
        (childrenWithKeys cs (childWithKey c ctr).2).1 from rfl]
    rw [show spanJoin ((childWithKey c ctr).1 ::
      (childrenWithKeys cs (childWithKey c ctr).2).1) =
      (match (childWithKey c ctr).1 with
        | Child.span _ (some t) _ => t
        | _ => ([] : List Char)) ++
        spanJoin (childrenWithKeys cs (childWithKey c ctr).2).1 from rfl]
    rw [show spanJoin (c :: cs) =
      (match c with
        | Child.span _ (some t) _ => t
        | _ => ([] : List Char)) ++ spanJoin cs from rfl]
    rw [childWithKey_join, childrenWithKeys_spanJoin cs _]

theorem outClean_ensureKeys {tokens : List (List Char)} :
    ∀ (its : List PTItem) (ctr : Nat),
      (∀ it ∈ its, OutClean tokens it) →
      ∀ it' ∈ (ensureKeys its ctr).1, OutClean tokens it'
  | [], _, _ => by
    intro it' h
    simp [ensureKeys] at h
  | it :: its, ctr, h => by
    intro it' hit'
    have hhead := h it (List.mem_cons_self _ _)
    have htail : ∀ x ∈ its, OutClean tokens x :=
      fun x hx => h x (List.mem_cons_of_mem _ hx)
    cases it with
    | block k sty md cs =>
      cases k with
      | none =>
        have hstep : (ensureKeys (PTItem.block none sty md cs :: its) ctr).1 =
            PTItem.block (some ctr) sty md
                (childrenWithKeys cs (ctr + 1)).1 ::
              (ensureKeys its (childrenWithKeys cs (ctr + 1)).2).1 := rfl
        rw [hstep] at hit'
        rcases List.mem_cons.1 hit' with rfl | hit'
        · show tokenFreeB tokens
            (spanJoin (childrenWithKeys cs (ctr + 1)).1) = true
          rw [childrenWithKeys_spanJoin]
          exact hhead
        · exact outClean_ensureKeys its _ htail it' hit'
      | some k0 =>
        have hstep : (ensureKeys (PTItem.block (some k0) sty md cs :: its)
            ctr).1 =
            PTItem.block (some k0) sty md (childrenWithKeys cs ctr).1 ::
              (ensureKeys its (childrenWithKeys cs ctr).2).1 := rfl
        rw [hstep] at hit'
        rcases List.mem_cons.1 hit' with rfl | hit'
        · show tokenFreeB tokens (spanJoin (childrenWithKeys cs ctr).1) = true
          rw [childrenWithKeys_spanJoin]
          exact hhead
        · exact outClean_ensureKeys its _ htail it' hit'
    | image k d =>
      cases k with
      | none =>
        have hstep : (ensureKeys (PTItem.image none d :: its) ctr).1 =
            PTItem.image (some ctr) d :: (ensureKeys its (ctr + 1)).1 := rfl
        rw [hstep] at hit'
        rcases List.mem_cons.1 hit' with rfl | hit'
        · trivial
        · exact outClean_ensureKeys its _ htail it' hit'
      | some k0 =>
        have hstep : (ensureKeys (PTItem.image (some k0) d :: its) ctr).1 =
            PTItem.image (some k0) d :: (ensureKeys its ctr).1 := rfl
        rw [hstep] at hit'
        rcases List.mem_cons.1 hit' with rfl | hit'
        · trivial
        · exact outClean_ensureKeys its _ htail it' hit'
    | misc k p =>
      cases k with
      | none =>
        have hstep : (ensureKeys (PTItem.misc none p :: its) ctr).1 =
            PTItem.misc (some ctr) p :: (ensureKeys its (ctr + 1)).1 := rfl
        rw [hstep] at hit'
        rcases List.mem_cons.1 hit' with rfl | hit'
        · trivial
        · exact outClean_ensureKeys its _ htail it' hit'
      | some k0 =>
        have hstep : (ensureKeys (PTItem.misc (some k0) p :: its) ctr).1 =
            PTItem.misc (some k0) p :: (ensureKeys its ctr).1 := rfl
        rw [hstep] at hit'
        rcases List.mem_cons.1 hit' with rfl | hit'
        · trivial
        · exact outClean_ensureKeys its _ htail it' hit'

theorem mem_filterUnsupported {its : List PTItem} {it : PTItem}
    (h : it ∈ filterUnsupportedBlocks its) : it ∈ its :=
  List.mem_of_mem_filter h

/-- C1: for every block sequence produced by the converter from the rewritten
Markdown of an input containing `N` inline image references — formalised as a
wellformed decomposition `shapes` of that sequence whose designated token
occurrences are exactly `[[[SANITY_IMAGE_0]]] … [[[SANITY_IMAGE_(N-1)]]]`, one
each, in source order — and the token-to-image-block map `m` built from those
`N` references, `replaceTokensWithImageBlocksPreserveMarks` returns a sequence
containing exactly `N` image blocks, the `i`-th being the block mapped from
the `i`-th reference's token, and the relative order of all content is
preserved: the output's content atoms are the input's token-substituted atoms
with only droppable (whitespace or non-text) atoms deleted. -/
theorem C1_replace_count_order (N : Nat) (m : TokMap)
    (shapes : List ItemShape) (ctr : Nat)
    (hm : tokensOf m = toks N)
    (hwf : ∀ s ∈ shapes, s.WF (toks N) = true)
    (hocc : shapes.flatMap ItemShape.occs = toks N) :
    imageDataList (replaceTokens m (shapes.map ItemShape.item) ctr).1 =
      (List.range N).map (fun i => lookupTok m (mkToken i)) ∧
    Dilute (flattenItems (replaceTokens m (shapes.map ItemShape.item) ctr).1)
      (shapes.flatMap (shapeSubst m)) := by
  have hsep : Sep (tokensOf m) := by rw [hm]; exact toks_sep N
  have hne : ∀ x ∈ tokensOf m, x ≠ [] := by rw [hm]; exact toks_ne_nil
  have hsolid : ∀ x ∈ tokensOf m, ∃ c ∈ x, isWS c = false := by
    rw [hm]; exact toks_solid
  have hwf' : ∀ s ∈ shapes, s.WF (tokensOf m) = true := by rw [hm]; exact hwf
  obtain ⟨hi, hd, _⟩ := replaceTokens_shaped hsep hne hsolid shapes ctr hwf'
  refine ⟨?_, hd⟩
  rw [hi, hocc]
  unfold toks
  rw [List.map_map]
  rfl

/-- Concrete instance for `C1_replace_count_order`. -/
def w1Map : TokMap := [(mkToken 0, ⟨"ref0", "cat", "A cat"⟩)]

/-- Concrete instance for `C1_replace_count_order`: one paragraph with a bold
span around one inline token. -/
def w1Shapes : List ItemShape :=
  [ItemShape.blk
    ⟨some 5, "normal", ["d1"],
      [ChildShape.sp
        ⟨some 6, ["strong"], ['S', 'e', 'e', ' '],
          [(mkToken 0, [' ', 'n', 'o', 'w'])]⟩]⟩]

theorem C1_replace_count_order_witness :
    imageDataList (replaceTokens w1Map (w1Shapes.map ItemShape.item) 100).1 =
      (List.range 1).map (fun i => lookupTok w1Map (mkToken i)) ∧
    Dilute (flattenItems (replaceTokens w1Map (w1Shapes.map ItemShape.item)
        100).1)
      (w1Shapes.flatMap (shapeSubst w1Map)) :=
  C1_replace_count_order 1 w1Map w1Shapes 100 (by decide) (by decide)
    (by decide)

/-- C2: `splitBlockByTokensPreserveMarks` preserves, for every resulting text
block, the original block's style label and its full markDefs list, and every
surviving span fragment (pre-token and post-token alike) carries exactly the
marks of the span it was copied from, its text being a fragment of that
span's; non-span children keep payload and marks; only keys and span text
differ from the original. -/
theorem C2_split_preserves_marks (sty : String) (md : List String)
    (children : List Child) (tokens : List (List Char)) (m : TokMap)
    (ctr : Nat) (hsty : sty ≠ "") :
    ∀ it ∈ (splitBlockByTokensPreserveMarks sty md children tokens m ctr).1,
      BlockFrame sty md children it := by
  have h := @frame_splitBlock tokens m sty md children ctr
  have hj : jsStyle sty = sty := by
    unfold jsStyle
    rw [if_neg hsty]
  rw [hj] at h
  exact h

theorem C2_split_preserves_marks_witness :
    BlockFrame "normal" ["d1"]
      [Child.span (some 1)
        (some (['a', 'b'] ++ mkToken 0 ++ ['c', 'd'])) ["em", "d1"]]
      (PTItem.block (some 50) "normal" ["d1"]
        [Child.span (some 51) (some ['a', 'b']) ["em", "d1"]]) :=
  C2_split_preserves_marks "normal" ["d1"]
    [Child.span (some 1)
      (some (['a', 'b'] ++ mkToken 0 ++ ['c', 'd'])) ["em", "d1"]]
    [mkToken 0] w1Map 50 (by decide)
    (PTItem.block (some 50) "normal" ["d1"]
      [Child.span (some 51) (some ['a', 'b']) ["em", "d1"]])
    (by decide)

/-- C3: every placeholder token created during extraction is consumed during
block splitting: given a wellformed decomposition of the (key-ensured,
filtered) converter output on the rewritten Markdown, no placeholder token of
the document occurs in the joined span text of any text block of the final
body sequence produced by the extract–convert–splice pipeline (hence in no
individual span either). -/
theorem C3_tokens_consumed (conv : List Char → List PTItem)
    (assetRef : Nat → String) (md : List Char) (ctr : Nat)
    (shapes : List ItemShape)
    (hdec : filterUnsupportedBlocks
        (ensureKeys (conv (extractInlineImages md).1) ctr).1 =
      shapes.map ItemShape.item)
    (hwf : ∀ s ∈ shapes,
      s.WF (toks (extractInlineImages md).2.length) = true) :
    ∀ it ∈ markdownToPortableTextWithInlineImages conv assetRef md ctr,
      OutClean (toks (extractInlineImages md).2.length) it := by
  intro it hit
  simp only [markdownToPortableTextWithInlineImages] at hit
  by_cases hN : (extractInlineImages md).2.length = 0
  · rw [if_pos hN] at hit
    rw [hN]
    cases it with
    | block k sty mds cs =>
      show tokenFreeB (toks 0) (spanJoin cs) = true
      rfl
    | image k d => trivial
    | misc k p => trivial
  · rw [if_neg hN] at hit
    have htoksm : tokensOf (tokMapOf assetRef 0 (extractInlineImages md).2) =
        toks (extractInlineImages md).2.length := by
      rw [tokensOf_tokMapOf, extract_tokens_eq]
      rfl
    have hsep : Sep (tokensOf (tokMapOf assetRef 0
        (extractInlineImages md).2)) := by
      rw [htoksm]; exact toks_sep _
    have hne : ∀ x ∈ tokensOf (tokMapOf assetRef 0
        (extractInlineImages md).2), x ≠ [] := by
      rw [htoksm]; exact toks_ne_nil
    have hsolid : ∀ x ∈ tokensOf (tokMapOf assetRef 0
        (extractInlineImages md).2), ∃ c ∈ x, isWS c = false := by
      rw [htoksm]; exact toks_solid
    have hwf' : ∀ s ∈ shapes, s.WF (tokensOf (tokMapOf assetRef 0
        (extractInlineImages md).2)) = true := by
      rw [htoksm]; exact hwf
    obtain ⟨_, _, ho⟩ := replaceTokens_shaped hsep hne hsolid shapes
      (ensureKeys (conv (extractInlineImages md).1) ctr).2 hwf'
    rw [hdec] at hit
    have h2 := outClean_ensureKeys _
      (replaceTokens (tokMapOf assetRef 0 (extractInlineImages md).2)
        (shapes.map ItemShape.item)
        (ensureKeys (conv (extractInlineImages md).1) ctr).2).2 ho
    have h3 := h2 it (mem_filterUnsupported hit)
    rw [← htoksm]
    exact h3

/-- Concrete converter for the C3 witness: one paragraph whose single span is
exactly the first placeholder token. -/
def w3Conv : List Char → List PTItem := fun _ =>
  [PTItem.block none "normal" [] [Child.span none (some (mkToken 0)) []]]

/-- Concrete markdown for the C3 witness: a single inline image. -/
def w3Md : List Char :=
  ['!', '[', 'a', ']', '(', 'b', '.', 'p', 'n', 'g', ')']

/-- Concrete decomposition of `w3Conv`'s output after `ensureKeys` at 50. -/
def w3Shapes : List ItemShape :=
  [ItemShape.blk
    ⟨some 50, "normal", [],
      [ChildShape.sp ⟨some 51, [], [], [(mkToken 0, [])]⟩]⟩]

theorem C3_tokens_consumed_witness :
    OutClean (toks (extractInlineImages w3Md).2.length)
      (PTItem.image (some 52) ⟨"a0", "a", ""⟩) :=
  C3_tokens_consumed w3Conv (fun _ => "a0") w3Md 50 w3Shapes (by decide)
    (by decide) (PTItem.image (some 52) ⟨"a0", "a", ""⟩) (by decide)

/-- Modelled from the spec: the data-model section asserts placeholder tokens
have the literal form `[[[IMAGE_n]]]`; this is that asserted shape, for
comparison with the `mkToken` the source actually generates. -/
def specTokenForm (n : Nat) : List Char :=
  ['[', '[', '[', 'I', 'M', 'A', 'G', 'E', '_'] ++ natChars n ++ tokSuf

/-- Source text for the C8 counterexample: it contains the literal characters
`[[[SANITY_IMAGE_0]]]` followed by one real inline image reference. -/
def c8md : List Char :=
  mkToken 0 ++
    [' ', '!', '[', 'a', ']', '(', 'b', '.', 'p', 'n', 'g', ')']

/-- C8 counterexample: on `c8md` the Token Extractor generates exactly the
token `[[[SANITY_IMAGE_0]]]`; that token is not of the form `[[[IMAGE_n]]]`
asserted by the claim, and it already occurs verbatim in the source text, so
the generated token does collide with the source. -/
theorem C8_counterexample :
    (extractInlineImages c8md).2.map ImgRec.token = [mkToken 0] ∧
      mkToken 0 <:+: c8md ∧
      ¬ ∃ n : Nat, mkToken 0 = specTokenForm n := by
  refine ⟨by decide, ⟨[], ?_, ?_⟩, ?_⟩
  · exact [' ', '!', '[', 'a', ']', '(', 'b', '.', 'p', 'n', 'g', ')']
  · rfl
  · rintro ⟨n, h⟩
    rw [mkToken_cons_shape] at h
    unfold specTokenForm at h
    rw [List.cons_append, List.cons_append, List.cons_append] at h
    have h1 := (List.cons_eq_cons.1 h).2
    have h2 := (List.cons_eq_cons.1 h1).2
    have h3 := (List.cons_eq_cons.1 h2).2
    rw [List.cons_append] at h3
    have h4 := (List.cons_eq_cons.1 h3).1
    exact absurd h4 (by decide)

/-- C8 (amended): every placeholder token generated by the Token Extractor is
`[[[SANITY_IMAGE_n]]]` where `n` is the index of the reference in order of
first occurrence (so `n` strictly increases across the document), and the
tokens of a document are pairwise distinct; no collision guarantee against the
source text holds. -/
theorem C8_tokens_form (md : List Char) :
    (extractInlineImages md).2.map ImgRec.token =
      (List.range (extractInlineImages md).2.length).map mkToken ∧
    ((extractInlineImages md).2.map ImgRec.token).Nodup := by
  refine ⟨extract_tokens_eq md, ?_⟩
  rw [extract_tokens_eq md]
  exact List.Nodup.map mkToken_injective (List.nodup_range _)

theorem C8_tokens_form_witness :
    (extractInlineImages c8md).2.map ImgRec.token =
      (List.range (extractInlineImages c8md).2.length).map mkToken ∧
    ((extractInlineImages c8md).2.map ImgRec.token).Nodup :=
  C8_tokens_form c8md

/-! ### Frontmatter validation (`validateFrontmatter`, lines 347–366) -/

/-- A frontmatter object with string-valued fields; `none` models an absent
field. -/
structure Frontmatter where
  title : Option String
  author : Option String
  authorId : Option String
  mainImage : Option String
  mainImageAlt : Option String
  publishedAt : Option String
  slug : Option String
  excerpt : Option String
  categories : List String
deriving DecidableEq

/-- JavaScript truthiness of a possibly-absent string field: absent and empty
are falsy. -/
def truthy : Option String → Bool
  | none => false
  | some s => !(s == "")

/-- The error list `validateFrontmatter` accumulates, in push order.
`parseOk` stands for `!Number.isNaN(Date.parse ·)`. -/
def fmErrors (parseOk : String → Bool) (fm : Frontmatter) : List String :=
  (if truthy fm.title then [] else ["missing 'title'"]) ++
  (if truthy fm.author || truthy fm.authorId then []
    else ["missing 'author' or 'authorId'"]) ++
  (if truthy fm.mainImage then [] else ["missing 'mainImage'"]) ++
  (if truthy fm.mainImageAlt then [] else ["missing 'mainImageAlt'"]) ++
  (if truthy fm.publishedAt && !parseOk (fm.publishedAt.getD "") then
    ["invalid 'publishedAt' date: " ++ fm.publishedAt.getD ""] else [])

/-- `validateFrontmatter(fm, file)`: throws (models as `Except.error`) with all
collected errors joined when any exist. -/
def validateFrontmatter (parseOk : String → Bool) (fm : Frontmatter)
    (file : String) : Except String Unit :=
  if (fmErrors parseOk fm).length > 0 then
    Except.error ("Frontmatter validation failed in " ++ file ++ ": " ++
      String.intercalate ", " (fmErrors parseOk fm))
  else Except.ok ()

theorem validate_error_iff (parseOk : String → Bool) (fm : Frontmatter)
    (file : String) :
    (∃ e, validateFrontmatter parseOk fm file = Except.error e) ↔
      fmErrors parseOk fm ≠ [] := by
  unfold validateFrontmatter
  by_cases h : (fmErrors parseOk fm).length > 0
  · rw [if_pos h]
    constructor
    · intro _
      exact List.ne_nil_of_length_pos h
    · intro _
      exact ⟨_, rfl⟩
  · rw [if_neg h]
    constructor
    · rintro ⟨e, he⟩
      cases he
    · intro hne
      exact absurd (List.length_pos.2 hne) h

theorem fmErrors_eq_nil_iff (parseOk : String → Bool) (fm : Frontmatter) :
    fmErrors parseOk fm = [] ↔
      (truthy fm.title = true ∧
       (truthy fm.author = true ∨ truthy fm.authorId = true) ∧
       truthy fm.mainImage = true ∧ truthy fm.mainImageAlt = true ∧
       (truthy fm.publishedAt = false ∨
         parseOk (fm.publishedAt.getD "") = true)) := by
  unfold fmErrors
  cases h1 : truthy fm.title <;>
  cases h2 : truthy fm.author <;>
  cases h2' : truthy fm.authorId <;>
  cases h3 : truthy fm.mainImage <;>
  cases h4 : truthy fm.mainImageAlt <;>
  cases h5 : truthy fm.publishedAt <;>
  cases h6 : parseOk (fm.publishedAt.getD "") <;>
  simp_all

/-- C7: frontmatter validation fails if and only if at least one violation
exists among: missing (or empty) `title`; missing both `author` and
`authorId`; missing `mainImage`; missing `mainImageAlt`; or a present but
unparseable `publishedAt` — and when it fails, the single reported error
message lists every violation present (each violation's message is in the
joined error list), not just the first one encountered. -/
theorem C7_validate_iff_complete (parseOk : String → Bool) (fm : Frontmatter)
    (file : String) :
    ((∃ e, validateFrontmatter parseOk fm file = Except.error e) ↔
      (truthy fm.title = false ∨
       (truthy fm.author = false ∧ truthy fm.authorId = false) ∨
       truthy fm.mainImage = false ∨
       truthy fm.mainImageAlt = false ∨
       (truthy fm.publishedAt = true ∧
         parseOk (fm.publishedAt.getD "") = false))) ∧
    (∀ e, validateFrontmatter parseOk fm file = Except.error e →
      e = "Frontmatter validation failed in " ++ file ++ ": " ++
            String.intercalate ", " (fmErrors parseOk fm)) ∧
    (truthy fm.title = false → "missing 'title'" ∈ fmErrors parseOk fm) ∧
    ((truthy fm.author = false ∧ truthy fm.authorId = false) →
      "missing 'author' or 'authorId'" ∈ fmErrors parseOk fm) ∧
    (truthy fm.mainImage = false →
      "missing 'mainImage'" ∈ fmErrors parseOk fm) ∧
    (truthy fm.mainImageAlt = false →
      "missing 'mainImageAlt'" ∈ fmErrors parseOk fm) ∧
    ((truthy fm.publishedAt = true ∧
        parseOk (fm.publishedAt.getD "") = false) →
      ("invalid 'publishedAt' date: " ++ fm.publishedAt.getD "") ∈
        fmErrors parseOk fm) := by
  refine ⟨?_, ?_, ?_, ?_, ?_, ?_, ?_⟩
  · rw [validate_error_iff, Ne, fmErrors_eq_nil_iff]
    constructor
    · intro h
      cases h1 : truthy fm.title with
      | false => exact Or.inl rfl
      | true =>
      cases h3 : truthy fm.mainImage with
      | false => exact Or.inr (Or.inr (Or.inl rfl))
      | true =>
      cases h4 : truthy fm.mainImageAlt with
      | false => exact Or.inr (Or.inr (Or.inr (Or.inl rfl)))
      | true =>
      cases h2 : truthy fm.author with
      | true =>
        cases h5 : truthy fm.publishedAt with
        | false => exact absurd ⟨h1, Or.inl h2, h3, h4, Or.inl h5⟩ h
        | true =>
          cases h6 : parseOk (fm.publishedAt.getD "") with
          | false => exact Or.inr (Or.inr (Or.inr (Or.inr ⟨rfl, rfl⟩)))
          | true => exact absurd ⟨h1, Or.inl h2, h3, h4, Or.inr h6⟩ h
      | false =>
      cases h2' : truthy fm.authorId with
      | false => exact Or.inr (Or.inl ⟨rfl, rfl⟩)
      | true =>
        cases h5 : truthy fm.publishedAt with
        | false => exact absurd ⟨h1, Or.inr h2', h3, h4, Or.inl h5⟩ h
        | true =>
          cases h6 : parseOk (fm.publishedAt.getD "") with
          | false => exact Or.inr (Or.inr (Or.inr (Or.inr ⟨rfl, rfl⟩)))
          | true => exact absurd ⟨h1, Or.inr h2', h3, h4, Or.inr h6⟩ h
    · rintro h ⟨ht, ha, hm, hma, hp⟩
      rcases h with h | ⟨h, h'⟩ | h | h | ⟨h, h'⟩
      · rw [ht] at h
        cases h
      · rcases ha with ha | ha
        · rw [h] at ha
          cases ha
        · rw [h'] at ha
          cases ha
      · rw [hm] at h
        cases h
      · rw [hma] at h
        cases h
      · rcases hp with hp | hp
        · rw [hp] at h
          cases h
        · rw [hp] at h'
          cases h'
  · intro e he
    unfold validateFrontmatter at he
    by_cases h : (fmErrors parseOk fm).length > 0
    · rw [if_pos h] at he
      injection he with h'
      exact h'.symm
    · rw [if_neg h] at he
      cases he
  · intro h
    unfold fmErrors
    rw [h]
    simp
  · rintro ⟨h1, h2⟩
    unfold fmErrors
    rw [h1, h2]
    simp
  · intro h
    unfold fmErrors
    rw [h]
    simp
  · intro h
    unfold fmErrors
    rw [h]
    simp
  · rintro ⟨h1, h2⟩
    unfold fmErrors
    rw [h1, h2]
    simp

theorem C7_validate_iff_complete_witness :
    ∃ e, validateFrontmatter (fun _ => true)
        ⟨some "T", some "A", none, none, none, none, none, none, []⟩
        "post.md" = Except.error e :=
  (C7_validate_iff_complete (fun _ => true)
      ⟨some "T", some "A", none, none, none, none, none, none, []⟩
      "post.md").1.2
    (Or.inr (Or.inr (Or.inl rfl)))

/-! ### Retry wrapper (`withRetry`, lines 169–191) -/

/-- A JavaScript error as inspected by `withRetry`: `statusCode`, `code` and
`message` may each be absent. -/
structure JsError where
  statusCode : Option Int
  code : Option String
  msg : Option String
deriving DecidableEq

/-- The substring tested by `err.message?.includes("socket hang up")`. -/
def socketHangUp : List Char :=
  ['s', 'o', 'c', 'k', 'e', 't', ' ', 'h', 'a', 'n', 'g', ' ', 'u', 'p']

/-- The `isRetryable` test of `withRetry`: 5xx status, one of four network
error codes, or a message containing "socket hang up". An absent `statusCode`
fails the `>= 500` comparison and an absent message is falsy, as in
JavaScript. -/
def isRetryable (e : JsError) : Bool :=
  (match e.statusCode with
   | some n => decide (500 ≤ n)
   | none => false) ||
  (e.code == some "ECONNRESET") || (e.code == some "ETIMEDOUT") ||
  (e.code == some "ENOTFOUND") || (e.code == some "ECONNREFUSED") ||
  (match e.msg with
   | some m => containsTok m.toList socketHangUp
   | none => false)

/-- The `for` loop of `withRetry`, with `fn attempt` the outcome of the
`attempt`-th call (attempts numbered from 1) and the returned list recording
the backoff delays slept, in order. The fuel equals the number of remaining
attempts, so the `fuel = 0` default is never reached from `withRetry` when
`1 ≤ maxRetries`. -/
def retryLoop (fn : Nat → Except JsError α) (maxRetries baseDelay : Nat) :
    Nat → Nat → Except JsError α × List Nat
  | _, 0 => (Except.error ⟨none, none, none⟩, [])
  | attempt, fuel + 1 =>
    match fn attempt with
    | Except.ok a => (Except.ok a, [])
    | Except.error e =>
      if attempt == maxRetries || !isRetryable e then (Except.error e, [])
      else
        let r := retryLoop fn maxRetries baseDelay (attempt + 1) fuel
        (r.1, baseDelay * 2 ^ (attempt - 1) :: r.2)

/-- `withRetry(fn, { maxRetries, baseDelay })`: run the loop from attempt 1. -/
def withRetry (fn : Nat → Except JsError α) (maxRetries baseDelay : Nat) :
    Except JsError α × List Nat :=
  retryLoop fn maxRetries baseDelay 1 maxRetries

theorem retryLoop_step_ok {α : Type} (fn : Nat → Except JsError α)
    (mr bd a fuel : Nat) (v : α) (h : fn a = Except.ok v) :
    retryLoop fn mr bd a (fuel + 1) = (Except.ok v, []) := by
  conv_lhs => unfold retryLoop
  rw [h]

theorem retryLoop_step_err {α : Type} (fn : Nat → Except JsError α)
    (mr bd a fuel : Nat) (e : JsError) (h : fn a = Except.error e) :
    retryLoop fn mr bd a (fuel + 1) =
      (if a == mr || !isRetryable e then
        ((Except.error e : Except JsError α), ([] : List Nat))
       else
        let r := retryLoop fn mr bd (a + 1) fuel
        (r.1, bd * 2 ^ (a - 1) :: r.2)) := by
  conv_lhs => unfold retryLoop
  rw [h]

theorem retryLoop_char {α : Type} (fn : Nat → Except JsError α)
    (mr bd j : Nat) (hjm : j ≤ mr)
    (hstop : (∃ v, fn j = Except.ok v) ∨
      (∃ e, fn j = Except.error e ∧ (isRetryable e = false ∨ j = mr))) :
    ∀ (d a : Nat), a + d = j → 1 ≤ a →
      (∀ b, a ≤ b → b < j → ∃ e, fn b = Except.error e ∧
        isRetryable e = true) →
      retryLoop fn mr bd a (mr - a + 1) =
        ((match fn j with
          | Except.ok v => Except.ok v
          | Except.error e => Except.error e),
         (List.range' (a - 1) (j - a)).map (fun i => bd * 2 ^ i)) := by
  intro d
  induction d with
  | zero =>
    intro a ha h1 _
    rw [Nat.add_zero] at ha
    subst ha
    rcases hstop with ⟨v, hv⟩ | ⟨e, he, hcase⟩
    · rw [retryLoop_step_ok fn mr bd a (mr - a) v hv, hv]
      simp
    · rw [retryLoop_step_err fn mr bd a (mr - a) e he, he]
      have hcond : (a == mr || !isRetryable e) = true := by
        rcases hcase with hc | hc
        · rw [hc]
          simp
        · rw [hc]
          simp
      rw [if_pos hcond]
      simp
  | succ d ih =>
    intro a ha h1 hfail
    obtain ⟨e, he, hr⟩ := hfail a (Nat.le_refl a) (by omega)
    rw [retryLoop_step_err fn mr bd a (mr - a) e he]
    have hcond : (a == mr || !isRetryable e) = false := by
      rw [hr]
      have hne : (a == mr) = false := by
        rw [beq_eq_false_iff_ne]
        omega
      rw [hne]
      rfl
    rw [if_neg (by rw [hcond]; exact Bool.false_ne_true)]
    have hrec : mr - a = mr - (a + 1) + 1 := by omega
    rw [hrec]
    rw [ih (a + 1) (by omega) (by omega)
      (fun b hb hbj => hfail b (by omega) hbj)]
    have hrange : List.range' (a - 1) (j - a) =
        (a - 1) :: List.range' a (j - (a + 1)) := by
      have hlen : j - a = (j - (a + 1)) + 1 := by omega
      rw [hlen, List.range'_succ]
      have hsu : a - 1 + 1 = a := by omega
      rw [hsu]
    rw [hrange]
    rfl

/-- C9: under the retry wrapper, with attempts `1..j-1` (possibly none) all
failing with transient errors and `j` within the attempt budget, the run
sleeps exactly the exponential backoff delays `baseDelay·2^0 … baseDelay·2^(j-2)`
and then: a success at attempt `j` is returned; a non-transient error at
attempt `j` propagates immediately with no further retry (in particular a
non-transient error at attempt 1 propagates with no delay at all); and an
error at the final attempt `j = maxRetries` propagates. Transient means
`statusCode ≥ 500`, code `ECONNRESET`/`ETIMEDOUT`/`ENOTFOUND`/`ECONNREFUSED`,
or a message containing "socket hang up". -/
theorem C9_retry_policy {α : Type} (fn : Nat → Except JsError α)
    (mr bd j : Nat) (hj : 1 ≤ j) (hjm : j ≤ mr)
    (hfail : ∀ b, 1 ≤ b → b < j → ∃ e, fn b = Except.error e ∧
      isRetryable e = true) :
    (∀ v, fn j = Except.ok v →
      withRetry fn mr bd =
        (Except.ok v, (List.range (j - 1)).map (fun i => bd * 2 ^ i))) ∧
    (∀ e, fn j = Except.error e → isRetryable e = false →
      withRetry fn mr bd =
        (Except.error e, (List.range (j - 1)).map (fun i => bd * 2 ^ i))) ∧
    (∀ e, fn j = Except.error e → j = mr →
      withRetry fn mr bd =
        (Except.error e, (List.range (j - 1)).map (fun i => bd * 2 ^ i))) := by
  have hmain : ∀ (hstop : (∃ v, fn j = Except.ok v) ∨
      (∃ e, fn j = Except.error e ∧ (isRetryable e = false ∨ j = mr))),
      withRetry fn mr bd =
        ((match fn j with
          | Except.ok v => Except.ok v
          | Except.error e => Except.error e),
         (List.range (j - 1)).map (fun i => bd * 2 ^ i)) := by
    intro hstop
    have h := retryLoop_char fn mr bd j hjm hstop (j - 1) 1 (by omega)
      (Nat.le_refl 1) (fun b hb hbj => hfail b hb hbj)
    rw [show mr - 1 + 1 = mr from by omega] at h
    unfold withRetry
    rw [h, show (1 : Nat) - 1 = 0 from rfl, ← List.range_eq_range']
  refine ⟨?_, ?_, ?_⟩
  · intro v hv
    have := hmain (Or.inl ⟨v, hv⟩)
    rw [hv] at this
    exact this
  · intro e he hr
    have := hmain (Or.inr ⟨e, he, Or.inl hr⟩)
    rw [he] at this
    exact this
  · intro e he hm
    have := hmain (Or.inr ⟨e, he, Or.inr hm⟩)
    rw [he] at this
    exact this

/-- Concrete attempt outcomes for the C9 witness: attempt 1 fails with a 503,
attempt 2 succeeds. -/
def w9fn : Nat → Except JsError Nat := fun a =>
  if a = 1 then Except.error ⟨some 503, none, none⟩ else Except.ok 7

theorem C9_retry_policy_witness :
    withRetry w9fn 3 1000 =
      (Except.ok 7, (List.range (2 - 1)).map (fun i => 1000 * 2 ^ i)) :=
  (C9_retry_policy w9fn 3 1000 2 (by decide) (by decide)
      (fun b hb hbj => by
        have hb1 : b = 1 := by omega
        subst hb1
        exact ⟨⟨some 503, none, none⟩, rfl, rfl⟩)).1 7 rfl

/-! ### Asset upload dedupe and in-flight tracking (`uploadImageAsset`,
lines 224–286)

JavaScript is single-threaded: code between two `await`s runs atomically. A
run is modelled as a transition system whose atomic steps are (a) the
synchronous prefix of one `uploadImageAsset` call (cache check, in-flight
check, or starting the upload IIFE and registering it in `uploadPromises`)
and (b) the scheduler completing one upload operation, which runs the IIFE's
continuation (`assetCache.set` on success), resolves every caller awaiting
that promise and runs the creator's `finally` (`uploadPromises.delete`). -/

instance {ε α : Type} [DecidableEq ε] [DecidableEq α] :
    DecidableEq (Except ε α) := fun x y =>
  match x, y with
  | Except.error a, Except.error b =>
    if h : a = b then isTrue (by rw [h])
    else isFalse (fun hc => by injection hc with h'; exact h h')
  | Except.ok a, Except.ok b =>
    if h : a = b then isTrue (by rw [h])
    else isFalse (fun hc => by injection hc with h'; exact h h')
  | Except.error _, Except.ok _ => isFalse (fun hc => by cases hc)
  | Except.ok _, Except.error _ => isFalse (fun hc => by cases hc)

/-- One upload operation (the async IIFE of `uploadImageAsset`): its path and
its outcome — `none` while in flight, `some (Except.ok id)` on success,
`some (Except.error ())` on rejection (invalid image type, read failure, or
upload failure after retries all reject the same promise). -/
structure OpRec where
  path : String
  result : Option (Except Unit String)
deriving DecidableEq

/-- The phase of one `uploadImageAsset` call. -/
inductive CallSt
  | start (p : String)
  | waiting (p : String) (op : Nat)
  | done (p : String) (r : String)
  | failed (p : String)
deriving DecidableEq

/-- The run-global state: `assetCache`, `uploadPromises` (path ↦ operation
id), the calls, and the operations started so far (an operation's id is its
index in `ops`, so `ops.length` counts the underlying uploads performed). -/
structure UpSt where
  cache : List (String × String)
  inflight : List (String × Nat)
  calls : List CallSt
  ops : List OpRec
deriving DecidableEq

/-- `Map.get` on an association list (first binding wins; keys are never
shadowed in the states we build). -/
def lookupS {α : Type} (k : String) (l : List (String × α)) : Option α :=
  (l.find? (fun e => e.1 == k)).map (fun e => e.2)

theorem lookupS_cons {α : Type} (k p : String) (v : α)
    (l : List (String × α)) :
    lookupS k ((p, v) :: l) = if (p == k) = true then some v
      else lookupS k l := by
  unfold lookupS
  by_cases h : (p == k) = true
  · rw [if_pos h,
      @List.find?_cons_of_pos _ (fun e => e.1 == k) (p, v) l h]
    rfl
  · rw [if_neg h,
      @List.find?_cons_of_neg _ (fun e => e.1 == k) (p, v) l h]

theorem lookupS_filterOut {α : Type} (k q : String)
    (l : List (String × α)) :
    lookupS k (l.filter (fun e => !(e.1 == q))) =
      if (q == k) = true then none else lookupS k l := by
  induction l with
  | nil =>
    by_cases h : (q == k) = true
    · rw [if_pos h]
      rfl
    · rw [if_neg h]
      rfl
  | cons hd t ih =>
    obtain ⟨p, v⟩ := hd
    rw [List.filter_cons]
    cases hpq : (p == q) with
    | true =>
      have hpq' : p = q := eq_of_beq hpq
      rw [if_neg (by decide : ¬((!true) = true))]
      rw [ih]
      by_cases hqk : (q == k) = true
      · rw [if_pos hqk, if_pos hqk]
      · rw [if_neg hqk, if_neg hqk, lookupS_cons]
        have hpk : (p == k) = false := by
          subst hpq'
          cases hb : (p == k) with
          | false => rfl
          | true => exact absurd hb hqk
        rw [hpk]
        rw [if_neg (by exact Bool.false_ne_true)]
    | false =>
      rw [if_pos (by decide : (!false) = true), lookupS_cons, lookupS_cons,
        ih]
      by_cases hpk : (p == k) = true
      · have hqk : (q == k) = false := by
          have hpk' : p = k := eq_of_beq hpk
          subst hpk'
          cases hb : (q == p) with
          | false => rfl
          | true =>
            exact absurd (beq_iff_eq.2 (eq_of_beq hb).symm)
              (fun hh => by rw [hh] at hpq; cases hpq)
        rw [if_pos hpk, hqk, if_neg (by exact Bool.false_ne_true),
          if_pos hpk]
      · rw [if_neg hpk]
        by_cases hqk : (q == k) = true
        · rw [if_pos hqk, if_pos hqk]
        · rw [if_neg hqk, if_neg hqk, if_neg hpk]

theorem get?_some_lt {α : Type} {l : List α} {i : Nat} {a : α}
    (h : l.get? i = some a) : i < l.length := by
  by_contra hc
  rw [List.get?_eq_none.2 (by omega)] at h
  cases h

/-- The synchronous prefix of `uploadImageAsset` run by call `i` for path
`p`: return the cached id, join the in-flight upload, or start a new
operation (registering it in `uploadPromises`) and await it. -/
def runCall (S : UpSt) (i : Nat) (p : String) : UpSt :=
  match lookupS p S.cache with
  | some aid => { S with calls := S.calls.set i (CallSt.done p aid) }
  | none =>
    match lookupS p S.inflight with
    | some op => { S with calls := S.calls.set i (CallSt.waiting p op) }
    | none =>
      { S with
        ops := S.ops ++ [⟨p, none⟩],
        inflight := (p, S.ops.length) :: S.inflight,
        calls := S.calls.set i (CallSt.waiting p S.ops.length) }

/-- Resume one waiter of operation `op` with its successful asset id. -/
def resumeOk (op : Nat) (aid : String) : CallSt → CallSt
  | CallSt.waiting q o => if o == op then CallSt.done q aid
      else CallSt.waiting q o
  | c => c

/-- Resume one waiter of operation `op` with its rejection. -/
def resumeErr (op : Nat) : CallSt → CallSt
  | CallSt.waiting q o => if o == op then CallSt.failed q
      else CallSt.waiting q o
  | c => c

/-- Operation `op`'s upload succeeds with asset id `aid`: `assetCache.set`,
every waiter resumes with the asset, and the creator's `finally` removes the
`uploadPromises` entry. -/
def resolveOkF (S : UpSt) (op : Nat) (aid : String) : UpSt :=
  match S.ops.get? op with
  | some o =>
    { cache := (o.path, aid) :: S.cache,
      inflight := S.inflight.filter (fun e => !(e.1 == o.path)),
      calls := S.calls.map (resumeOk op aid),
      ops := S.ops.set op ⟨o.path, some (Except.ok aid)⟩ }
  | none => S

/-- Operation `op` rejects: no cache entry is written, the rejection
propagates to every waiter, and the creator's `finally` removes the
`uploadPromises` entry. -/
def resolveErrF (S : UpSt) (op : Nat) : UpSt :=
  match S.ops.get? op with
  | some o =>
    { cache := S.cache,
      inflight := S.inflight.filter (fun e => !(e.1 == o.path)),
      calls := S.calls.map (resumeErr op),
      ops := S.ops.set op ⟨o.path, some (Except.error ())⟩ }
  | none => S

/-- Steps of a run in which every upload succeeds. -/
inductive UStepOk : UpSt → UpSt → Prop
  | call (S : UpSt) (i : Nat) (p : String)
      (h : S.calls.get? i = some (CallSt.start p)) :
      UStepOk S (runCall S i p)
  | resolve (S : UpSt) (op : Nat) (o : OpRec) (aid : String)
      (h : S.ops.get? op = some o) (hp : o.result = none) :
      UStepOk S (resolveOkF S op aid)

/-- Steps of a general run: a pending operation may also reject. -/
inductive UStep : UpSt → UpSt → Prop
  | ok {S S' : UpSt} : UStepOk S S' → UStep S S'
  | reject (S : UpSt) (op : Nat) (o : OpRec)
      (h : S.ops.get? op = some o) (hp : o.result = none) :
      UStep S (resolveErrF S op)

/-- The run's initial state: empty cache, no in-flight uploads, the given
calls yet to run, no operations. -/
def initSt (ps : List String) : UpSt :=
  ⟨[], [], ps.map CallSt.start, []⟩

theorem runCall_cached (S : UpSt) (i : Nat) (p aid : String)
    (h : lookupS p S.cache = some aid) :
    runCall S i p = { S with calls := S.calls.set i (CallSt.done p aid) } := by
  unfold runCall
  rw [h]

theorem runCall_join (S : UpSt) (i : Nat) (p : String) (op : Nat)
    (hc : lookupS p S.cache = none) (hf : lookupS p S.inflight = some op) :
    runCall S i p =
      { S with calls := S.calls.set i (CallSt.waiting p op) } := by
  unfold runCall
  rw [hc, hf]

theorem runCall_fresh (S : UpSt) (i : Nat) (p : String)
    (hc : lookupS p S.cache = none) (hf : lookupS p S.inflight = none) :
    runCall S i p =
      { S with
        ops := S.ops ++ [⟨p, none⟩],
        inflight := (p, S.ops.length) :: S.inflight,
        calls := S.calls.set i (CallSt.waiting p S.ops.length) } := by
  unfold runCall
  rw [hc, hf]

theorem resolveOkF_eq (S : UpSt) (op : Nat) (o : OpRec) (aid : String)
    (h : S.ops.get? op = some o) :
    resolveOkF S op aid =
      { cache := (o.path, aid) :: S.cache,
        inflight := S.inflight.filter (fun e => !(e.1 == o.path)),
        calls := S.calls.map (resumeOk op aid),
        ops := S.ops.set op ⟨o.path, some (Except.ok aid)⟩ } := by
  unfold resolveOkF
  rw [h]

theorem resolveErrF_eq (S : UpSt) (op : Nat) (o : OpRec)
    (h : S.ops.get? op = some o) :
    resolveErrF S op =
      { cache := S.cache,
        inflight := S.inflight.filter (fun e => !(e.1 == o.path)),
        calls := S.calls.map (resumeErr op),
        ops := S.ops.set op ⟨o.path, some (Except.error ())⟩ } := by
  unfold resolveErrF
  rw [h]

theorem get?_set {α : Type} (l : List α) (i j : Nat) (a : α) :
    (l.set i a).get? j =
      if i = j ∧ i < l.length then some a else l.get? j := by
  by_cases hij : i = j
  · subst hij
    by_cases hlen : i < l.length
    · rw [List.get?_set_eq_of_lt a hlen, if_pos ⟨rfl, hlen⟩]
    · rw [if_neg (fun hh => hlen hh.2), List.set_eq_of_length_le (by omega)]
  · rw [if_neg (fun hh => hij hh.1), List.get?_set_ne a l hij]

theorem get?_append_new {α : Type} (l : List α) (x : α) :
    (l ++ [x]).get? l.length = some x := by
  rw [List.get?_append_right (Nat.le_refl _), Nat.sub_self]
  rfl

theorem get?_append_old {α : Type} {l : List α} {x : α} {i : Nat} {a : α}
    (h : l.get? i = some a) : (l ++ [x]).get? i = some a := by
  rw [List.get?_append (get?_some_lt h)]
  exact h

theorem get?_append_cases {α : Type} {l : List α} {x : α} {i : Nat} {a : α}
    (h : (l ++ [x]).get? i = some a) :
    (i = l.length ∧ a = x) ∨ l.get? i = some a := by
  by_cases hlt : i < l.length
  · rw [List.get?_append hlt] at h
    exact Or.inr h
  · rw [List.get?_append_right (by omega)] at h
    have hi0 : i - l.length = 0 := by
      have := get?_some_lt h
      simp at this
      omega
    rw [hi0] at h
    injection h with h'
    exact Or.inl ⟨by omega, h'.symm⟩

/-- Structural invariant of every reachable upload state: pending operations
are exactly the `uploadPromises` entries, a pending path is not yet cached,
cache entries come from (and are written by) successfully settled operations,
and waiting/done calls point at real operations. -/
structure UpInv (S : UpSt) : Prop where
  pendingInflight : ∀ op o, S.ops.get? op = some o → o.result = none →
    lookupS o.path S.inflight = some op
  inflightPending : ∀ p op, lookupS p S.inflight = some op →
    ∃ o, S.ops.get? op = some o ∧ o.path = p ∧ o.result = none
  pendingCacheNone : ∀ op o, S.ops.get? op = some o → o.result = none →
    lookupS o.path S.cache = none
  cacheResolved : ∀ p aid, lookupS p S.cache = some aid →
    ∃ op o, S.ops.get? op = some o ∧ o.path = p ∧
      o.result = some (Except.ok aid)
  resolvedCache : ∀ op o aid, S.ops.get? op = some o →
    o.result = some (Except.ok aid) → lookupS o.path S.cache = some aid
  waitingOp : ∀ i p op, S.calls.get? i = some (CallSt.waiting p op) →
    ∃ o, S.ops.get? op = some o ∧ o.path = p
  doneResolved : ∀ i p r, S.calls.get? i = some (CallSt.done p r) →
    ∃ op o, S.ops.get? op = some o ∧ o.path = p ∧
      o.result = some (Except.ok r)

/-- In a run without rejections every settled operation succeeded. -/
def AllOk (S : UpSt) : Prop :=
  ∀ op o, S.ops.get? op = some o → o.result ≠ none →
    ∃ aid, o.result = some (Except.ok aid)

/-- At most one upload operation exists per absolute path. -/
def PathUnique (S : UpSt) : Prop :=
  ∀ i j oi oj, S.ops.get? i = some oi → S.ops.get? j = some oj →
    oi.path = oj.path → i = j

theorem upInv_initSt (ps : List String) : UpInv (initSt ps) := by
  constructor
  · intro op o h _
    cases op <;> cases h
  · intro p op h
    cases h
  · intro op o h _
    cases op <;> cases h
  · intro p aid h
    cases h
  · intro op o aid h _
    cases op <;> cases h
  · intro i p op h
    rw [show (initSt ps).calls = ps.map CallSt.start from rfl,
      List.get?_map] at h
    cases hp : ps.get? i with
    | none => rw [hp] at h; cases h
    | some q =>
      rw [hp] at h
      injection h with h'
      cases h'
  · intro i p r h
    rw [show (initSt ps).calls = ps.map CallSt.start from rfl,
      List.get?_map] at h
    cases hp : ps.get? i with
    | none => rw [hp] at h; cases h
    | some q =>
      rw [hp] at h
      injection h with h'
      cases h'

theorem allOk_initSt (ps : List String) : AllOk (initSt ps) := by
  intro op o h _
  cases op <;> cases h

theorem pathUnique_initSt (ps : List String) : PathUnique (initSt ps) := by
  intro i j oi oj hi _ _
  cases i <;> cases hi

theorem resumeOk_eq_waiting {op : Nat} {aid : String} {c : CallSt}
    {q : String} {op' : Nat}
    (h : resumeOk op aid c = CallSt.waiting q op') :
    c = CallSt.waiting q op' ∧ op' ≠ op := by
  cases c with
  | start p'' => cases h
  | waiting q'' o'' =>
    by_cases hb : (o'' == op) = true
    · rw [show resumeOk op aid (CallSt.waiting q'' o'') = CallSt.done q'' aid
        from by
        show (if (o'' == op) = true then CallSt.done q'' aid
          else CallSt.waiting q'' o'') = CallSt.done q'' aid
        rw [if_pos hb]] at h
      cases h
    · rw [show resumeOk op aid (CallSt.waiting q'' o'') =
          CallSt.waiting q'' o'' from by
        show (if (o'' == op) = true then CallSt.done q'' aid
          else CallSt.waiting q'' o'') = CallSt.waiting q'' o''
        rw [if_neg hb]] at h
      injection h with h1 h2
      subst h1
      subst h2
      exact ⟨rfl, fun hh => hb (beq_iff_eq.2 hh)⟩
  | done q'' r'' => cases h
  | failed q'' => cases h

theorem resumeOk_eq_done {op : Nat} {aid : String} {c : CallSt} {q : String}
    {rr : String} (h : resumeOk op aid c = CallSt.done q rr) :
    c = CallSt.done q rr ∨ (c = CallSt.waiting q op ∧ rr = aid) := by
  cases c with
  | start p'' => cases h
  | waiting q'' o'' =>
    by_cases hb : (o'' == op) = true
    · rw [show resumeOk op aid (CallSt.waiting q'' o'') = CallSt.done q'' aid
        from by
        show (if (o'' == op) = true then CallSt.done q'' aid
          else CallSt.waiting q'' o'') = CallSt.done q'' aid
        rw [if_pos hb]] at h
      injection h with h1 h2
      subst h1
      exact Or.inr ⟨by rw [eq_of_beq hb], h2.symm⟩
    · rw [show resumeOk op aid (CallSt.waiting q'' o'') =
          CallSt.waiting q'' o'' from by
        show (if (o'' == op) = true then CallSt.done q'' aid
          else CallSt.waiting q'' o'') = CallSt.waiting q'' o''
        rw [if_neg hb]] at h
      cases h
  | done q'' r'' => exact Or.inl h
  | failed q'' => cases h

theorem resumeErr_eq_waiting {op : Nat} {c : CallSt} {q : String}
    {op' : Nat} (h : resumeErr op c = CallSt.waiting q op') :
    c = CallSt.waiting q op' ∧ op' ≠ op := by
  cases c with
  | start p'' => cases h
  | waiting q'' o'' =>
    by_cases hb : (o'' == op) = true
    · rw [show resumeErr op (CallSt.waiting q'' o'') = CallSt.failed q''
        from by
        show (if (o'' == op) = true then CallSt.failed q''
          else CallSt.waiting q'' o'') = CallSt.failed q''
        rw [if_pos hb]] at h
      cases h
    · rw [show resumeErr op (CallSt.waiting q'' o'') =
          CallSt.waiting q'' o'' from by
        show (if (o'' == op) = true then CallSt.failed q''
          else CallSt.waiting q'' o'') = CallSt.waiting q'' o''
        rw [if_neg hb]] at h
      injection h with h1 h2
      subst h1
      subst h2
      exact ⟨rfl, fun hh => hb (beq_iff_eq.2 hh)⟩
  | done q'' r'' => cases h
  | failed q'' => cases h

theorem resumeErr_eq_done {op : Nat} {c : CallSt} {q : String} {rr : String}
    (h : resumeErr op c = CallSt.done q rr) : c = CallSt.done q rr := by
  cases c with
  | start p'' => cases h
  | waiting q'' o'' =>
    by_cases hb : (o'' == op) = true
    · rw [show resumeErr op (CallSt.waiting q'' o'') = CallSt.failed q''
        from by
        show (if (o'' == op) = true then CallSt.failed q''
          else CallSt.waiting q'' o'') = CallSt.failed q''
        rw [if_pos hb]] at h
      cases h
    · rw [show resumeErr op (CallSt.waiting q'' o'') =
          CallSt.waiting q'' o'' from by
        show (if (o'' == op) = true then CallSt.failed q''
          else CallSt.waiting q'' o'') = CallSt.waiting q'' o''
        rw [if_neg hb]] at h
      cases h
  | done q'' r'' => exact h
  | failed q'' => cases h

theorem upInv_runCall (S : UpSt) (i : Nat) (p : String)
    (hinv : UpInv S) : UpInv (runCall S i p) := by
  rcases hc : lookupS p S.cache with _ | aid
  · rcases hf : lookupS p S.inflight with _ | op
    · rw [runCall_fresh S i p hc hf]
      constructor
      · intro op' o' h' hres'
        rcases get?_append_cases h' with ⟨hop, ho⟩ | hold
        · subst hop
          subst ho
          rw [lookupS_cons, if_pos (beq_iff_eq.2 rfl)]
        · have hl := hinv.pendingInflight op' o' hold hres'
          rw [lookupS_cons]
          cases hb : (p == o'.path) with
          | true =>
            rw [eq_of_beq hb] at hf
            rw [hf] at hl
            cases hl
          | false =>
            rw [if_neg (by exact Bool.false_ne_true)]
            exact hl
      · intro q op' h'
        rw [lookupS_cons] at h'
        by_cases hb : (p == q) = true
        · rw [if_pos hb] at h'
          injection h' with h''
          refine ⟨⟨p, none⟩, ?_, eq_of_beq hb, rfl⟩
          rw [← h'']
          exact get?_append_new S.ops ⟨p, none⟩
        · rw [if_neg hb] at h'
          obtain ⟨o, hget, hpath, hres⟩ := hinv.inflightPending q op' h'
          exact ⟨o, get?_append_old hget, hpath, hres⟩
      · intro op' o' h' hres'
        rcases get?_append_cases h' with ⟨hop, ho⟩ | hold
        · subst ho
          exact hc
        · exact hinv.pendingCacheNone op' o' hold hres'
      · intro q aid h'
        obtain ⟨op', o', hget, hpath, hres⟩ := hinv.cacheResolved q aid h'
        exact ⟨op', o', get?_append_old hget, hpath, hres⟩
      · intro op' o' aid h' hres'
        rcases get?_append_cases h' with ⟨hop, ho⟩ | hold
        · subst ho
          cases hres'
        · exact hinv.resolvedCache op' o' aid hold hres'
      · intro j q op' hj
        have hj' : (S.calls.set i
            (CallSt.waiting p S.ops.length)).get? j =
            some (CallSt.waiting q op') := hj
        clear hj
        rw [get?_set] at hj'
        by_cases hcnd : i = j ∧ i < S.calls.length
        · rw [if_pos hcnd] at hj'
          injection hj' with hj''
          injection hj'' with h1 h2
          subst h1
          subst h2
          exact ⟨⟨p, none⟩, get?_append_new S.ops ⟨p, none⟩, rfl⟩
        · rw [if_neg hcnd] at hj'
          obtain ⟨o, hget, hpath⟩ := hinv.waitingOp j q op' hj'
          exact ⟨o, get?_append_old hget, hpath⟩
      · intro j q rr hj
        have hj' : (S.calls.set i
            (CallSt.waiting p S.ops.length)).get? j =
            some (CallSt.done q rr) := hj
        clear hj
        rw [get?_set] at hj'
        by_cases hcnd : i = j ∧ i < S.calls.length
        · rw [if_pos hcnd] at hj'
          injection hj' with hj''
          cases hj''
        · rw [if_neg hcnd] at hj'
          obtain ⟨op', o', hget, hpath, hres⟩ :=
            hinv.doneResolved j q rr hj'
          exact ⟨op', o', get?_append_old hget, hpath, hres⟩
    · rw [runCall_join S i p op hc hf]
      refine ⟨hinv.pendingInflight, hinv.inflightPending,
        hinv.pendingCacheNone, hinv.cacheResolved, hinv.resolvedCache,
        ?_, ?_⟩
      · intro j q op' hj
        rw [show ({ S with
            calls := S.calls.set i (CallSt.waiting p op) } : UpSt).calls =
          S.calls.set i (CallSt.waiting p op) from rfl, get?_set] at hj
        by_cases hcnd : i = j ∧ i < S.calls.length
        · rw [if_pos hcnd] at hj
          injection hj with hj'
          injection hj' with h1 h2
          subst h1
          subst h2
          obtain ⟨o, hget, hpath, _⟩ := hinv.inflightPending _ _ hf
          exact ⟨o, hget, hpath⟩
        · rw [if_neg hcnd] at hj
          exact hinv.waitingOp j q op' hj
      · intro j q rr hj
        rw [show ({ S with
            calls := S.calls.set i (CallSt.waiting p op) } : UpSt).calls =
          S.calls.set i (CallSt.waiting p op) from rfl, get?_set] at hj
        by_cases hcnd : i = j ∧ i < S.calls.length
        · rw [if_pos hcnd] at hj
          injection hj with hj'
          cases hj'
        · rw [if_neg hcnd] at hj
          exact hinv.doneResolved j q rr hj
  · rw [runCall_cached S i p aid hc]
    refine ⟨hinv.pendingInflight, hinv.inflightPending,
      hinv.pendingCacheNone, hinv.cacheResolved, hinv.resolvedCache,
      ?_, ?_⟩
    · intro j q op' hj
      rw [show ({ S with
          calls := S.calls.set i (CallSt.done p aid) } : UpSt).calls =
        S.calls.set i (CallSt.done p aid) from rfl, get?_set] at hj
      by_cases hcnd : i = j ∧ i < S.calls.length
      · rw [if_pos hcnd] at hj
        injection hj with hj'
        cases hj'
      · rw [if_neg hcnd] at hj
        exact hinv.waitingOp j q op' hj
    · intro j q rr hj
      rw [show ({ S with
          calls := S.calls.set i (CallSt.done p aid) } : UpSt).calls =
        S.calls.set i (CallSt.done p aid) from rfl, get?_set] at hj
      by_cases hcnd : i = j ∧ i < S.calls.length
      · rw [if_pos hcnd] at hj
        injection hj with hj'
        injection hj' with h1 h2
        subst h1
        subst h2
        exact hinv.cacheResolved _ _ hc
      · rw [if_neg hcnd] at hj
        exact hinv.doneResolved j q rr hj

theorem pend_unique (S : UpSt) (hinv : UpInv S) {op op' : Nat} {o o' : OpRec}
    (h : S.ops.get? op = some o) (hres : o.result = none)
    (h' : S.ops.get? op' = some o') (hres' : o'.result = none)
    (hpath : o'.path = o.path) : op' = op := by
  have h1 := hinv.pendingInflight op o h hres
  have h2 := hinv.pendingInflight op' o' h' hres'
  rw [hpath] at h2
  rw [h1] at h2
  injection h2 with h3
  exact h3.symm

theorem upInv_resolveOkF (S : UpSt) (op : Nat) (o : OpRec) (aid : String)
    (h : S.ops.get? op = some o) (hres : o.result = none)
    (hinv : UpInv S) : UpInv (resolveOkF S op aid) := by
  rw [resolveOkF_eq S op o aid h]
  constructor
  · intro op' o' h' hres'
    rw [get?_set] at h'
    by_cases hcnd : op = op' ∧ op < S.ops.length
    · rw [if_pos hcnd] at h'
      injection h' with h''
      rw [← h''] at hres'
      cases hres'
    · rw [if_neg hcnd] at h'
      have hl := hinv.pendingInflight op' o' h' hres'
      show lookupS o'.path (S.inflight.filter (fun e => !(e.1 == o.path))) =
        some op'
      rw [lookupS_filterOut]
      cases hb : (o.path == o'.path) with
      | true =>
        exact absurd ⟨(pend_unique S hinv h hres h' hres'
          (eq_of_beq hb).symm).symm, get?_some_lt h⟩ hcnd
      | false =>
        rw [if_neg (by exact Bool.false_ne_true)]
        exact hl
  · intro q op' h'
    have h'2 : lookupS q (S.inflight.filter (fun e => !(e.1 == o.path))) =
      some op' := h'
    rw [lookupS_filterOut] at h'2
    by_cases hb : (o.path == q) = true
    · rw [if_pos hb] at h'2
      cases h'2
    · rw [if_neg hb] at h'2
      obtain ⟨o'', hget, hpath, hres''⟩ := hinv.inflightPending q op' h'2
      have hne : op' ≠ op := by
        intro hh
        subst hh
        rw [h] at hget
        injection hget with hg
        rw [← hg] at hpath
        rw [hpath] at hb
        exact hb (beq_iff_eq.2 rfl)
      refine ⟨o'', ?_, hpath, hres''⟩
      rw [get?_set, if_neg (fun hh => hne hh.1.symm)]
      exact hget
  · intro op' o' h' hres'
    rw [get?_set] at h'
    by_cases hcnd : op = op' ∧ op < S.ops.length
    · rw [if_pos hcnd] at h'
      injection h' with h''
      rw [← h''] at hres'
      cases hres'
    · rw [if_neg hcnd] at h'
      have hl := hinv.pendingCacheNone op' o' h' hres'
      show lookupS o'.path ((o.path, aid) :: S.cache) = none
      rw [lookupS_cons]
      cases hb : (o.path == o'.path) with
      | true =>
        exact absurd ⟨(pend_unique S hinv h hres h' hres'
          (eq_of_beq hb).symm).symm, get?_some_lt h⟩ hcnd
      | false =>
        rw [if_neg (by exact Bool.false_ne_true)]
        exact hl
  · intro q aid' h'
    have h'2 : lookupS q ((o.path, aid) :: S.cache) = some aid' := h'
    rw [lookupS_cons] at h'2
    by_cases hb : (o.path == q) = true
    · rw [if_pos hb] at h'2
      injection h'2 with h''
      refine ⟨op, ⟨o.path, some (Except.ok aid)⟩, ?_, eq_of_beq hb,
        by rw [h'']⟩
      rw [get?_set, if_pos ⟨rfl, get?_some_lt h⟩]
    · rw [if_neg hb] at h'2
      obtain ⟨op'', o'', hget, hpath, hres''⟩ := hinv.cacheResolved q aid' h'2
      have hne : op'' ≠ op := by
        intro hh
        subst hh
        rw [h] at hget
        injection hget with hg
        rw [← hg] at hres''
        rw [hres] at hres''
        cases hres''
      refine ⟨op'', o'', ?_, hpath, hres''⟩
      rw [get?_set, if_neg (fun hh => hne hh.1.symm)]
      exact hget
  · intro op' o' aid' h' hres'
    rw [get?_set] at h'
    by_cases hcnd : op = op' ∧ op < S.ops.length
    · rw [if_pos hcnd] at h'
      injection h' with h''
      rw [← h''] at hres'
      have hres'2 : some (Except.ok aid) = some (Except.ok aid') := hres'
      injection hres'2 with hok
      injection hok with haid
      show lookupS o'.path ((o.path, aid) :: S.cache) = some aid'
      rw [← h'']
      show lookupS o.path ((o.path, aid) :: S.cache) = some aid'
      rw [lookupS_cons, if_pos (beq_iff_eq.2 rfl), haid]
    · rw [if_neg hcnd] at h'
      have hl := hinv.resolvedCache op' o' aid' h' hres'
      show lookupS o'.path ((o.path, aid) :: S.cache) = some aid'
      rw [lookupS_cons]
      cases hb : (o.path == o'.path) with
      | true =>
        have hpn := hinv.pendingCacheNone op o h hres
        rw [eq_of_beq hb] at hpn
        rw [hpn] at hl
        cases hl
      | false =>
        rw [if_neg (by exact Bool.false_ne_true)]
        exact hl
  · intro j q op' hj
    have hj2 : ((S.calls.map (resumeOk op aid)).get? j) =
      some (CallSt.waiting q op') := hj
    rw [List.get?_map] at hj2
    cases hcall : S.calls.get? j with
    | none =>
      rw [hcall] at hj2
      cases hj2
    | some c =>
      rw [hcall] at hj2
      injection hj2 with hj'
      obtain ⟨hcw, hne⟩ := resumeOk_eq_waiting hj'
      rw [hcw] at hcall
      obtain ⟨o'', hget, hpath⟩ := hinv.waitingOp j q op' hcall
      refine ⟨o'', ?_, hpath⟩
      rw [get?_set, if_neg (fun hh => hne hh.1.symm)]
      exact hget
  · intro j q rr hj
    have hj2 : ((S.calls.map (resumeOk op aid)).get? j) =
      some (CallSt.done q rr) := hj
    rw [List.get?_map] at hj2
    cases hcall : S.calls.get? j with
    | none =>
      rw [hcall] at hj2
      cases hj2
    | some c =>
      rw [hcall] at hj2
      injection hj2 with hj'
      rcases resumeOk_eq_done hj' with hcd | ⟨hcw, hraid⟩
      · rw [hcd] at hcall
        obtain ⟨op'', o'', hget, hpath, hres''⟩ :=
          hinv.doneResolved j q rr hcall
        have hne : op'' ≠ op := by
          intro hh
          subst hh
          rw [h] at hget
          injection hget with hg
          rw [← hg] at hres''
          rw [hres] at hres''
          cases hres''
        refine ⟨op'', o'', ?_, hpath, hres''⟩
        rw [get?_set, if_neg (fun hh => hne hh.1.symm)]
        exact hget
      · rw [hcw] at hcall
        obtain ⟨o'', hget, hpath⟩ := hinv.waitingOp j q op hcall
        rw [h] at hget
        injection hget with hg
        rw [← hg] at hpath
        refine ⟨op, ⟨o.path, some (Except.ok aid)⟩, ?_, hpath, by rw [hraid]⟩
        rw [get?_set, if_pos ⟨rfl, get?_some_lt h⟩]

theorem upInv_resolveErrF (S : UpSt) (op : Nat) (o : OpRec)
    (h : S.ops.get? op = some o) (hres : o.result = none)
    (hinv : UpInv S) : UpInv (resolveErrF S op) := by
  rw [resolveErrF_eq S op o h]
  constructor
  · intro op' o' h' hres'
    rw [get?_set] at h'
    by_cases hcnd : op = op' ∧ op < S.ops.length
    · rw [if_pos hcnd] at h'
      injection h' with h''
      rw [← h''] at hres'
      cases hres'
    · rw [if_neg hcnd] at h'
      have hl := hinv.pendingInflight op' o' h' hres'
      show lookupS o'.path (S.inflight.filter (fun e => !(e.1 == o.path))) =
        some op'
      rw [lookupS_filterOut]
      cases hb : (o.path == o'.path) with
      | true =>
        exact absurd ⟨(pend_unique S hinv h hres h' hres'
          (eq_of_beq hb).symm).symm, get?_some_lt h⟩ hcnd
      | false =>
        rw [if_neg (by exact Bool.false_ne_true)]
        exact hl
  · intro q op' h'
    have h'2 : lookupS q (S.inflight.filter (fun e => !(e.1 == o.path))) =
      some op' := h'
    rw [lookupS_filterOut] at h'2
    by_cases hb : (o.path == q) = true
    · rw [if_pos hb] at h'2
      cases h'2
    · rw [if_neg hb] at h'2
      obtain ⟨o'', hget, hpath, hres''⟩ := hinv.inflightPending q op' h'2
      have hne : op' ≠ op := by
        intro hh
        subst hh
        rw [h] at hget
        injection hget with hg
        rw [← hg] at hpath
        rw [hpath] at hb
        exact hb (beq_iff_eq.2 rfl)
      refine ⟨o'', ?_, hpath, hres''⟩
      rw [get?_set, if_neg (fun hh => hne hh.1.symm)]
      exact hget
  · intro op' o' h' hres'
    rw [get?_set] at h'
    by_cases hcnd : op = op' ∧ op < S.ops.length
    · rw [if_pos hcnd] at h'
      injection h' with h''
      rw [← h''] at hres'
      cases hres'
    · rw [if_neg hcnd] at h'
      exact hinv.pendingCacheNone op' o' h' hres'
  · intro q aid' h'
    obtain ⟨op'', o'', hget, hpath, hres''⟩ := hinv.cacheResolved q aid' h'
    have hne : op'' ≠ op := by
      intro hh
      subst hh
      rw [h] at hget
      injection hget with hg
      rw [← hg] at hres''
      rw [hres] at hres''
      cases hres''
    refine ⟨op'', o'', ?_, hpath, hres''⟩
    rw [get?_set, if_neg (fun hh => hne hh.1.symm)]
    exact hget
  · intro op' o' aid' h' hres'
    rw [get?_set] at h'
    by_cases hcnd : op = op' ∧ op < S.ops.length
    · rw [if_pos hcnd] at h'
      injection h' with h''
      rw [← h''] at hres'
      have hres'2 : some (Except.error ()) = some (Except.ok aid') := hres'
      injection hres'2 with hok
      cases hok
    · rw [if_neg hcnd] at h'
      exact hinv.resolvedCache op' o' aid' h' hres'
  · intro j q op' hj
    have hj2 : ((S.calls.map (resumeErr op)).get? j) =
      some (CallSt.waiting q op') := hj
    rw [List.get?_map] at hj2
    cases hcall : S.calls.get? j with
    | none =>
      rw [hcall] at hj2
      cases hj2
    | some c =>
      rw [hcall] at hj2
      injection hj2 with hj'
      obtain ⟨hcw, hne⟩ := resumeErr_eq_waiting hj'
      rw [hcw] at hcall
      obtain ⟨o'', hget, hpath⟩ := hinv.waitingOp j q op' hcall
      refine ⟨o'', ?_, hpath⟩
      rw [get?_set, if_neg (fun hh => hne hh.1.symm)]
      exact hget
  · intro j q rr hj
    have hj2 : ((S.calls.map (resumeErr op)).get? j) =
      some (CallSt.done q rr) := hj
    rw [List.get?_map] at hj2
    cases hcall : S.calls.get? j with
    | none =>
      rw [hcall] at hj2
      cases hj2
    | some c =>
      rw [hcall] at hj2
      injection hj2 with hj'
      rw [resumeErr_eq_done hj'] at hcall
      obtain ⟨op'', o'', hget, hpath, hres''⟩ :=
        hinv.doneResolved j q rr hcall
      have hne : op'' ≠ op := by
        intro hh
        subst hh
        rw [h] at hget
        injection hget with hg
        rw [← hg] at hres''
        rw [hres] at hres''
        cases hres''
      refine ⟨op'', o'', ?_, hpath, hres''⟩
      rw [get?_set, if_neg (fun hh => hne hh.1.symm)]
      exact hget

theorem allOk_runCall (S : UpSt) (i : Nat) (p : String) (ha : AllOk S) :
    AllOk (runCall S i p) := by
  rcases hc : lookupS p S.cache with _ | aid
  · rcases hf : lookupS p S.inflight with _ | op
    · rw [runCall_fresh S i p hc hf]
      intro op' o' h' hne
      rcases get?_append_cases h' with ⟨_, ho⟩ | hold
      · subst ho
        exact absurd rfl hne
      · exact ha op' o' hold hne
    · rw [runCall_join S i p op hc hf]
      exact ha
  · rw [runCall_cached S i p aid hc]
    exact ha

theorem allOk_resolveOkF (S : UpSt) (op : Nat) (o : OpRec) (aid : String)
    (h : S.ops.get? op = some o) (ha : AllOk S) :
    AllOk (resolveOkF S op aid) := by
  rw [resolveOkF_eq S op o aid h]
  intro op' o' h' hne
  rw [get?_set] at h'
  by_cases hcnd : op = op' ∧ op < S.ops.length
  · rw [if_pos hcnd] at h'
    injection h' with h''
    exact ⟨aid, by rw [← h'']⟩
  · rw [if_neg hcnd] at h'
    exact ha op' o' h' hne

theorem pathUnique_runCall (S : UpSt) (i : Nat) (p : String)
    (hinv : UpInv S) (ha : AllOk S) (hp : PathUnique S) :
    PathUnique (runCall S i p) := by
  rcases hc : lookupS p S.cache with _ | aid
  · rcases hf : lookupS p S.inflight with _ | op
    · rw [runCall_fresh S i p hc hf]
      intro i' j' oi oj hi hj hpath
      have hblock : ∀ k ok', S.ops.get? k = some ok' → ok'.path = p →
          False := by
        intro k ok' hk hkp
        cases hkres : ok'.result with
        | none =>
          have hl := hinv.pendingInflight k ok' hk hkres
          rw [hkp, hf] at hl
          cases hl
        | some rres =>
          obtain ⟨aid', hok⟩ := ha k ok' hk
            (by rw [hkres]; exact fun hh => Option.noConfusion hh)
          have hl := hinv.resolvedCache k ok' aid' hk hok
          rw [hkp, hc] at hl
          cases hl
      rcases get?_append_cases hi with ⟨hieq, hio⟩ | hiold <;>
      rcases get?_append_cases hj with ⟨hjeq, hjo⟩ | hjold
      · rw [hieq, hjeq]
      · exfalso
        apply hblock j' oj hjold
        rw [← hpath, hio]
      · exfalso
        apply hblock i' oi hiold
        rw [hpath, hjo]
      · exact hp i' j' oi oj hiold hjold hpath
    · rw [runCall_join S i p op hc hf]
      exact hp
  · rw [runCall_cached S i p aid hc]
    exact hp

theorem pathUnique_resolveOkF (S : UpSt) (op : Nat) (o : OpRec)
    (aid : String) (h : S.ops.get? op = some o) (hp : PathUnique S) :
    PathUnique (resolveOkF S op aid) := by
  rw [resolveOkF_eq S op o aid h]
  intro i' j' oi oj hi hj hpath
  rw [get?_set] at hi hj
  have htrans : ∀ (k : Nat) (ok' : OpRec),
      (if op = k ∧ op < S.ops.length then
        some (⟨o.path, some (Except.ok aid)⟩ : OpRec) else S.ops.get? k) =
        some ok' →
      ∃ oOld, S.ops.get? k = some oOld ∧ oOld.path = ok'.path := by
    intro k ok' hk
    by_cases hcnd : op = k ∧ op < S.ops.length
    · rw [if_pos hcnd] at hk
      injection hk with hk'
      refine ⟨o, ?_, by rw [← hk']⟩
      rw [← hcnd.1]
      exact h
    · rw [if_neg hcnd] at hk
      exact ⟨ok', hk, rfl⟩
  obtain ⟨oi', hgi, hpi⟩ := htrans i' oi hi
  obtain ⟨oj', hgj, hpj⟩ := htrans j' oj hj
  exact hp i' j' oi' oj' hgi hgj (by rw [hpi, hpj, hpath])

theorem uStepOk_upInv {S S' : UpSt} (h : UStepOk S S') (hinv : UpInv S) :
    UpInv S' := by
  cases h with
  | call i p hc => exact upInv_runCall S i p hinv
  | resolve op o aid hget hpend =>
    exact upInv_resolveOkF S op o aid hget hpend hinv

theorem uStepOk_allOk {S S' : UpSt} (h : UStepOk S S') (ha : AllOk S) :
    AllOk S' := by
  cases h with
  | call i p hc => exact allOk_runCall S i p ha
  | resolve op o aid hget hpend => exact allOk_resolveOkF S op o aid hget ha

theorem uStepOk_pathUnique {S S' : UpSt} (h : UStepOk S S') (hinv : UpInv S)
    (ha : AllOk S) (hp : PathUnique S) : PathUnique S' := by
  cases h with
  | call i p hc => exact pathUnique_runCall S i p hinv ha hp
  | resolve op o aid hget hpend =>
    exact pathUnique_resolveOkF S op o aid hget hp

theorem uStep_upInv {S S' : UpSt} (h : UStep S S') (hinv : UpInv S) :
    UpInv S' := by
  cases h with
  | ok hok => exact uStepOk_upInv hok hinv
  | reject op o hget hpend => exact upInv_resolveErrF S op o hget hpend hinv

theorem reachOk_inv (ps : List String) (S : UpSt)
    (h : Relation.ReflTransGen UStepOk (initSt ps) S) :
    UpInv S ∧ AllOk S ∧ PathUnique S := by
  induction h with
  | refl => exact ⟨upInv_initSt ps, allOk_initSt ps, pathUnique_initSt ps⟩
  | tail hR hstep ih =>
    obtain ⟨hi, ha, hp⟩ := ih
    exact ⟨uStepOk_upInv hstep hi, uStepOk_allOk hstep ha,
      uStepOk_pathUnique hstep hi ha hp⟩

theorem reach_upInv (ps : List String) (S : UpSt)
    (h : Relation.ReflTransGen UStep (initSt ps) S) : UpInv S := by
  induction h with
  | refl => exact upInv_initSt ps
  | tail hR hstep ih => exact uStep_upInv hstep ih

/-- C4: in any schedule of a run whose uploads all succeed — concurrent calls
included — the following hold of every reachable state: at most one upload
operation exists per absolute path, so repeated calls for one path performed
exactly one underlying upload; every call that returned received the asset id
of that path's single successful operation; and once a path's result is
cached, a further call for it returns the cached id in its synchronous
prefix, adding no operation and touching no other state. -/
theorem C4_upload_dedupe (ps : List String) (S : UpSt)
    (htr : Relation.ReflTransGen UStepOk (initSt ps) S) :
    (∀ i j oi oj, S.ops.get? i = some oi → S.ops.get? j = some oj →
      oi.path = oj.path → i = j) ∧
    (∀ i p r, S.calls.get? i = some (CallSt.done p r) →
      ∃ op o, S.ops.get? op = some o ∧ o.path = p ∧
        o.result = some (Except.ok r)) ∧
    (∀ i p aid, lookupS p S.cache = some aid →
      runCall S i p =
        { S with calls := S.calls.set i (CallSt.done p aid) }) := by
  obtain ⟨hi, _, hp⟩ := reachOk_inv ps S htr
  exact ⟨hp, hi.doneResolved,
    fun i p aid hc => runCall_cached S i p aid hc⟩

/-- First step of the C4 witness run: the first of two calls for the same
path starts the upload. -/
def w4S1 : UpSt := runCall (initSt ["a.png", "a.png"]) 0 "a.png"

/-- Second step: the concurrent second call joins the in-flight upload. -/
def w4S2 : UpSt := runCall w4S1 1 "a.png"

/-- Third step: the single upload resolves and both callers get its id. -/
def w4S3 : UpSt := resolveOkF w4S2 0 "img1"

theorem C4_upload_dedupe_witness :
    (∀ i j oi oj, w4S3.ops.get? i = some oi → w4S3.ops.get? j = some oj →
      oi.path = oj.path → i = j) ∧
    (∀ i p r, w4S3.calls.get? i = some (CallSt.done p r) →
      ∃ op o, w4S3.ops.get? op = some o ∧ o.path = p ∧
        o.result = some (Except.ok r)) ∧
    (∀ i p aid, lookupS p w4S3.cache = some aid →
      runCall w4S3 i p =
        { w4S3 with calls := w4S3.calls.set i (CallSt.done p aid) }) :=
  C4_upload_dedupe ["a.png", "a.png"] w4S3
    (Relation.ReflTransGen.tail
      (Relation.ReflTransGen.tail
        (Relation.ReflTransGen.tail Relation.ReflTransGen.refl
          (UStepOk.call (initSt ["a.png", "a.png"]) 0 "a.png" (by decide)))
        (UStepOk.call w4S1 1 "a.png" (by decide)))
      (UStepOk.resolve w4S2 0 ⟨"a.png", none⟩ "img1" (by decide) rfl))

/-- C10: if an upload operation rejects (invalid image type, read error, or
upload failure after retries), the asset cache is left exactly as it was —
and it held no entry for the failed path — the `uploadPromises` entry for the
path is removed, and a subsequent call for the same path finds neither a
cache entry nor an in-flight upload, so it starts a fresh operation,
re-attempting validation, reading and upload, rather than reusing a cached
failure. -/
theorem C10_upload_failure (ps : List String) (S : UpSt)
    (htr : Relation.ReflTransGen UStep (initSt ps) S)
    (op : Nat) (o : OpRec) (h : S.ops.get? op = some o)
    (hres : o.result = none) :
    (resolveErrF S op).cache = S.cache ∧
    lookupS o.path S.cache = none ∧
    lookupS o.path (resolveErrF S op).inflight = none ∧
    (∀ i, runCall (resolveErrF S op) i o.path =
      { resolveErrF S op with
        ops := (resolveErrF S op).ops ++ [⟨o.path, none⟩],
        inflight := (o.path, (resolveErrF S op).ops.length) ::
          (resolveErrF S op).inflight,
        calls := (resolveErrF S op).calls.set i
          (CallSt.waiting o.path (resolveErrF S op).ops.length) }) := by
  have hinv := reach_upInv ps S htr
  have hcache : (resolveErrF S op).cache = S.cache := by
    rw [resolveErrF_eq S op o h]
  have h2 : lookupS o.path S.cache = none :=
    hinv.pendingCacheNone op o h hres
  have h3 : lookupS o.path (resolveErrF S op).inflight = none := by
    rw [resolveErrF_eq S op o h]
    show lookupS o.path (S.inflight.filter (fun e => !(e.1 == o.path))) =
      none
    rw [lookupS_filterOut, if_pos (beq_iff_eq.2 rfl)]
  refine ⟨hcache, h2, h3, ?_⟩
  intro i
  exact runCall_fresh (resolveErrF S op) i o.path (by rw [hcache]; exact h2)
    h3

/-- The single step of the C10 witness run: one call starts an upload that
will reject. -/
def w10S1 : UpSt := runCall (initSt ["b.png"]) 0 "b.png"

theorem C10_upload_failure_witness :
    (resolveErrF w10S1 0).cache = w10S1.cache ∧
    lookupS (OpRec.path ⟨"b.png", none⟩) w10S1.cache = none ∧
    lookupS (OpRec.path ⟨"b.png", none⟩) (resolveErrF w10S1 0).inflight =
      none ∧
    (∀ i, runCall (resolveErrF w10S1 0) i (OpRec.path ⟨"b.png", none⟩) =
      { resolveErrF w10S1 0 with
        ops := (resolveErrF w10S1 0).ops ++ [⟨OpRec.path ⟨"b.png", none⟩,
          none⟩],
        inflight := (OpRec.path ⟨"b.png", none⟩,
          (resolveErrF w10S1 0).ops.length) ::
          (resolveErrF w10S1 0).inflight,
        calls := (resolveErrF w10S1 0).calls.set i
          (CallSt.waiting (OpRec.path ⟨"b.png", none⟩)
            (resolveErrF w10S1 0).ops.length) }) :=
  C10_upload_failure ["b.png"] w10S1
    (Relation.ReflTransGen.tail Relation.ReflTransGen.refl
      (UStep.ok (UStepOk.call (initSt ["b.png"]) 0 "b.png" (by decide))))
    0 ⟨"b.png", none⟩ (by decide) rfl

/-! ### Per-file import and idempotence (`importFile`, lines 702–776;
`slugify`, lines 117–128; `makeDocumentId`, lines 160–163) -/

/-- `[a-z0-9]` — the characters `slugify` keeps. -/
def isLowerAlnum (c : Char) : Bool :=
  ('a' ≤ c && c ≤ 'z') || ('0' ≤ c && c ≤ '9')

/-- `.replace(/[^a-z0-9]+/g, "-")`: each maximal run of characters outside
`[a-z0-9]` becomes a single dash. The flag records whether the previous
character was part of such a run. -/
def slugCollapseGo : Bool → List Char → List Char
  | _, [] => []
  | inRun, c :: cs =>
    if isLowerAlnum c then c :: slugCollapseGo false cs
    else if inRun then slugCollapseGo true cs
    else '-' :: slugCollapseGo true cs

def slugCollapse (l : List Char) : List Char :=
  slugCollapseGo false l

/-- One leading dash removed, as `/(^-|-$)/g` does at the start. -/
def dropLeadDash : List Char → List Char
  | '-' :: t => t
  | t => t

/-- One trailing dash removed, as `/(^-|-$)/g` does at the end. -/
def dropTailDash (l : List Char) : List Char :=
  (dropLeadDash l.reverse).reverse

/-- `slugify(input)`: trim, lowercase, collapse non-alphanumeric runs to
dashes, strip edge dashes; `none` models the throw on an empty result. -/
def slugify (s : List Char) : Option (List Char) :=
  let sl := dropTailDash (dropLeadDash (slugCollapse
    ((trim s).map Char.toLower)))
  if sl.isEmpty then none else some sl

/-- `makeDocumentId(type, slug)`: `type-slug`, with a `drafts.` namespace
prefix when importing as drafts. -/
def makeDocumentId (draft : Bool) (ty slug : List Char) : List Char :=
  (if draft then ['d', 'r', 'a', 'f', 't', 's', '.'] else []) ++
    (ty ++ '-' :: slug)

/-- Relabel the counter-issued keys by the run's actual random draws
(`generateKey` returns the `n`-th random hex string for the `n`-th call). -/
def mapKeysChild (g : Nat → Nat) : Child → Child
  | Child.span k t m => Child.span (k.map g) t m
  | Child.extra k p => Child.extra (k.map g) p

def mapKeysItem (g : Nat → Nat) : PTItem → PTItem
  | PTItem.block k sty md cs =>
    PTItem.block (k.map g) sty md (cs.map (mapKeysChild g))
  | PTItem.image k d => PTItem.image (k.map g) d
  | PTItem.misc k t => PTItem.misc (k.map g) t

/-- Erase every `_key` (the only randomly drawn content of a document). -/
def eraseKeyChild : Child → Child
  | Child.span _ t m => Child.span none t m
  | Child.extra _ p => Child.extra none p

def eraseKeyItem : PTItem → PTItem
  | PTItem.block _ sty md cs =>
    PTItem.block none sty md (cs.map eraseKeyChild)
  | PTItem.image _ d => PTItem.image none d
  | PTItem.misc _ t => PTItem.misc none t

/-- The run-dependent inputs of one importer run: its random key stream (as
a relabelling of counter-issued keys), the current time
(`new Date().toISOString()`), the asset ids the server assigned to uploads,
and the resolved author and cover-asset references. -/
structure RunEnv where
  genKey : Nat → Nat
  now : String
  assetRef : Nat → String
  authorRef : String
  coverRef : String

/-- The post document `importFile` assembles for `client.createOrReplace`. -/
structure PostDoc where
  id : String
  title : String
  slugCur : String
  authorRef : String
  mainImageRef : String
  mainImageAlt : String
  publishedAt : String
  excerpt : Option String
  body : List PTItem
  categories : List String
deriving DecidableEq

/-- `fm.slug || slugify(title)`. -/
def slugOf (fm : Frontmatter) (title : String) : Option (List Char) :=
  match fm.slug with
  | some s => if s == "" then slugify title.toList else some s.toList
  | none => slugify title.toList

/-- `fm.publishedAt || new Date().toISOString()`. -/
def publishedAtOf (env : RunEnv) (fm : Frontmatter) : String :=
  if truthy fm.publishedAt then fm.publishedAt.getD "" else env.now

/-- `fm.excerpt || null`. -/
def excerptOf (fm : Frontmatter) : Option String :=
  if truthy fm.excerpt then fm.excerpt else none

/-- The document `importFile` builds from a validated file (lines 711–763):
deterministic `_id` from the slug, body from the extract–convert–splice
pipeline with this run's keys, `publishedAt` defaulted to the run's current
time when absent. `none` models the throws (missing title / empty slug). -/
def docOf (conv : List Char → List PTItem) (env : RunEnv) (draft : Bool)
    (fm : Frontmatter) (content : List Char) (title : String)
    (slug : List Char) : PostDoc :=
  { id := String.mk (makeDocumentId draft ['p', 'o', 's', 't'] slug),
    title := title,
    slugCur := String.mk slug,
    authorRef := env.authorRef,
    mainImageRef := env.coverRef,
    mainImageAlt := fm.mainImageAlt.getD "",
    publishedAt := publishedAtOf env fm,
    excerpt := excerptOf fm,
    body := (markdownToPortableTextWithInlineImages conv env.assetRef
      content 0).map (mapKeysItem env.genKey),
    categories := fm.categories }

def importFileDoc (conv : List Char → List PTItem) (env : RunEnv)
    (draft : Bool) (fm : Frontmatter) (content : List Char) :
    Option PostDoc :=
  match fm.title with
  | none => none
  | some title =>
    match slugOf fm title with
    | none => none
    | some slug => some (docOf conv env draft fm content title slug)

/-- `client.createOrReplace`: replace the record carrying the same `_id`,
insert otherwise. -/
def upsert (store : List (String × PostDoc)) (d : PostDoc) :
    List (String × PostDoc) :=
  (d.id, d) :: store.filter (fun e => !(e.1 == d.id))

def eraseKeysDoc (d : PostDoc) : PostDoc :=
  { d with body := d.body.map eraseKeyItem }

theorem eraseKey_mapKeysChild (g : Nat → Nat) (c : Child) :
    eraseKeyChild (mapKeysChild g c) = eraseKeyChild c := by
  cases c <;> rfl

theorem eraseKey_mapKeys (g : Nat → Nat) (it : PTItem) :
    eraseKeyItem (mapKeysItem g it) = eraseKeyItem it := by
  cases it with
  | block k sty md cs =>
    show PTItem.block none sty md
        ((cs.map (mapKeysChild g)).map eraseKeyChild) =
      PTItem.block none sty md (cs.map eraseKeyChild)
    rw [List.map_map]
    congr 1
    induction cs with
    | nil => rfl
    | cons c cs ih =>
      show (eraseKeyChild (mapKeysChild g c)) :: _ = _
      rw [eraseKey_mapKeysChild]
      exact congrArg _ ih
  | image k d => rfl
  | misc k t => rfl

theorem upsert_upsert (store : List (String × PostDoc)) (d1 d2 : PostDoc)
    (hid : d1.id = d2.id) :
    upsert (upsert store d1) d2 = upsert store d2 := by
  unfold upsert
  rw [hid]
  rw [List.filter_cons]
  rw [if_neg (by
    show ¬((!(d2.id == d2.id)) = true)
    rw [beq_iff_eq.2 rfl]
    decide)]
  congr 1
  rw [List.filter_filter]
  apply List.filter_congr
  intro a _
  exact Bool.and_self _

/-- Concrete converter for the C5 counterexample: one keyless paragraph, so
`ensureKeys` draws keys for it. -/
def c5conv : List Char → List PTItem := fun _ =>
  [PTItem.block none "normal" [] [Child.span none (some ['h', 'i']) []]]

/-- Frontmatter of the C5 counterexample file (explicit `publishedAt`). -/
def c5fm : Frontmatter :=
  ⟨some "A", some "Ann", none, some "cover.png", some "alt",
    some "2024-01-01T00:00:00Z", none, none, []⟩

/-- First run's environment: identity key stream. -/
def c5env1 : RunEnv :=
  ⟨fun n => n, "2024-01-02T00:00:00Z", fun _ => "asset-1", "author-ann",
    "cover-asset"⟩

/-- Second run's environment: a different random key stream, everything else
equal. -/
def c5env2 : RunEnv :=
  ⟨fun n => n + 100, "2024-01-03T00:00:00Z", fun _ => "asset-1",
    "author-ann", "cover-asset"⟩

/-- C5 counterexample: two real-write runs over the same unchanged file draw
different random `_key`s (`generateKey` uses `crypto.randomBytes`), so the
two upserted documents share their `_id` but are not equal — the claimed
"same final document content" fails verbatim. (A frontmatter without
`publishedAt` likewise gets each run's own `new Date().toISOString()`.) -/
theorem C5_counterexample :
    ∃ d1 d2 : PostDoc,
      importFileDoc c5conv c5env1 false c5fm [] = some d1 ∧
      importFileDoc c5conv c5env2 false c5fm [] = some d2 ∧
      d1.id = d2.id ∧ d1 ≠ d2 := by
  refine ⟨_, _, rfl, rfl, rfl, ?_⟩
  decide

/-- C5 (amended): re-running the importer in real-write mode on an unchanged
file yields the same document id, and the same content up to the freshly
drawn random `_key`s — exactly equal content needs an explicit `publishedAt`
and the same server-assigned asset ids and author resolution, and equality
is after erasing keys; the second run's `createOrReplace` then overwrites
the first record instead of adding a duplicate. -/
theorem C5_idempotent_up_to_keys (conv : List Char → List PTItem)
    (env1 env2 : RunEnv) (draft : Bool) (fm : Frontmatter)
    (content : List Char) (store : List (String × PostDoc))
    (ha : env1.assetRef = env2.assetRef)
    (hr : env1.authorRef = env2.authorRef)
    (hcv : env1.coverRef = env2.coverRef)
    (hpub : truthy fm.publishedAt = true)
    (d1 d2 : PostDoc)
    (h1 : importFileDoc conv env1 draft fm content = some d1)
    (h2 : importFileDoc conv env2 draft fm content = some d2) :
    d1.id = d2.id ∧ eraseKeysDoc d1 = eraseKeysDoc d2 ∧
    upsert (upsert store d1) d2 = upsert store d2 := by
  unfold importFileDoc at h1 h2
  cases htitle : fm.title with
  | none =>
    rw [htitle] at h1
    cases h1
  | some title =>
    rw [htitle] at h1 h2
    replace h1 : (match slugOf fm title with
      | none => none
      | some slug => some (docOf conv env1 draft fm content title slug)) =
        some d1 := h1
    replace h2 : (match slugOf fm title with
      | none => none
      | some slug => some (docOf conv env2 draft fm content title slug)) =
        some d2 := h2
    cases hslug : slugOf fm title with
    | none =>
      rw [hslug] at h1
      cases h1
    | some slug =>
      rw [hslug] at h1 h2
      injection h1 with h1'
      injection h2 with h2'
      subst h1'
      subst h2'
      have hpa : publishedAtOf env1 fm = publishedAtOf env2 fm := by
        unfold publishedAtOf
        rw [if_pos hpub, if_pos hpub]
      have hbody :
          ((markdownToPortableTextWithInlineImages conv env1.assetRef
            content 0).map (mapKeysItem env1.genKey)).map eraseKeyItem =
          ((markdownToPortableTextWithInlineImages conv env2.assetRef
            content 0).map (mapKeysItem env2.genKey)).map eraseKeyItem := by
        rw [ha, List.map_map, List.map_map]
        apply List.map_congr_left
        intro it _
        show eraseKeyItem (mapKeysItem env1.genKey it) =
          eraseKeyItem (mapKeysItem env2.genKey it)
        rw [eraseKey_mapKeys, eraseKey_mapKeys]
      refine ⟨rfl, ?_, ?_⟩
      · show ({ docOf conv env1 draft fm content title slug with
            body := (docOf conv env1 draft fm content title slug).body.map
              eraseKeyItem } : PostDoc) = _
        unfold docOf
        rw [hr, hcv, hpa, hbody]
        unfold eraseKeysDoc
        rfl
      · apply upsert_upsert
        rfl

theorem C5_idempotent_up_to_keys_witness :
    ∃ d1 d2 : PostDoc,
      importFileDoc c5conv c5env1 false c5fm [] = some d1 ∧
      importFileDoc c5conv c5env2 false c5fm [] = some d2 ∧
      (d1.id = d2.id ∧ eraseKeysDoc d1 = eraseKeysDoc d2 ∧
        upsert (upsert [] d1) d2 = upsert [] d2) := by
  refine ⟨_, _, rfl, rfl, ?_⟩
  exact C5_idempotent_up_to_keys c5conv c5env1 c5env2 false c5fm [] []
    rfl rfl rfl (by decide) _ _ rfl rfl

/-! ### Dry-run effects (`ensureAuthor`, lines 299–337; `uploadImageAsset`
dry branch, lines 260–267; upsert branch of `importFile`, lines 765–774) -/

/-- An externally visible effect of one importer operation. -/
inductive Effect where
  | netFetch (q : String)
  | netCreateAuthor (id : String)
  | netUpload (p : String)
  | netUpsert (id : String)
  | logLine (s : String)
deriving DecidableEq

/-- Network calls (reads and writes). -/
def isNetEffect : Effect → Bool
  | Effect.netFetch _ => true
  | Effect.netCreateAuthor _ => true
  | Effect.netUpload _ => true
  | Effect.netUpsert _ => true
  | Effect.logLine _ => false

/-- Mutating network calls. -/
def isWriteEffect : Effect → Bool
  | Effect.netFetch _ => false
  | Effect.netCreateAuthor _ => true
  | Effect.netUpload _ => true
  | Effect.netUpsert _ => true
  | Effect.logLine _ => false

/-- `ensureAuthor({ authorId, author })` with its effect trace. `write` is
the `WRITE` flag (false in dry-run); `fetchById`/`fetchByName` stand for the
two GROQ queries' results (`some` = a document with an `_id` was found).
Note the fetches run regardless of `write`; only the create is guarded. -/
def ensureAuthor (write draft : Bool)
    (fetchById fetchByName : String → Option String)
    (authorId author : Option String) : Except String String × List Effect :=
  if truthy authorId then
    match fetchById (authorId.getD "") with
    | some _ => (Except.ok (authorId.getD ""),
        [Effect.netFetch (authorId.getD "")])
    | none =>
      (Except.error ("authorId not found: " ++ authorId.getD ""),
        [Effect.netFetch (authorId.getD "")])
  else if truthy author = false then
    (Except.error "Frontmatter must include 'author' (name) or 'authorId'.",
      [])
  else
    match fetchByName (author.getD "") with
    | some eid => (Except.ok eid, [Effect.netFetch (author.getD "")])
    | none =>
      match slugify (author.getD "").toList with
      | none =>
        (Except.error ("Cannot generate valid slug from input: " ++
          author.getD ""), [Effect.netFetch (author.getD "")])
      | some s =>
        if write then
          (Except.ok (String.mk (makeDocumentId draft
              ['a', 'u', 't', 'h', 'o', 'r'] s)),
            [Effect.netFetch (author.getD ""),
             Effect.netCreateAuthor (String.mk (makeDocumentId draft
               ['a', 'u', 't', 'h', 'o', 'r'] s)),
             Effect.logLine ("  [create] author: " ++ author.getD "" ++
               " -> " ++ String.mk (makeDocumentId draft
                 ['a', 'u', 't', 'h', 'o', 'r'] s))])
        else
          (Except.ok (String.mk (makeDocumentId draft
              ['a', 'u', 't', 'h', 'o', 'r'] s)),
            [Effect.netFetch (author.getD ""),
             Effect.logLine ("  [dry] would create author: " ++
               author.getD "" ++ " -> " ++ String.mk (makeDocumentId draft
                 ['a', 'u', 't', 'h', 'o', 'r'] s))])

/-- The effects of an `uploadImageAsset` call that reaches the upload stage
(`cached = true` models the `assetCache` hit, which performs no I/O). -/
def uploadImageEffects (write : Bool) (absPath filename : String)
    (cached : Bool) : List Effect :=
  if cached then []
  else if write then
    [Effect.netUpload absPath,
     Effect.logLine ("  [upload] " ++ filename)]
  else
    [Effect.logLine ("  [dry] would upload image asset: " ++ filename)]

/-- The effects of the upsert step at the end of `importFile`. -/
def upsertEffects (write : Bool) (docId : String) : List Effect :=
  if write then
    [Effect.netUpsert docId, Effect.logLine ("  [ok] upserted: " ++ docId)]
  else
    [Effect.logLine ("  [dry] would upsert: " ++ docId)]

/-- Author fetch-by-id result for the C6 counterexample: the id exists. -/
def c6FetchById : String → Option String := fun s => some s

def c6FetchByName : String → Option String := fun _ => none

/-- C6 counterexample: in dry-run mode a file whose frontmatter carries
`authorId` still triggers the author existence check — a real network fetch —
so "zero network calls" and "skips the existence check" are both false; only
the mutating calls are skipped. -/
theorem C6_counterexample :
    Effect.netFetch "author-team" ∈
      (ensureAuthor false false c6FetchById c6FetchByName
        (some "author-team") none).2 ∧
    isNetEffect (Effect.netFetch "author-team") = true := by
  constructor
  · decide
  · rfl

/-- C6 (amended): in dry-run mode no mutating network call is made: the
author resolver never creates (though it still performs its read fetches),
the asset uploader performs no network call at all and logs a
"[dry] would upload" line, and the document upsert performs no network call
and logs a "[dry] would upsert" line. -/
theorem C6_dry_run_no_writes (draft : Bool)
    (fetchById fetchByName : String → Option String)
    (authorId author : Option String) (absPath filename docId : String)
    (cached : Bool) :
    (∀ e ∈ (ensureAuthor false draft fetchById fetchByName
        authorId author).2, isWriteEffect e = false) ∧
    (∀ e ∈ uploadImageEffects false absPath filename cached,
      isNetEffect e = false) ∧
    (∀ e ∈ upsertEffects false docId, isNetEffect e = false) := by
  refine ⟨?_, ?_, ?_⟩
  · intro e he
    unfold ensureAuthor at he
    by_cases h1 : truthy authorId = true
    · rw [if_pos h1] at he
      cases hf : fetchById (authorId.getD "") with
      | some x =>
        rw [hf] at he
        rcases List.mem_cons.1 he with rfl | he
        · rfl
        · cases he
      | none =>
        rw [hf] at he
        rcases List.mem_cons.1 he with rfl | he
        · rfl
        · cases he
    · rw [if_neg h1] at he
      by_cases h2 : truthy author = false
      · rw [if_pos h2] at he
        cases he
      · rw [if_neg h2] at he
        cases hf : fetchByName (author.getD "") with
        | some x =>
          rw [hf] at he
          rcases List.mem_cons.1 he with rfl | he
          · rfl
          · cases he
        | none =>
          rw [hf] at he
          cases hs : slugify (author.getD "").toList with
          | none =>
            rw [hs] at he
            rcases List.mem_cons.1 he with rfl | he
            · rfl
            · cases he
          | some s =>
            rw [hs] at he
            replace he : e ∈ [Effect.netFetch (author.getD ""),
              Effect.logLine ("  [dry] would create author: " ++
                author.getD "" ++ " -> " ++ String.mk (makeDocumentId draft
                  ['a', 'u', 't', 'h', 'o', 'r'] s))] := he
            rcases List.mem_cons.1 he with rfl | he
            · rfl
            · rcases List.mem_cons.1 he with rfl | he
              · rfl
              · cases he
  · intro e he
    unfold uploadImageEffects at he
    by_cases hcd : cached = true
    · rw [if_pos hcd] at he
      cases he
    · rw [if_neg hcd] at he
      rw [if_neg (by exact Bool.false_ne_true)] at he
      rcases List.mem_cons.1 he with rfl | he
      · rfl
      · cases he
  · intro e he
    unfold upsertEffects at he
    rw [if_neg (by exact Bool.false_ne_true)] at he
    rcases List.mem_cons.1 he with rfl | he
    · rfl
    · cases he

theorem C6_dry_run_no_writes_witness :
    (∀ e ∈ (ensureAuthor false false c6FetchById c6FetchByName
        none (some "Ann")).2, isWriteEffect e = false) ∧
    (∀ e ∈ uploadImageEffects false "/a/b.png" "b.png" false,
      isNetEffect e = false) ∧
    (∀ e ∈ upsertEffects false "post-a", isNetEffect e = false) :=
  C6_dry_run_no_writes false c6FetchById c6FetchByName none (some "Ann")
    "/a/b.png" "b.png" "post-a" false

end Importer
